import Mathlib

/-!
# markovChain: a shallow embedding of `markov.go`

The model follows the Go source statement by statement.

* A Go string is the list of its bytes: `len`, slicing and indexing count bytes.  A
  `[]string` is a list of strings and a `map[string][]string` an association list that is
  read and written by key.
* A run-time panic (slice bounds or index out of range, `make` with a negative length,
  `rand.Intn` with a non-positive argument) is the result `none`.  Integers are unbounded
  and memory is unlimited.
* `Build` takes the two readers as the sequences of lines their scanners yield.
* `strings.Fields`, `strings.ToLower`, `strings.TrimPrefix`, `strings.TrimSuffix`,
  `strings.Join` and `strings.Replace` are modelled on bytes with the UTF-8 decoding of the
  Go library; the lower-case table of the `unicode` package is the parameter `lc`.
* `Generate` takes the random source as the sequence `rnd` of the values it yields.
-/

namespace MarkovChain

/-! ## Strings and the library functions the program calls -/

/-- A Go string: the list of its bytes. -/
abbrev Str := List Nat

/-- The bytes of an ASCII literal. -/
def str (s : String) : Str := s.toList.map Char.toNat

/-- The constant `ENDLINE = "____ENDLINE"` (markov.go:17). -/
def ENDLINE : Str := [95, 95, 95, 95, 69, 78, 68, 76, 73, 78, 69]

/-- Go `strings.Join(elems, sep)`. -/
def Join : List Str → Str → Str
  | [], _ => []
  | [a], _ => a
  | a :: b :: rest, sep => a ++ sep ++ Join (b :: rest) sep

/-- Go `utf8.DecodeRuneInString` on a non-empty string: the rune at the head and its width in
bytes.  An invalid or truncated encoding decodes to `U+FFFD` with width 1. -/
def decodeRune : Str → Nat × Nat
  | [] => (0xFFFD, 0)
  | b0 :: rest =>
    if b0 < 0x80 then (b0, 1)
    else if b0 < 0xC2 then (0xFFFD, 1)
    else if b0 < 0xE0 then
      match rest with
      | b1 :: _ =>
        if 0x80 ≤ b1 ∧ b1 ≤ 0xBF then ((b0 % 32) * 64 + b1 % 64, 2) else (0xFFFD, 1)
      | [] => (0xFFFD, 1)
    else if b0 < 0xF0 then
      match rest with
      | b1 :: b2 :: _ =>
        if (if b0 = 0xE0 then 0xA0 else 0x80) ≤ b1 ∧ b1 ≤ (if b0 = 0xED then 0x9F else 0xBF)
            ∧ 0x80 ≤ b2 ∧ b2 ≤ 0xBF then
          ((b0 % 16) * 4096 + (b1 % 64) * 64 + b2 % 64, 3)
        else (0xFFFD, 1)
      | _ => (0xFFFD, 1)
    else if b0 < 0xF5 then
      match rest with
      | b1 :: b2 :: b3 :: _ =>
        if (if b0 = 0xF0 then 0x90 else 0x80) ≤ b1 ∧ b1 ≤ (if b0 = 0xF4 then 0x8F else 0xBF)
            ∧ 0x80 ≤ b2 ∧ b2 ≤ 0xBF ∧ 0x80 ≤ b3 ∧ b3 ≤ 0xBF then
          ((b0 % 8) * 262144 + (b1 % 64) * 4096 + (b2 % 64) * 64 + b3 % 64, 4)
        else (0xFFFD, 1)
      | _ => (0xFFFD, 1)
    else (0xFFFD, 1)

/-- Go `utf8.AppendRune`: the UTF-8 encoding of a rune; surrogates and values above
`U+10FFFF` are encoded as `U+FFFD`. -/
def encodeRune (r : Nat) : Str :=
  if r ≤ 0x7F then [r]
  else if r ≤ 0x7FF then [0xC0 + r / 64, 0x80 + r % 64]
  else if 0x10FFFF < r ∨ (0xD800 ≤ r ∧ r ≤ 0xDFFF) then [0xEF, 0xBF, 0xBD]
  else if r ≤ 0xFFFF then [0xE0 + r / 4096, 0x80 + r / 64 % 64, 0x80 + r % 64]
  else [0xF0 + r / 262144, 0x80 + r / 4096 % 64, 0x80 + r / 64 % 64, 0x80 + r % 64]

/-- The iteration `for _, r := range s`: the runes of `s`, each with the bytes it was decoded
from.  The first argument bounds the number of runes; `runes` passes the length of `s`. -/
def runesAux : Nat → Str → List (Nat × Str)
  | 0, _ => []
  | _ + 1, [] => []
  | fuel + 1, b :: bs =>
    ((decodeRune (b :: bs)).1, (b :: bs).take (decodeRune (b :: bs)).2) ::
      runesAux fuel ((b :: bs).drop (decodeRune (b :: bs)).2)

/-- The runes of a string with their encodings, see `runesAux`. -/
def runes (s : Str) : List (Nat × Str) := runesAux s.length s

/-- Go `unicode.IsSpace`. -/
def IsSpace (r : Nat) : Bool :=
  (9 ≤ r && r ≤ 13) || r = 0x20 || r = 0x85 || r = 0xA0 || r = 0x1680 ||
    (0x2000 ≤ r && r ≤ 0x200A) || r = 0x2028 || r = 0x2029 || r = 0x202F || r = 0x205F ||
    r = 0x3000

/-- The loop of Go `strings.FieldsFunc`; `cur` is the open field (`start >= 0`), if any. -/
def fieldsAux (f : Nat → Bool) : List (Nat × Str) → Option Str → List Str
  | [], none => []
  | [], some cur => [cur]
  | (r, bs) :: rest, none => if f r then fieldsAux f rest none else fieldsAux f rest (some bs)
  | (r, bs) :: rest, some cur =>
    if f r then cur :: fieldsAux f rest none else fieldsAux f rest (some (cur ++ bs))

/-- Go `strings.Fields(s)`: the maximal runs of runes that are not `unicode.IsSpace`. -/
def Fields (s : Str) : List Str := fieldsAux IsSpace (runes s) none

/-- Go `unicode.ToLower`: ASCII letters are handled inline, other runes through the case
tables, `lc r` standing for `unicode.To(unicode.LowerCase, r)`. -/
def unicodeToLower (lc : Nat → Nat) (r : Nat) : Nat :=
  if r ≤ 0x7F then (if 65 ≤ r ∧ r ≤ 90 then r + 32 else r) else lc r

/-- Go `strings.ToLower(s)`: an all-ASCII string is lowered bytewise, any other string through
`strings.Map(unicode.ToLower, s)`, which re-encodes every rune (an invalid byte becomes the
encoding of `U+FFFD`). -/
def ToLower (lc : Nat → Nat) (s : Str) : Str :=
  if s.all (fun c => c < 0x80) then s.map (fun c => if 65 ≤ c ∧ c ≤ 90 then c + 32 else c)
  else (runes s).foldr (fun rb out => encodeRune (unicodeToLower lc rb.1) ++ out) []

/-- An excerpt of the lower-case mapping of Go's `unicode.CaseRanges` table (Latin-1, Greek
and Cyrillic capitals, the Kelvin and Angstrom signs); runes outside the excerpt are left
unchanged.  It only serves to evaluate the program on concrete inputs. -/
def caseRangesLower (r : Nat) : Nat :=
  if (0xC0 ≤ r ∧ r ≤ 0xD6) ∨ (0xD8 ≤ r ∧ r ≤ 0xDE) then r + 32
  else if (0x391 ≤ r ∧ r ≤ 0x3A1) ∨ (0x3A3 ≤ r ∧ r ≤ 0x3AB) then r + 32
  else if 0x400 ≤ r ∧ r ≤ 0x40F then r + 80
  else if 0x410 ≤ r ∧ r ≤ 0x42F then r + 32
  else if r = 0x212A then 0x6B
  else if r = 0x212B then 0xE5
  else r

/-- Go `strings.TrimPrefix(s, pre)`. -/
def TrimPrefix (s pre : Str) : Str := if pre.isPrefixOf s then s.drop pre.length else s

/-- Go `strings.TrimSuffix(s, suf)`. -/
def TrimSuffix (s suf : Str) : Str :=
  if suf.isSuffixOf s then s.take (s.length - suf.length) else s

/-- The scan of Go `strings.Replace(s, old, new, -1)` for a non-empty `old`: occurrences of
`old` are replaced from left to right without overlap; `skip` counts the bytes of the
occurrence being replaced that are still to be passed over. -/
def replaceAux (old new : Str) : Nat → Str → Str
  | _, [] => []
  | skip + 1, _ :: cs => replaceAux old new skip cs
  | 0, c :: cs =>
    if old.isPrefixOf (c :: cs) then new ++ replaceAux old new (old.length - 1) cs
    else c :: replaceAux old new 0 cs

/-- Go `strings.Replace(s, old, new, -1)` for a non-empty `old`. -/
def Replace (s old new : Str) : Str := replaceAux old new 0 s


/-! ## The program -/

/-- A Markov chain window, `type Prefix []string` (markov.go:20). -/
abbrev Prefix := List Str

/-- Go builtin `copy(dst, src)`: the first `min (len dst) (len src)` elements of `dst` are
overwritten with those of `src` (overlap is harmless, the runtime uses memmove); the result
is the new contents of `dst`. -/
def copy {α : Type} (dst src : List α) : List α :=
  src.take (min dst.length src.length) ++ dst.drop (min dst.length src.length)

/-- Go slice expression `s[lo:]`; it panics unless `0 <= lo <= len(s)`. -/
def sliceFrom {α : Type} (s : List α) (lo : Int) : Option (List α) :=
  if 0 ≤ lo ∧ lo ≤ s.length then some (s.drop lo.toNat) else none

/-- Go slice expression `s[:hi]`; it panics unless `0 <= hi <= len(s)`. -/
def sliceTo {α : Type} (s : List α) (hi : Int) : Option (List α) :=
  if 0 ≤ hi ∧ hi ≤ s.length then some (s.take hi.toNat) else none

/-- Go index expression `s[i]`; it panics unless `0 <= i < len(s)`. -/
def getAt {α : Type} (s : List α) (i : Int) : Option α :=
  if 0 ≤ i ∧ i < s.length then s[i.toNat]? else none

/-- Go assignment `s[i] = v`; it panics unless `0 <= i < len(s)`. -/
def setAt {α : Type} (s : List α) (i : Int) (v : α) : Option (List α) :=
  if 0 ≤ i ∧ i < s.length then some (s.set i.toNat v) else none

/-- The method `func (p Prefix) String() string` (markov.go:23-25). -/
def Prefix.String (p : Prefix) : Str := Join p [32]

/-- The method `func (p Prefix) Shift(word string)` (markov.go:28-31); the result is the new
contents of the slice `p`.  `p[1:]` and `p[len(p)-1]` panic on an empty slice. -/
def Prefix.Shift (p : Prefix) (word : Str) : Option Prefix :=
  match sliceFrom p 1 with
  | none => none
  | some tl => setAt (copy p tl) ((p.length : Int) - 1) word

/-- A Go `map[string][]string` as an association list: `find` reads the first entry of a key
and `put` overwrites it or adds the key, so distinct keys stay distinct. -/
abbrev Table := List (Str × List Str)

/-- The lookup `v, ok := m[k]`; `none` when the key is absent. -/
def Table.find : Table → Str → Option (List Str)
  | [], _ => none
  | (k1, v1) :: m, k => if k1 = k then some v1 else Table.find m k

/-- The expression `m[k]`: the nil slice when the key is absent. -/
def Table.get (m : Table) (k : Str) : List Str := (m.find k).getD []

/-- The assignment `m[k] = v`. -/
def Table.put : Table → Str → List Str → Table
  | [], k, v => [(k, v)]
  | (k1, v1) :: m, k, v => if k1 = k then (k, v) :: m else (k1, v1) :: Table.put m k v

/-- The struct `Chain` (markov.go:36-39). -/
structure Chain where
  /-- The field `chain`: prefix key to list of suffixes. -/
  chain : Table
  /-- The field `maxPrefixLen` (a Go `int`). -/
  maxPrefixLen : Int
deriving DecidableEq

/-- The constructor `NewChain(maxPrefixLen)` (markov.go:42-44). -/
def NewChain (maxPrefixLen : Int) : Chain := ⟨[], maxPrefixLen⟩

/-- The statements `ps := make([]Prefix, n)` and `ps[i] = make(Prefix, i+1)` for `i < n`
(markov.go:61-64 and 93-96): windows of 1, 2, ..., n empty strings.  `make` panics on a
negative length. -/
def newPrefixes (n : Int) : Option (List Prefix) :=
  if n < 0 then none
  else some ((List.range n.toNat).map (fun i => List.replicate (i + 1) []))

/-- The avoid set built at markov.go:49-57, as the list of inserted members.  `avoidR` is the
sequence of lines the scanner yields for the avoid source. -/
def avoidSet (lc : Nat → Nat) (avoidR : List Str) : List Str :=
  avoidR.foldl (fun avoid line =>
    (Fields line).foldl (fun avoid s =>
      if s.length ≥ 3 then ToLower lc s :: avoid else avoid) avoid) []

/-- The matching key of a corpus word (markov.go:67-69). -/
def matchKey (lc : Nat → Nat) (s : Str) : Str :=
  TrimSuffix (TrimPrefix (ToLower lc s) [60]) [62]

/-- The body of the word loop up to the hyphenation (markov.go:67-77): the value of `s` that
is recorded.  The slices `s[:1]` and `s[1:]` panic on an empty string. -/
def learn (lc : Nat → Nat) (avoid : List Str) (s : Str) : Option Str :=
  let lowers := matchKey lc s
  let exists1 := decide (lowers ∈ avoid)
  let exists2 : Option Bool :=
    if lowers.length > 1 then
      match sliceTo lowers ((lowers.length : Int) - 1) with
      | none => none
      | some cut => some (decide (cut ∈ avoid))
    else some false
  match exists2 with
  | none => none
  | some e2 =>
    if exists1 || e2 then
      match sliceTo s 1, sliceFrom s 1 with
      | some a, some b => some (a ++ [45] ++ b)
      | _, _ => none
    else some s

/-- The log of a run of `Build` (ghost state, read by no branch): for every execution of
markov.go:80 or 86, the key looked up and the observation appended under it. -/
abbrev Log := List (Str × Str)

/-- The loop over the orders at markov.go:78-82, on the windows still to visit. -/
def recordWord (s : Str) : List Prefix → Table → Log → Option (List Prefix × Table × Log)
  | [], chain, log => some ([], chain, log)
  | p :: ps, chain, log =>
    let key := p.String
    match p.Shift s with
    | none => none
    | some p1 =>
      match recordWord s ps (chain.put key (chain.get key ++ [s])) (log ++ [(key, s)]) with
      | none => none
      | some (ps1, chain1, log1) => some (p1 :: ps1, chain1, log1)

/-- The loop over the orders at markov.go:84-87, on the windows still to visit. -/
def recordEnd : List Prefix → Table → Log → Table × Log
  | [], chain, log => (chain, log)
  | p :: ps, chain, log =>
    recordEnd ps (chain.put p.String (chain.get p.String ++ [ENDLINE]))
      (log ++ [(p.String, ENDLINE)])

/-- The loop over the words of a line (markov.go:65-83). -/
def recordWords (lc : Nat → Nat) (avoid : List Str) :
    List Str → List Prefix → Table → Log → Option (List Prefix × Table × Log)
  | [], ps, chain, log => some (ps, chain, log)
  | s :: rest, ps, chain, log =>
    match learn lc avoid s with
    | none => none
    | some s1 =>
      match recordWord s1 ps chain log with
      | none => none
      | some (ps1, chain1, log1) => recordWords lc avoid rest ps1 chain1 log1

/-- The loop over the lines of the corpus (markov.go:60-88). -/
def recordLines (lc : Nat → Nat) (avoid : List Str) (maxPrefixLen : Int) :
    List Str → Table → Log → Option (Table × Log)
  | [], chain, log => some (chain, log)
  | line :: rest, chain, log =>
    match newPrefixes maxPrefixLen with
    | none => none
    | some ps =>
      match recordWords lc avoid (Fields line) ps chain log with
      | none => none
      | some (ps1, chain1, log1) =>
        recordLines lc avoid maxPrefixLen rest (recordEnd ps1 chain1 log1).1
          (recordEnd ps1 chain1 log1).2

/-- The method `Build` (markov.go:48-89) with its log.  `r` and `avoidR` are the sequences of
lines the two scanners yield; `lc` is the lower-case table of the `unicode` package. -/
def BuildLog (lc : Nat → Nat) (c : Chain) (r avoidR : List Str) : Option (Chain × Log) :=
  match recordLines lc (avoidSet lc avoidR) c.maxPrefixLen r c.chain [] with
  | none => none
  | some (chain1, log1) => some (⟨chain1, c.maxPrefixLen⟩, log1)

/-- The method `Build` (markov.go:48-89): the chain after the call, `none` on a panic. -/
def Build (lc : Nat → Nat) (c : Chain) (r avoidR : List Str) : Option Chain :=
  (BuildLog lc c r avoidR).map (fun x => x.1)

/-- The candidate pool of a step of `Generate` (markov.go:99-102). -/
def choicesOf (chain : Table) (ps : List Prefix) : List Str :=
  ps.foldl (fun choices p => choices ++ chain.get p.String) []

/-- The loop shifting every window (markov.go:112-114). -/
def shiftAll (next : Str) : List Prefix → Option (List Prefix)
  | [] => some []
  | p :: ps =>
    match p.Shift next with
    | none => none
    | some p1 =>
      match shiftAll next ps with
      | none => none
      | some ps1 => some (p1 :: ps1)

/-- Go `rand.Intn(n)` as the t-th draw from the random source: `rnd t` reduced modulo `n`, so
that every sequence of results comes from some `rnd`.  It panics unless `n > 0`. -/
def Intn (rnd : Nat → Nat) (t : Nat) (n : Int) : Option Int :=
  if n ≤ 0 then none else some ((rnd t : Int) % n)

/-- The word chosen in a step (markov.go:107-110), with the number of values drawn from the
random source so far. -/
def pick (choices : List Str) (rnd : Nat → Nat) (t : Nat) : Option (Str × Nat) :=
  match (Intn rnd t choices.length).bind (getAt choices) with
  | none => none
  | some next =>
    if next = ENDLINE then
      match (Intn rnd (t + 1) choices.length).bind (getAt choices) with
      | none => none
      | some next2 => some (next2, t + 2)
    else some (next, t + 1)

/-- The main loop of `Generate` (markov.go:98-115) with `k` iterations left; the result is
the slice `words`. -/
def genLoop (chain : Table) (rnd : Nat → Nat) :
    Nat → List Prefix → List Str → Nat → Option (List Str)
  | 0, _, words, _ => some words
  | k + 1, ps, words, t =>
    if (choicesOf chain ps).length = 0 then some words
    else
      match pick (choicesOf chain ps) rnd t with
      | none => none
      | some (next, t1) =>
        match shiftAll next ps with
        | none => none
        | some ps1 => genLoop chain rnd k ps1 (words ++ [next]) t1

/-- The slice `words` at the end of the loop of `Generate`. -/
def generateWords (c : Chain) (n : Int) (rnd : Nat → Nat) : Option (List Str) :=
  match newPrefixes c.maxPrefixLen with
  | none => none
  | some ps => genLoop c.chain rnd n.toNat ps [] 0

/-- The method `Generate` (markov.go:92-117); `none` on a panic. -/
def Generate (c : Chain) (n : Int) (rnd : Nat → Nat) : Option Str :=
  (generateWords c n rnd).map (fun words => Replace (Join words [32]) ENDLINE [])

/-! ## Definitions used to state the properties -/

def applyLog (m : Table) (log : Log) : Table :=
  log.foldl (fun m e => m.put e.1 (m.get e.1 ++ [e.2])) m

def obsOf (K : Str) (log : Log) : List Str :=
  (log.filter (fun e => e.1 = K)).map (fun e => e.2)

def window (k : Nat) (pre : List Str) : Prefix :=
  (List.replicate k [] ++ pre).drop pre.length

/-- The ASCII white space of Go's `strings` package: tab, newline, vertical tab, form feed,
carriage return and space. -/
def asciiSpace (b : Nat) : Bool := (9 ≤ b && b ≤ 13) || b = 32

/-- The two avoid checks of markov.go:70-74: the matching key of the word is in the avoid
set, or it has more than one byte and is in the avoid set once its last byte is removed. -/
def avoided (lc : Nat → Nat) (avoid : List Str) (s : Str) : Prop :=
  matchKey lc s ∈ avoid ∨ (1 < (matchKey lc s).length ∧ (matchKey lc s).dropLast ∈ avoid)

instance (lc : Nat → Nat) (avoid : List Str) (s : Str) : Decidable (avoided lc avoid s) :=
  inferInstanceAs (Decidable (_ ∨ _))

/-- The tokens `Build` records for a line: the result of `learn` on each of its fields. -/
def learnedLine (lc : Nat → Nat) (avoid : List Str) (line : Str) : List Str :=
  (Fields line).filterMap (learn lc avoid)

/-- The windows of orders 1 to n after the tokens `pre` of a line. -/
def windows (n : Nat) (pre : List Str) : List Prefix :=
  (List.range n).map (fun i => window (i + 1) pre)

/-- The log entries of one pass over the orders: the key of every window with the
observation `t`. -/
def stepEvents (n : Nat) (pre : List Str) (t : Str) : Log :=
  (windows n pre).map (fun p => (p.String, t))

/-- The log entries of the tokens `toks` of a line read after its tokens `pre`. -/
def wordEvents (n : Nat) : List Str → List Str → Log
  | _, [] => []
  | pre, t :: rest => stepEvents n pre t ++ wordEvents n (pre ++ [t]) rest

/-- The log entries of a line of tokens: those of its tokens, then the end of the line. -/
def lineEvents (n : Nat) (toks : List Str) : Log :=
  wordEvents n [] toks ++ stepEvents n toks ENDLINE

/-- The log entries of a corpus given as the token lists of its lines. -/
def corpusEvents (n : Nat) : List (List Str) → Log
  | [] => []
  | toks :: rest => lineEvents n toks ++ corpusEvents n rest

/-- The order-k observations of a line of tokens under the key K: every token, and the end
of line marker after the last one, whose k preceding tokens of the line, left-padded with
empty strings, join with single spaces to K. -/
def kgramLine (k : Nat) (K : Str) (toks : List Str) : List Str :=
  (List.range (toks.length + 1)).filterMap (fun j =>
    if (window k (toks.take j)).String = K then (toks ++ [ENDLINE])[j]? else none)

/-- The order-k observations of a corpus under the key K, in reading order. -/
def kgram (k : Nat) (K : Str) : List (List Str) → List Str
  | [] => []
  | toks :: rest => kgramLine k K toks ++ kgram k K rest

/-- The order-k observations under K of the tokens `toks` read after the tokens `pre`. -/
def kgramFrom (k : Nat) (K : Str) : List Str → List Str → List Str
  | pre, [] => if (window k pre).String = K then [ENDLINE] else []
  | pre, t :: rest =>
    (if (window k pre).String = K then [t] else []) ++ kgramFrom k K (pre ++ [t]) rest

/-- A string without the space byte. -/
def spaceFree (s : Str) : Prop := 32 ∉ s

/-- The bytes of a string as one-byte runes: the decoding of an ASCII string. -/
def byteRunes (s : Str) : List (Nat × Str) := s.map (fun b => (b, [b]))

/-- The fields of a string split at ASCII white space only. -/
def asciiFields (s : Str) : List Str := fieldsAux asciiSpace (byteRunes s) none

/-- The number of fields the loop of `strings.FieldsFunc` yields; `opened` tells whether a
field is open. -/
def countFields (f : Nat → Bool) : List (Nat × Str) → Bool → Nat
  | [], false => 0
  | [], true => 1
  | rb :: rest, opened =>
    if f rb.1 then (if opened then 1 else 0) + countFields f rest false
    else countFields f rest true

/-- The second string is the first one with some bytes that satisfy `P` deleted. -/
inductive Deleted (P : Nat → Prop) : Str → Str → Prop
  | nil : Deleted P [] []
  | keep (b : Nat) (s t : Str) : Deleted P s t → Deleted P (b :: s) (b :: t)
  | drop (b : Nat) (s t : Str) : P b → Deleted P s t → Deleted P (b :: s) t

/-- A byte that is not a UTF-8 continuation byte. -/
def notCont (c : Nat) : Prop := c < 0x80 ∨ 0xBF < c

/-- A string that is empty or starts with a byte that is not a continuation byte. -/
def startsClean (s : Str) : Prop := ∀ c, s.head? = some c → notCont c

/-- The bytes a list of decoded runes was decoded from. -/
def bytesOf (rs : List (Nat × Str)) : Str := rs.flatMap (fun rb => rb.2)

/-- A string none of whose runes is white space. -/
def spaceless (t : Str) : Prop := ∀ rb ∈ runes t, IsSpace rb.1 = false

/-- The states of the loop of `Generate` (ghost trace, same recursion as `genLoop`): for
every iteration that is run, the windows `ps`, the slice `words` and the candidate pool
`choices` after markov.go:102. -/
def genTrace (chain : Table) (rnd : Nat → Nat) :
    Nat → List Prefix → List Str → Nat → List (List Prefix × List Str × List Str)
  | 0, _, _, _ => []
  | k + 1, ps, words, t =>
    (ps, words, choicesOf chain ps) ::
      (if (choicesOf chain ps).length = 0 then []
      else
        match pick (choicesOf chain ps) rnd t with
        | none => []
        | some (next, t1) =>
          match shiftAll next ps with
          | none => []
          | some ps1 => genTrace chain rnd k ps1 (words ++ [next]) t1)

/-- The states of the loop of a call of `Generate`, see `genTrace`. -/
def generateTrace (c : Chain) (n : Int) (rnd : Nat → Nat) :
    List (List Prefix × List Str × List Str) :=
  match newPrefixes c.maxPrefixLen with
  | none => []
  | some ps => genTrace c.chain rnd n.toNat ps [] 0

/-- The keys of a table, in the order of its entries. -/
def Table.keys (m : Table) : List Str := m.map (fun e => e.1)

/-- The number of observations of a table: the lengths of the lists of its entries, summed. -/
def Table.total (m : Table) : Nat := (m.map (fun e => e.2.length)).sum

/-- The string with a hyphen inserted after its first character, a character being a UTF-8
encoded rune (`decodeRune`) and not a byte. -/
def hyphenAfterChar (w : Str) : Str :=
  w.take (decodeRune w).2 ++ [45] ++ w.drop (decodeRune w).2

/-- The string without its last character, a character being a UTF-8 encoded rune. -/
def dropLastChar (s : Str) : Str := bytesOf (runes s).dropLast

/-! ## Theorems -/

theorem find_put (m : Table) (k k1 : Str) (v : List Str) :
    (m.put k v).find k1 = if k = k1 then some v else m.find k1 := by
  induction m with
  | nil => simp [Table.put, Table.find]
  | cons e m ih =>
    obtain ⟨a, b⟩ := e
    by_cases h : a = k
    · subst h
      by_cases h1 : a = k1 <;> simp [Table.put, Table.find, h1]
    · by_cases h1 : a = k1
      · subst h1
        simp [Table.put, Table.find, h, Ne.symm h]
      · simp [Table.put, Table.find, h, h1, ih]

theorem get_put (m : Table) (k k1 : Str) (v : List Str) :
    (m.put k v).get k1 = if k = k1 then v else m.get k1 := by
  unfold Table.get
  rw [find_put]
  split <;> rfl

theorem applyLog_nil (m : Table) : applyLog m [] = m := rfl

theorem applyLog_cons (m : Table) (e : Str × Str) (log : Log) :
    applyLog m (e :: log) = applyLog (m.put e.1 (m.get e.1 ++ [e.2])) log := rfl

theorem applyLog_append (m : Table) (l1 l2 : Log) :
    applyLog m (l1 ++ l2) = applyLog (applyLog m l1) l2 := by
  simp [applyLog, List.foldl_append]

theorem obsOf_nil (K : Str) : obsOf K [] = [] := rfl

theorem obsOf_cons (K : Str) (e : Str × Str) (log : Log) :
    obsOf K (e :: log) = (if e.1 = K then [e.2] else []) ++ obsOf K log := by
  unfold obsOf
  by_cases h : e.1 = K <;> simp [List.filter_cons, h]

theorem obsOf_append (K : Str) (l1 l2 : Log) :
    obsOf K (l1 ++ l2) = obsOf K l1 ++ obsOf K l2 := by
  simp [obsOf]

/-- The table after a log: a key keeps its old entry when the log holds nothing under it, and
otherwise holds its old observations followed by the logged ones. -/
theorem find_applyLog (log : Log) (m : Table) (K : Str) :
    (applyLog m log).find K =
      if obsOf K log = [] then m.find K else some (m.get K ++ obsOf K log) := by
  induction log generalizing m with
  | nil => simp [applyLog_nil, obsOf_nil]
  | cons e log ih =>
    rw [applyLog_cons, ih, obsOf_cons, find_put, get_put]
    by_cases h : e.1 = K
    · subst h
      by_cases h2 : obsOf e.1 log = [] <;> simp [h2]
    · simp [h]

theorem get_applyLog (log : Log) (m : Table) (K : Str) :
    (applyLog m log).get K = m.get K ++ obsOf K log := by
  unfold Table.get
  rw [find_applyLog]
  by_cases h : obsOf K log = []
  · simp [h]
  · simp [h, Table.get]

theorem copy_tail {α : Type} (a : α) (t : List α) :
    ∃ b, copy (a :: t) t = t ++ [b] := by
  have h : min (a :: t).length t.length = t.length := by simp
  unfold copy
  rw [h, List.take_length]
  have h2 : ((a :: t).drop t.length).length = 1 := by simp
  match h3 : (a :: t).drop t.length, h2 with
  | [b], _ => exact ⟨b, rfl⟩

theorem Shift_eq (p : Prefix) (w : Str) (hk : 1 ≤ p.length) :
    Prefix.Shift p w = some (p.drop 1 ++ [w]) := by
  cases p with
  | nil => simp at hk
  | cons a t =>
    obtain ⟨b, hb⟩ := copy_tail a t
    simp [Prefix.Shift, sliceFrom, setAt, hb]

theorem Shift_nil (w : Str) : Prefix.Shift [] w = none := by
  simp [Prefix.Shift, sliceFrom]

theorem recordWord_eq (s : Str) (ps : List Prefix) (chain : Table) (log : Log)
    (h : ∀ p ∈ ps, 1 ≤ p.length) :
    recordWord s ps chain log =
      some (ps.map (fun p => p.drop 1 ++ [s]),
        applyLog chain (ps.map (fun p => (p.String, s))),
        log ++ ps.map (fun p => (p.String, s))) := by
  induction ps generalizing chain log with
  | nil => simp [recordWord, applyLog_nil]
  | cons p ps ih =>
    have hp : 1 ≤ p.length := h p (List.mem_cons_self _ _)
    have hps : ∀ q ∈ ps, 1 ≤ q.length := fun q hq => h q (List.mem_cons_of_mem _ hq)
    simp only [recordWord, Shift_eq p s hp, ih _ _ hps, List.map_cons, applyLog_cons,
      List.append_assoc, List.singleton_append]

theorem recordEnd_eq (ps : List Prefix) (chain : Table) (log : Log) :
    recordEnd ps chain log =
      (applyLog chain (ps.map (fun p => (p.String, ENDLINE))),
        log ++ ps.map (fun p => (p.String, ENDLINE))) := by
  induction ps generalizing chain log with
  | nil => simp [recordEnd, applyLog_nil]
  | cons p ps ih =>
    simp only [recordEnd, ih, List.map_cons, applyLog_cons, List.append_assoc,
      List.singleton_append]

theorem decodeRune_cases (b0 : Nat) (rest : Str) :
    1 ≤ (decodeRune (b0 :: rest)).2 ∧ (decodeRune (b0 :: rest)).2 ≤ rest.length + 1 ∧
      ((b0 < 128 ∧ decodeRune (b0 :: rest) = (b0, 1)) ∨
        (∀ b ∈ (b0 :: rest).take (decodeRune (b0 :: rest)).2, 128 ≤ b)) := by
  unfold decodeRune
  by_cases h1 : b0 < 0x80
  · simp [h1]
  by_cases h2 : b0 < 0xC2
  · simp [h1, h2]; omega
  by_cases h3 : b0 < 0xE0
  · rcases rest with _ | ⟨b1, r1⟩
    · simp [h1, h2, h3]; omega
    · by_cases c : 0x80 ≤ b1 ∧ b1 ≤ 0xBF
      · simp [h1, h2, h3, c]; omega
      · simp [h1, h2, h3, c]; omega
  by_cases h4 : b0 < 0xF0
  · rcases rest with _ | ⟨b1, _ | ⟨b2, r2⟩⟩
    · simp [h1, h2, h3, h4]; omega
    · simp [h1, h2, h3, h4]; omega
    · by_cases c : (if b0 = 0xE0 then 0xA0 else 0x80) ≤ b1 ∧
          b1 ≤ (if b0 = 0xED then 0x9F else 0xBF) ∧ 0x80 ≤ b2 ∧ b2 ≤ 0xBF
      · have hb1 : 128 ≤ b1 := by
          have := c.1
          split at this <;> omega
        simp only [h1, h2, h3, h4, if_false, if_true, if_pos c]
        simp
        omega
      · simp only [h1, h2, h3, h4, if_false, if_true, if_neg c]
        simp
        omega
  by_cases h5 : b0 < 0xF5
  · rcases rest with _ | ⟨b1, _ | ⟨b2, _ | ⟨b3, r3⟩⟩⟩
    · simp [h1, h2, h3, h4, h5]; omega
    · simp [h1, h2, h3, h4, h5]; omega
    · simp [h1, h2, h3, h4, h5]; omega
    · by_cases c : (if b0 = 0xF0 then 0x90 else 0x80) ≤ b1 ∧
          b1 ≤ (if b0 = 0xF4 then 0x8F else 0xBF) ∧ 0x80 ≤ b2 ∧ b2 ≤ 0xBF ∧ 0x80 ≤ b3 ∧ b3 ≤ 0xBF
      · have hb1 : 128 ≤ b1 := by
          have := c.1
          split at this <;> omega
        simp only [h1, h2, h3, h4, h5, if_false, if_true, if_pos c]
        simp
        omega
      · simp only [h1, h2, h3, h4, h5, if_false, if_true, if_neg c]
        simp
        omega
  · simp [h1, h2, h3, h4, h5]; omega

theorem IsSpace_of_asciiSpace (b : Nat) (h : asciiSpace b = true) : IsSpace b = true := by
  simp only [asciiSpace, Bool.or_eq_true, Bool.and_eq_true, decide_eq_true_eq] at h
  simp only [IsSpace, Bool.or_eq_true, Bool.and_eq_true, decide_eq_true_eq]
  omega

/-- Every rune of a string was decoded from at least one byte, and a rune that is not white
space was decoded from bytes none of which is ASCII white space. -/
theorem runesAux_chunk (fuel : Nat) (s : Str) :
    ∀ rb ∈ runesAux fuel s, rb.2 ≠ [] ∧
      (IsSpace rb.1 = false → ∀ b ∈ rb.2, asciiSpace b = false) := by
  induction fuel generalizing s with
  | zero => simp [runesAux]
  | succ fuel ih =>
    cases s with
    | nil => simp [runesAux]
    | cons b0 rest =>
      intro rb hrb
      simp only [runesAux, List.mem_cons] at hrb
      rcases hrb with rfl | hrb
      · obtain ⟨hw1, hw2, hc⟩ := decodeRune_cases b0 rest
        refine ⟨?_, ?_⟩
        · intro h
          have := congrArg List.length h
          simp at this
          omega
        · intro hsp b hb
          rcases hc with ⟨hlt, heq⟩ | hge
          · simp only [heq] at hb hsp
            simp at hb
            subst hb
            by_contra hcon
            have := IsSpace_of_asciiSpace b (by simpa using hcon)
            simp [this] at hsp
          · have := hge b hb
            simp only [asciiSpace, Bool.or_eq_false_iff, Bool.and_eq_false_iff,
              decide_eq_false_iff_not]
            omega
      · exact ih _ rb hrb

theorem fieldsAux_tokens (P : Str → Prop) (hP : ∀ a b, P a → P b → P (a ++ b))
    (f : Nat → Bool) (rs : List (Nat × Str)) (cur : Option Str)
    (hrs : ∀ rb ∈ rs, rb.2 ≠ [] ∧ (f rb.1 = false → P rb.2))
    (hcur : ∀ c, cur = some c → c ≠ [] ∧ P c) :
    ∀ t ∈ fieldsAux f rs cur, t ≠ [] ∧ P t := by
  induction rs generalizing cur with
  | nil =>
    cases cur with
    | none => simp [fieldsAux]
    | some c => simpa [fieldsAux] using hcur c rfl
  | cons rb rs ih =>
    obtain ⟨r, bs⟩ := rb
    have hhd := hrs (r, bs) (List.mem_cons_self _ _)
    have htl : ∀ rb ∈ rs, rb.2 ≠ [] ∧ (f rb.1 = false → P rb.2) :=
      fun rb h => hrs rb (List.mem_cons_of_mem _ h)
    cases cur with
    | none =>
      by_cases hf : f r = true
      · simp only [fieldsAux, hf, if_true]
        exact ih none htl (by simp)
      · simp only [fieldsAux, hf]
        refine ih (some bs) htl ?_
        intro c hc
        cases hc
        exact ⟨hhd.1, hhd.2 (by simpa using hf)⟩
    | some c0 =>
      by_cases hf : f r = true
      · simp only [fieldsAux, hf, if_true]
        intro t ht
        rcases List.mem_cons.1 ht with rfl | ht
        · exact hcur _ rfl
        · exact ih none htl (by simp) t ht
      · simp only [fieldsAux, hf]
        refine ih (some (c0 ++ bs)) htl ?_
        intro c hc
        cases hc
        have h0 := hcur c0 rfl
        exact ⟨by simp [h0.1], hP _ _ h0.2 (hhd.2 (by simpa using hf))⟩

/-- A field is non-empty and holds no ASCII white space. -/
theorem Fields_token (s t : Str) (ht : t ∈ Fields s) :
    t ≠ [] ∧ ∀ b ∈ t, asciiSpace b = false := by
  refine fieldsAux_tokens (fun x => ∀ b ∈ x, asciiSpace b = false) ?_ IsSpace (runes s) none
    (runesAux_chunk _ _) (by simp) t ht
  intro a b ha hb c hc
  rcases List.mem_append.1 hc with h | h
  · exact ha c h
  · exact hb c h

theorem learn_eq (lc : Nat → Nat) (avoid : List Str) (s : Str) (hs : s ≠ []) :
    learn lc avoid s =
      some (if avoided lc avoid s then s.take 1 ++ [45] ++ s.drop 1 else s) := by
  have h1 : 1 ≤ s.length := by
    cases s with
    | nil => exact absurd rfl hs
    | cons a t => simp
  have hs1 : sliceTo s 1 = some (s.take 1) := by
    simp only [sliceTo]
    rw [if_pos ⟨by omega, by exact_mod_cast h1⟩]
    rfl
  have hs2 : sliceFrom s 1 = some (s.drop 1) := by
    simp only [sliceFrom]
    rw [if_pos ⟨by omega, by exact_mod_cast h1⟩]
    rfl
  unfold learn avoided
  by_cases hl : (matchKey lc s).length > 1
  · have hcut : sliceTo (matchKey lc s) (((matchKey lc s).length : Int) - 1) =
        some (matchKey lc s).dropLast := by
      simp only [sliceTo]
      rw [if_pos ⟨by omega, by omega⟩, List.dropLast_eq_take]
      congr 2
      omega
    simp only [hl, if_true, hcut, hs1, hs2]
    by_cases e1 : matchKey lc s ∈ avoid <;> by_cases e2 : (matchKey lc s).dropLast ∈ avoid <;>
      simp [e1, e2, hl]
  · simp only [hl, if_false, hs1, hs2]
    by_cases e1 : matchKey lc s ∈ avoid <;> simp [e1, hl]

/-- A learned token is non-empty and holds no ASCII white space when the word is so. -/
theorem learn_token (lc : Nat → Nat) (avoid : List Str) (s t : Str) (hs : s ≠ [])
    (hsp : ∀ b ∈ s, asciiSpace b = false) (ht : learn lc avoid s = some t) :
    t ≠ [] ∧ ∀ b ∈ t, asciiSpace b = false := by
  rw [learn_eq lc avoid s hs] at ht
  injection ht with ht
  subst ht
  split
  · refine ⟨by simp, ?_⟩
    intro b hb
    simp only [List.append_assoc, List.mem_append, List.mem_singleton, List.mem_cons] at hb
    rcases hb with hb | hb | hb
    · exact hsp b (List.mem_of_mem_take hb)
    · simp at hb
      subst hb
      decide
    · exact hsp b (List.mem_of_mem_drop hb)
  · exact ⟨hs, hsp⟩

theorem learnedLine_eq_map (lc : Nat → Nat) (avoid : List Str) (line : Str) :
    learnedLine lc avoid line = (Fields line).map (fun s =>
      if avoided lc avoid s then s.take 1 ++ [45] ++ s.drop 1 else s) := by
  unfold learnedLine
  have : ∀ ws : List Str, (∀ s ∈ ws, s ≠ []) → ws.filterMap (learn lc avoid) =
      ws.map (fun s => if avoided lc avoid s then s.take 1 ++ [45] ++ s.drop 1 else s) := by
    intro ws
    induction ws with
    | nil => simp
    | cons s ws ih =>
      intro h
      rw [List.filterMap_cons, learn_eq lc avoid s (h s (List.mem_cons_self _ _))]
      simp only [List.map_cons]
      rw [ih (fun x hx => h x (List.mem_cons_of_mem _ hx))]
  exact this _ (fun s hs => (Fields_token line s hs).1)

theorem learnedLine_token (lc : Nat → Nat) (avoid : List Str) (line t : Str)
    (ht : t ∈ learnedLine lc avoid line) : t ≠ [] ∧ ∀ b ∈ t, asciiSpace b = false := by
  unfold learnedLine at ht
  obtain ⟨s, hs, hst⟩ := List.mem_filterMap.1 ht
  have := Fields_token line s hs
  exact learn_token lc avoid s t this.1 this.2 hst

theorem window_length (k : Nat) (pre : List Str) : (window k pre).length = k := by
  simp [window]

theorem window_shift (k : Nat) (pre : List Str) (t : Str) (hk : 1 ≤ k) :
    (window k pre).drop 1 ++ [t] = window k (pre ++ [t]) := by
  unfold window
  have h1 : List.replicate k ([] : Str) ++ (pre ++ [t]) =
      (List.replicate k ([] : Str) ++ pre) ++ [t] := by simp
  have h2 : (pre ++ [t]).length = 1 + pre.length := by simp; omega
  have h3 : List.drop (1 + pre.length) ((List.replicate k ([] : Str) ++ pre) ++ [t]) =
      List.drop (1 + pre.length) (List.replicate k ([] : Str) ++ pre) ++ [t] :=
    List.drop_append_of_le_length (by simp; omega)
  rw [List.drop_drop, h1, h2, h3, Nat.add_comm]

theorem windows_shift (n : Nat) (pre : List Str) (t : Str) :
    (windows n pre).map (fun p => p.drop 1 ++ [t]) = windows n (pre ++ [t]) := by
  unfold windows
  rw [List.map_map]
  apply List.map_congr_left
  intro i _
  exact window_shift (i + 1) pre t (by omega)

theorem windows_length (n : Nat) (pre : List Str) : ∀ p ∈ windows n pre, 1 ≤ p.length := by
  intro p hp
  unfold windows at hp
  obtain ⟨i, _, rfl⟩ := List.mem_map.1 hp
  rw [window_length]
  omega

theorem newPrefixes_eq (m : Int) (hm : 0 ≤ m) : newPrefixes m = some (windows m.toNat []) := by
  unfold newPrefixes windows window
  rw [if_neg (by omega)]
  simp

theorem newPrefixes_neg (m : Int) (hm : m < 0) : newPrefixes m = none := by
  unfold newPrefixes
  rw [if_pos hm]

theorem recordWords_eq (lc : Nat → Nat) (avoid : List Str) (n : Nat) (ws : List Str)
    (hws : ∀ s ∈ ws, s ≠ []) (pre : List Str) (chain : Table) (log : Log) :
    recordWords lc avoid ws (windows n pre) chain log =
      some (windows n (pre ++ ws.filterMap (learn lc avoid)),
        applyLog chain (wordEvents n pre (ws.filterMap (learn lc avoid))),
        log ++ wordEvents n pre (ws.filterMap (learn lc avoid))) := by
  induction ws generalizing pre chain log with
  | nil => simp [recordWords, wordEvents, applyLog_nil]
  | cons s ws ih =>
    have hs := hws s (List.mem_cons_self _ _)
    have hrest : ∀ x ∈ ws, x ≠ [] := fun x hx => hws x (List.mem_cons_of_mem _ hx)
    rw [List.filterMap_cons, learn_eq lc avoid s hs]
    simp only [recordWords, learn_eq lc avoid s hs,
      recordWord_eq _ _ _ _ (windows_length n pre), windows_shift, ih hrest, wordEvents,
      applyLog_append, stepEvents, List.append_assoc, List.singleton_append]

theorem recordLines_eq (lc : Nat → Nat) (avoid : List Str) (m : Int) (hm : 0 ≤ m)
    (lines : List Str) (chain : Table) (log : Log) :
    recordLines lc avoid m lines chain log =
      some (applyLog chain (corpusEvents m.toNat (lines.map (learnedLine lc avoid))),
        log ++ corpusEvents m.toNat (lines.map (learnedLine lc avoid))) := by
  induction lines generalizing chain log with
  | nil => simp [recordLines, corpusEvents, applyLog_nil]
  | cons line lines ih =>
    simp only [recordLines, newPrefixes_eq m hm,
      recordWords_eq lc avoid m.toNat (Fields line) (fun s hs => (Fields_token line s hs).1),
      recordEnd_eq, ih, List.map_cons, corpusEvents, lineEvents, applyLog_append, stepEvents,
      learnedLine, List.nil_append, List.append_assoc]

theorem recordLines_neg (lc : Nat → Nat) (avoid : List Str) (m : Int) (hm : m < 0)
    (lines : List Str) (chain : Table) (log : Log) :
    recordLines lc avoid m lines chain log = if lines = [] then some (chain, log) else none := by
  cases lines with
  | nil => simp [recordLines]
  | cons line lines => simp [recordLines, newPrefixes_neg m hm]

/-- The events of a run of `Build`: those of the learned tokens of the lines. -/
theorem BuildLog_eq (lc : Nat → Nat) (c : Chain) (r avoidR : List Str)
    (hm : 0 ≤ c.maxPrefixLen) :
    BuildLog lc c r avoidR =
      some (⟨applyLog c.chain (corpusEvents c.maxPrefixLen.toNat
          (r.map (learnedLine lc (avoidSet lc avoidR)))), c.maxPrefixLen⟩,
        corpusEvents c.maxPrefixLen.toNat (r.map (learnedLine lc (avoidSet lc avoidR)))) := by
  simp [BuildLog, recordLines_eq lc _ _ hm]

theorem BuildLog_neg (lc : Nat → Nat) (c : Chain) (r avoidR : List Str)
    (hm : c.maxPrefixLen < 0) :
    BuildLog lc c r avoidR = if r = [] then some (c, []) else none := by
  simp only [BuildLog, recordLines_neg lc _ _ hm]
  cases r <;> simp

theorem spaceFree_of_asciiSpace (s : Str) (h : ∀ b ∈ s, asciiSpace b = false) :
    spaceFree s := by
  intro hmem
  have := h 32 hmem
  simp [asciiSpace] at this

theorem count_Join (p : List Str) (h : ∀ x ∈ p, spaceFree x) :
    (Join p [32]).count 32 = p.length - 1 := by
  induction p with
  | nil => simp [Join]
  | cons a p ih =>
    have ha : List.count 32 a = 0 := List.count_eq_zero.2 (h a (List.mem_cons_self _ _))
    cases p with
    | nil => simpa [Join] using ha
    | cons b rest =>
      have := ih (fun x hx => h x (List.mem_cons_of_mem _ hx))
      simp only [Join, List.count_append, ha, this]
      simp
      omega

theorem mem_window (k : Nat) (pre : List Str) (x : Str) (hx : x ∈ window k pre) :
    x = [] ∨ x ∈ pre := by
  unfold window at hx
  have := List.mem_of_mem_drop hx
  rcases List.mem_append.1 this with h | h
  · exact Or.inl (List.eq_of_mem_replicate h)
  · exact Or.inr h

theorem count_window (k : Nat) (pre : List Str) (h : ∀ x ∈ pre, spaceFree x) :
    (window k pre).String.count 32 = k - 1 := by
  unfold Prefix.String
  rw [count_Join, window_length]
  intro x hx
  rcases mem_window k pre x hx with rfl | hx
  · simp [spaceFree]
  · exact h x hx

theorem filter_range_unique (p : Nat → Bool) (i0 : Nat) (h : ∀ i, p i = true → i = i0)
    (n : Nat) :
    (List.range n).filter p = if i0 < n ∧ p i0 = true then [i0] else [] := by
  induction n with
  | zero => simp
  | succ n ih =>
    rw [List.range_succ, List.filter_append, ih]
    by_cases hp : p n = true
    · have hn := h n hp
      subst hn
      simp [hp]
    · by_cases hi : i0 < n
      · have hi1 : i0 < n + 1 := by omega
        by_cases hp0 : p i0 = true
        · simp [hp, hi, hp0, hi1]
        · simp [hp, hp0]
      · by_cases hp0 : p i0 = true
        · have : ¬ i0 < n + 1 := by
            intro hlt
            have : i0 = n := by omega
            subst this
            exact hp hp0
          simp [hp, hi, this]
        · simp [hp, hp0]

/-- One pass over the orders logs under K at most the entry of the order K has. -/
theorem obsOf_stepEvents (n : Nat) (pre : List Str) (t K : Str)
    (h : ∀ x ∈ pre, spaceFree x) :
    obsOf K (stepEvents n pre t) =
      if K.count 32 < n ∧ (window (K.count 32 + 1) pre).String = K then [t] else [] := by
  unfold obsOf stepEvents windows
  rw [List.map_map, List.filter_map, List.map_map]
  have huniq : ∀ i, ((fun e : Str × Str => decide (e.1 = K)) ∘
      ((fun p : Prefix => (p.String, t)) ∘ fun i => window (i + 1) pre)) i = true →
      i = K.count 32 := by
    intro i hi
    simp only [Function.comp, decide_eq_true_eq] at hi
    have := count_window (i + 1) pre h
    rw [hi] at this
    omega
  rw [filter_range_unique _ _ huniq]
  by_cases hc : K.count 32 < n ∧ (window (K.count 32 + 1) pre).String = K
  · rw [if_pos hc, if_pos ⟨hc.1, by simpa [Function.comp] using hc.2⟩]
    simp
  · rw [if_neg hc, if_neg]
    · simp
    · intro hcon
      exact hc ⟨hcon.1, by simpa [Function.comp] using hcon.2⟩

theorem obsOf_lineEventsFrom (n : Nat) (K : Str) (toks pre : List Str)
    (hpre : ∀ x ∈ pre, spaceFree x) (htoks : ∀ x ∈ toks, spaceFree x) :
    obsOf K (wordEvents n pre toks ++ stepEvents n (pre ++ toks) ENDLINE) =
      if K.count 32 < n then kgramFrom (K.count 32 + 1) K pre toks else [] := by
  induction toks generalizing pre with
  | nil =>
    simp only [wordEvents, List.nil_append, List.append_nil, kgramFrom]
    rw [obsOf_stepEvents n pre ENDLINE K hpre]
    by_cases h1 : K.count 32 < n <;> simp [h1]
  | cons t rest ih =>
    have hpre2 : ∀ x ∈ pre ++ [t], spaceFree x := by
      intro x hx
      rcases List.mem_append.1 hx with h | h
      · exact hpre x h
      · simp at h
        subst h
        exact htoks _ (List.mem_cons_self _ _)
    have hrest : ∀ x ∈ rest, spaceFree x := fun x hx => htoks x (List.mem_cons_of_mem _ hx)
    have := ih (pre ++ [t]) hpre2 hrest
    simp only [List.append_assoc, List.singleton_append] at this
    simp only [wordEvents, List.append_assoc, obsOf_append, kgramFrom]
    rw [obsOf_stepEvents n pre t K hpre, ← obsOf_append, this]
    by_cases h1 : K.count 32 < n <;> simp [h1]

theorem kgramFrom_eq (k : Nat) (K : Str) (toks pre : List Str) :
    kgramFrom k K pre toks = (List.range (toks.length + 1)).filterMap (fun j =>
      if (window k (pre ++ toks.take j)).String = K then (toks ++ [ENDLINE])[j]? else none) := by
  induction toks generalizing pre with
  | nil =>
    have h1 : List.range (([] : List Str).length + 1) = [0] := rfl
    rw [h1]
    simp only [kgramFrom, List.filterMap_cons, List.filterMap_nil, List.take_nil,
      List.append_nil, List.nil_append]
    by_cases h : (window k pre).String = K <;> simp [h]
  | cons t rest ih =>
    have hfun : ((fun j => if (window k (pre ++ List.take j (t :: rest))).String = K
        then (t :: rest ++ [ENDLINE])[j]? else none) ∘ Nat.succ) =
        (fun j => if (window k (pre ++ [t] ++ List.take j rest)).String = K
        then (rest ++ [ENDLINE])[j]? else none) := by
      funext j
      simp [Function.comp]
    rw [List.length_cons, List.range_succ_eq_map, List.filterMap_cons, List.filterMap_map, hfun,
      kgramFrom, ih]
    by_cases h : (window k pre).String = K <;> simp [h]

theorem kgramLine_eq (k : Nat) (K : Str) (toks : List Str) :
    kgramLine k K toks = kgramFrom k K [] toks := by
  rw [kgramFrom_eq]
  rfl

/-- A key determines its order: the order-k observations under K are empty unless K holds
exactly k-1 spaces. -/
theorem kgramFrom_order (k : Nat) (K : Str) (toks pre : List Str) (hk : 1 ≤ k)
    (hpre : ∀ x ∈ pre, spaceFree x) (htoks : ∀ x ∈ toks, spaceFree x)
    (hne : kgramFrom k K pre toks ≠ []) : k = K.count 32 + 1 := by
  induction toks generalizing pre with
  | nil =>
    simp only [kgramFrom] at hne
    by_cases h : (window k pre).String = K
    · have := count_window k pre hpre
      rw [h] at this
      omega
    · simp [h] at hne
  | cons t rest ih =>
    simp only [kgramFrom] at hne
    by_cases h : (window k pre).String = K
    · have := count_window k pre hpre
      rw [h] at this
      omega
    · simp only [h, if_false, List.nil_append] at hne
      refine ih (pre ++ [t]) ?_ (fun x hx => htoks x (List.mem_cons_of_mem _ hx)) hne
      intro x hx
      rcases List.mem_append.1 hx with h | h
      · exact hpre x h
      · simp at h
        subst h
        exact htoks _ (List.mem_cons_self _ _)

theorem obsOf_corpusEvents (n : Nat) (K : Str) (corpus : List (List Str))
    (h : ∀ toks ∈ corpus, ∀ x ∈ toks, spaceFree x) :
    obsOf K (corpusEvents n corpus) =
      if K.count 32 < n then kgram (K.count 32 + 1) K corpus else [] := by
  induction corpus with
  | nil => simp [corpusEvents, obsOf_nil, kgram]
  | cons toks rest ih =>
    have h1 := obsOf_lineEventsFrom n K toks [] (by simp) (h toks (List.mem_cons_self _ _))
    simp only [List.nil_append] at h1
    rw [corpusEvents, obsOf_append, ih (fun t ht => h t (List.mem_cons_of_mem _ ht)), lineEvents,
      h1, kgram, kgramLine_eq]
    by_cases hc : K.count 32 < n <;> simp [hc]

theorem kgram_order (k : Nat) (K : Str) (corpus : List (List Str)) (hk : 1 ≤ k)
    (h : ∀ toks ∈ corpus, ∀ x ∈ toks, spaceFree x) (hne : kgram k K corpus ≠ []) :
    k = K.count 32 + 1 := by
  induction corpus with
  | nil => simp [kgram] at hne
  | cons toks rest ih =>
    simp only [kgram] at hne
    by_cases h1 : kgramLine k K toks = []
    · rw [h1, List.nil_append] at hne
      exact ih (fun t ht => h t (List.mem_cons_of_mem _ ht)) hne
    · rw [kgramLine_eq] at h1
      exact kgramFrom_order k K toks [] hk (by simp) (h toks (List.mem_cons_self _ _)) h1

theorem learned_spaceFree (lc : Nat → Nat) (avoid : List Str) (r : List Str) :
    ∀ toks ∈ r.map (learnedLine lc avoid), ∀ x ∈ toks, spaceFree x := by
  intro toks ht x hx
  obtain ⟨line, _, rfl⟩ := List.mem_map.1 ht
  exact spaceFree_of_asciiSpace x (learnedLine_token lc avoid line x hx).2

theorem Build_eq (lc : Nat → Nat) (c : Chain) (r avoidR : List Str)
    (hm : 0 ≤ c.maxPrefixLen) :
    Build lc c r avoidR =
      some ⟨applyLog c.chain (corpusEvents c.maxPrefixLen.toNat
          (r.map (learnedLine lc (avoidSet lc avoidR)))), c.maxPrefixLen⟩ := by
  simp [Build, BuildLog_eq lc c r avoidR hm]

/-- C1: for maxOrder >= 1, Build on the empty chain of NewChain(maxOrder) yields exactly the
k-gram table of the corpus: for every order k in 1..maxOrder and every key K that has
order-k observations, the list under K is the sequence, in reading order, of the learned
tokens (and the end of line marker at each line end) whose k preceding learned tokens of the
line, left-padded with empty strings, join with single spaces to K; a key without
observations at any order is absent; and no key has observations at two orders. -/
theorem C1_build_kgram_table (lc : Nat → Nat) (maxOrder : Int) (hm : 1 ≤ maxOrder)
    (r avoidR : List Str) :
    ∃ c, Build lc (NewChain maxOrder) r avoidR = some c ∧ c.maxPrefixLen = maxOrder ∧
      (∀ (k : Nat) (K : Str), 1 ≤ k → (k : Int) ≤ maxOrder →
        kgram k K (r.map (learnedLine lc (avoidSet lc avoidR))) ≠ [] →
        c.chain.find K = some (kgram k K (r.map (learnedLine lc (avoidSet lc avoidR))))) ∧
      (∀ K : Str, (∀ k : Nat, 1 ≤ k → (k : Int) ≤ maxOrder →
        kgram k K (r.map (learnedLine lc (avoidSet lc avoidR))) = []) →
        c.chain.find K = none) ∧
      (∀ (k1 k2 : Nat) (K : Str), 1 ≤ k1 → 1 ≤ k2 →
        kgram k1 K (r.map (learnedLine lc (avoidSet lc avoidR))) ≠ [] →
        kgram k2 K (r.map (learnedLine lc (avoidSet lc avoidR))) ≠ [] → k1 = k2) := by
  have h0 : 0 ≤ (NewChain maxOrder).maxPrefixLen := by simp only [NewChain]; omega
  have hsf := learned_spaceFree lc (avoidSet lc avoidR) r
  refine ⟨_, Build_eq lc (NewChain maxOrder) r avoidR h0, rfl, ?_, ?_, ?_⟩
  rotate_left 2
  · intro k1 k2 K h1 h2 hne1 hne2
    rw [kgram_order k1 K _ h1 hsf hne1, kgram_order k2 K _ h2 hsf hne2]
  · intro k K hk hkm hne
    have hord := kgram_order k K _ hk hsf hne
    have hlt : K.count 32 < maxOrder.toNat := by omega
    simp only [NewChain, find_applyLog, obsOf_corpusEvents _ K _ hsf, if_pos hlt]
    rw [← hord, if_neg hne]
    simp [Table.get, Table.find]
  · intro K hK
    simp only [NewChain, find_applyLog, obsOf_corpusEvents _ K _ hsf]
    by_cases hlt : K.count 32 < maxOrder.toNat
    · rw [if_pos hlt, if_pos (hK (K.count 32 + 1) (by omega) (by omega))]
      rfl
    · rw [if_neg hlt, if_pos rfl]
      rfl

theorem C1_build_kgram_table_witness :
    (1 : Int) ≤ 2 ∧
    (∃ c, Build caseRangesLower (NewChain 2) [str "a b c"] [] = some c ∧ c.maxPrefixLen = 2 ∧
      (∀ (k : Nat) (K : Str), 1 ≤ k → (k : Int) ≤ 2 →
        kgram k K ([str "a b c"].map (learnedLine caseRangesLower (avoidSet caseRangesLower [])))
          ≠ [] →
        c.chain.find K = some (kgram k K
          ([str "a b c"].map (learnedLine caseRangesLower (avoidSet caseRangesLower []))))) ∧
      (∀ K : Str, (∀ k : Nat, 1 ≤ k → (k : Int) ≤ 2 →
        kgram k K ([str "a b c"].map (learnedLine caseRangesLower (avoidSet caseRangesLower [])))
          = []) →
        c.chain.find K = none) ∧
      (∀ (k1 k2 : Nat) (K : Str), 1 ≤ k1 → 1 ≤ k2 →
        kgram k1 K ([str "a b c"].map (learnedLine caseRangesLower (avoidSet caseRangesLower [])))
          ≠ [] →
        kgram k2 K ([str "a b c"].map (learnedLine caseRangesLower (avoidSet caseRangesLower [])))
          ≠ [] → k1 = k2)) ∧
    Build caseRangesLower (NewChain 2) [str "a b c"] [] =
      some ⟨[(str "", [str "a"]), (str " ", [str "a"]), (str "a", [str "b"]),
        (str " a", [str "b"]), (str "b", [str "c"]), (str "a b", [str "c"]),
        (str "c", [ENDLINE]), (str "b c", [ENDLINE])], 2⟩ ∧
    kgram 2 (str "a b") [[str "a", str "b", str "c"]] = [str "c"] ∧
    kgram 1 (str "c") [[str "a", str "b", str "c"]] = [ENDLINE] :=
  ⟨by decide, C1_build_kgram_table caseRangesLower 2 (by decide) [str "a b c"] [],
    by decide, by decide, by decide⟩

theorem foldl_pool (chain : Table) (ps : List Prefix) (init : List Str) :
    ps.foldl (fun choices p => choices ++ chain.get p.String) init =
      init ++ ps.flatMap (fun p => chain.get p.String) := by
  induction ps generalizing init with
  | nil => simp
  | cons p ps ih => simp [List.foldl_cons, ih, List.flatMap_cons]

/-- The candidate pool is the concatenation of the lists under the keys of the windows. -/
theorem choicesOf_eq (chain : Table) (ps : List Prefix) :
    choicesOf chain ps = ps.flatMap (fun p => chain.get p.String) := by
  unfold choicesOf
  rw [foldl_pool]
  rfl

theorem draw_eq (choices : List Str) (rnd : Nat → Nat) (t : Nat) (h : choices ≠ []) :
    (Intn rnd t choices.length).bind (getAt choices) =
      choices[rnd t % choices.length]? := by
  have hpos : 0 < choices.length := List.length_pos.2 h
  have h1 : ¬ ((choices.length : Int) ≤ 0) := by omega
  have h2 : (0 : Int) ≤ (rnd t : Int) % (choices.length : Int) :=
    Int.emod_nonneg _ (by omega)
  have h3 : (rnd t : Int) % (choices.length : Int) < (choices.length : Int) :=
    Int.emod_lt_of_pos _ (by omega)
  have h4 : ((rnd t : Int) % (choices.length : Int)).toNat = rnd t % choices.length := by
    rw [← Int.natCast_mod]
    rfl
  simp only [Intn, if_neg h1, Option.some_bind, getAt, if_pos (And.intro h2 h3), h4]

theorem draw_some (choices : List Str) (i : Nat) (h : choices ≠ []) :
    ∃ w, choices[i % choices.length]? = some w ∧ w ∈ choices := by
  have hpos : 0 < choices.length := List.length_pos.2 h
  have hlt : i % choices.length < choices.length := Nat.mod_lt _ hpos
  exact ⟨choices[i % choices.length], List.getElem?_eq_getElem hlt, List.getElem_mem _⟩

/-- A step with a non-empty pool draws once, and once more exactly when the first draw is
the end of line marker; the second draw is kept whatever it is. -/
theorem pick_eq (choices : List Str) (rnd : Nat → Nat) (t : Nat) (h : choices ≠ []) :
    ∃ w1 w2, choices[rnd t % choices.length]? = some w1 ∧
      choices[rnd (t + 1) % choices.length]? = some w2 ∧
      pick choices rnd t = some (if w1 = ENDLINE then (w2, t + 2) else (w1, t + 1)) := by
  obtain ⟨w1, h1, _⟩ := draw_some choices (rnd t) h
  obtain ⟨w2, h2, _⟩ := draw_some choices (rnd (t + 1)) h
  refine ⟨w1, w2, h1, h2, ?_⟩
  unfold pick
  rw [draw_eq choices rnd t h, draw_eq choices rnd (t + 1) h, h1, h2]
  by_cases hw : w1 = ENDLINE <;> simp [hw]

theorem pick_mem (choices : List Str) (rnd : Nat → Nat) (t : Nat) (h : choices ≠ []) :
    ∃ w t1, pick choices rnd t = some (w, t1) ∧ w ∈ choices := by
  obtain ⟨w1, w2, h1, h2, hp⟩ := pick_eq choices rnd t h
  by_cases hw : w1 = ENDLINE
  · exact ⟨w2, t + 2, by rw [hp, if_pos hw], List.getElem?_mem h2⟩
  · exact ⟨w1, t + 1, by rw [hp, if_neg hw], List.getElem?_mem h1⟩

theorem shiftAll_eq (next : Str) (ps : List Prefix) (h : ∀ p ∈ ps, 1 ≤ p.length) :
    shiftAll next ps = some (ps.map (fun p => p.drop 1 ++ [next])) := by
  induction ps with
  | nil => rfl
  | cons p ps ih =>
    simp only [shiftAll, Shift_eq p next (h p (List.mem_cons_self _ _)),
      ih (fun q hq => h q (List.mem_cons_of_mem _ hq)), List.map_cons]

/-- The loop of `Generate` returns: it extends the words produced so far by at most `k`
words, each of them an observation stored in the table. -/
theorem genLoop_spec (chain : Table) (rnd : Nat → Nat) (m k : Nat) (words : List Str)
    (t : Nat) :
    ∃ out, genLoop chain rnd k (windows m words) words t = some out ∧
      out.length ≤ words.length + k ∧
      ∀ w ∈ out, w ∈ words ∨ ∃ K, w ∈ chain.get K := by
  induction k generalizing words t with
  | zero => exact ⟨words, rfl, by simp, fun w hw => Or.inl hw⟩
  | succ k ih =>
    by_cases hc : (choicesOf chain (windows m words)).length = 0
    · exact ⟨words, by simp [genLoop, hc], by simp, fun w hw => Or.inl hw⟩
    · have hne : choicesOf chain (windows m words) ≠ [] := by
        intro h
        exact hc (by rw [h]; rfl)
      obtain ⟨next, t1, hp, hmem⟩ := pick_mem _ rnd t hne
      obtain ⟨out, ho, hlen, hall⟩ := ih (words ++ [next]) t1
      refine ⟨out, ?_, ?_, ?_⟩
      · simp only [genLoop, if_neg hc, hp, shiftAll_eq next _ (windows_length m words),
          windows_shift, ho]
      · simp at hlen
        omega
      · intro w hw
        rcases hall w hw with h | h
        · rcases List.mem_append.1 h with h | h
          · exact Or.inl h
          · simp at h
            subst h
            rw [choicesOf_eq] at hmem
            obtain ⟨p, _, hp2⟩ := List.mem_flatMap.1 hmem
            exact Or.inr ⟨_, hp2⟩
        · exact Or.inr h

theorem generateWords_spec (c : Chain) (n : Int) (rnd : Nat → Nat) (hm : 0 ≤ c.maxPrefixLen) :
    ∃ out, generateWords c n rnd = some out ∧ out.length ≤ n.toNat ∧
      ∀ w ∈ out, ∃ K, w ∈ c.chain.get K := by
  obtain ⟨out, ho, hlen, hall⟩ := genLoop_spec c.chain rnd c.maxPrefixLen.toNat n.toNat [] 0
  refine ⟨out, ?_, by simpa using hlen, ?_⟩
  · simp only [generateWords, newPrefixes_eq _ hm, ho]
  · intro w hw
    rcases hall w hw with h | h
    · simp at h
    · exact h

theorem generateWords_neg (c : Chain) (n : Int) (rnd : Nat → Nat) (hm : c.maxPrefixLen < 0) :
    generateWords c n rnd = none := by
  simp only [generateWords, newPrefixes_neg _ hm]

theorem replaceAux_zero (old new : Str) (c : Nat) (cs : Str) :
    replaceAux old new 0 (c :: cs) =
      if old.isPrefixOf (c :: cs) = true then new ++ replaceAux old new (old.length - 1) cs
      else c :: replaceAux old new 0 cs := rfl

theorem replaceAux_succ (old new : Str) (k c : Nat) (cs : Str) :
    replaceAux old new (k + 1) (c :: cs) = replaceAux old new k cs := rfl

theorem replaceAux_skip (old new : Str) (x rest : Str) :
    replaceAux old new x.length (x ++ rest) = replaceAux old new 0 rest := by
  induction x with
  | nil => rfl
  | cons a x ih =>
    rw [List.length_cons, List.cons_append, replaceAux_succ]
    exact ih

theorem replaceAux_old (old rest : Str) (h : old ≠ []) :
    replaceAux old [] 0 (old ++ rest) = replaceAux old [] 0 rest := by
  cases old with
  | nil => exact absurd rfl h
  | cons a x =>
    have hp : (a :: x).isPrefixOf (a :: (x ++ rest)) = true := by
      rw [List.isPrefixOf_iff_prefix]
      exact ⟨rest, rfl⟩
    rw [List.cons_append, replaceAux_zero, if_pos hp, List.nil_append, List.length_cons,
      Nat.add_sub_cancel]
    exact replaceAux_skip (a :: x) [] x rest

theorem replaceAux_sep (old rest : Str) (c : Nat) (h : old ≠ []) (hc : c ∉ old) :
    replaceAux old [] 0 (c :: rest) = c :: replaceAux old [] 0 rest := by
  have hp : ¬ (old.isPrefixOf (c :: rest) = true) := by
    rw [List.isPrefixOf_iff_prefix]
    rintro ⟨z, hz⟩
    cases old with
    | nil => exact h rfl
    | cons a x =>
      simp only [List.cons_append, List.cons.injEq] at hz
      exact hc (by rw [hz.1]; exact List.mem_cons_self _ _)
  rw [replaceAux_zero, if_neg hp]

theorem occurrence_tail {old w : Str} {a : Nat} (h : ¬ old <:+: a :: w) : ¬ old <:+: w :=
  fun hw => h (List.infix_cons hw)

/-- The scan copies a word that holds no occurrence of `old` and is followed by the end of
the string or by a byte that `old` does not hold. -/
theorem replaceAux_clean (old w rest : Str) (c : Nat) (hc : c ∉ old)
    (hw : ¬ old <:+: w) (hrest : rest = [] ∨ ∃ rest1, rest = c :: rest1) :
    replaceAux old [] 0 (w ++ rest) = w ++ replaceAux old [] 0 rest := by
  induction w with
  | nil => rfl
  | cons a w ih =>
    have hp : ¬ (old.isPrefixOf (a :: (w ++ rest)) = true) := by
      rw [List.isPrefixOf_iff_prefix]
      rintro ⟨z, hz⟩
      have hz1 : old ++ z = (a :: w) ++ rest := hz
      rcases List.append_eq_append_iff.1 hz1 with ⟨x, hx, _⟩ | ⟨x, hx, hx2⟩
      · exact hw ⟨[], x, by simpa using hx.symm⟩
      · rcases hrest with rfl | ⟨rest1, rfl⟩
        · have hx0 : x = [] := by
            have := congrArg List.length hx2
            simp at this
            exact List.length_eq_zero.1 (by omega)
          subst hx0
          exact hw ⟨[], [], by simpa using hx⟩
        · cases x with
          | nil => exact hw ⟨[], [], by simpa using hx⟩
          | cons b x =>
            simp only [List.cons_append, List.cons.injEq] at hx2
            apply hc
            rw [hx, hx2.1]
            simp
    rw [List.cons_append, replaceAux_zero, if_neg hp, ih (occurrence_tail hw),
      List.cons_append]

/-- Removing `old` from a space-joined list of words, each of them `old` itself or without
an occurrence of `old`, removes exactly the words that are `old`. -/
theorem Replace_Join (old : Str) (c : Nat) (hold : old ≠ []) (hc : c ∉ old)
    (words : List Str) (h : ∀ w ∈ words, w = old ∨ ¬ old <:+: w) :
    Replace (Join words [c]) old [] =
      Join (words.map (fun w => if w = old then [] else w)) [c] := by
  unfold Replace
  induction words with
  | nil => rfl
  | cons a words ih =>
    have ha := h a (List.mem_cons_self _ _)
    have hrest : ∀ w ∈ words, w = old ∨ ¬ old <:+: w :=
      fun w hw => h w (List.mem_cons_of_mem _ hw)
    cases words with
    | nil =>
      by_cases hao : a = old
      · subst hao
        have := replaceAux_old a [] hold
        simp only [List.append_nil] at this
        simp [Join, this, replaceAux]
      · have hcl : ¬ old <:+: a := by
          rcases ha with h1 | h1
          · exact absurd h1 hao
          · exact h1
        have := replaceAux_clean old a [] c hc hcl (Or.inl rfl)
        simp only [List.append_nil] at this
        simp [Join, this, replaceAux, hao]
    | cons b rest =>
      have ih2 := ih hrest
      by_cases hao : a = old
      · subst hao
        simp only [Join, List.map_cons, if_true, List.append_assoc, List.singleton_append,
          List.nil_append]
        rw [replaceAux_old a _ hold, replaceAux_sep a _ c hold hc, ih2]
        simp [Join]
      · have hcl : ¬ old <:+: a := by
          rcases ha with h1 | h1
          · exact absurd h1 hao
          · exact h1
        simp only [Join, List.map_cons, if_neg hao, List.append_assoc, List.singleton_append]
        rw [replaceAux_clean old a _ c hc hcl (Or.inr ⟨_, rfl⟩),
          replaceAux_sep old _ c hold hc, ih2]
        simp [Join]

theorem infix_split (old x y : Str) (c : Nat) (hc : c ∉ old)
    (h : old <:+: x ++ c :: y) : old <:+: x ∨ old <:+: y := by
  obtain ⟨s, t, hst⟩ := h
  rcases List.append_eq_append_iff.1 hst with ⟨a1, hx, _⟩ | ⟨c1, hso, hcy⟩
  · exact Or.inl ⟨s, a1, hx.symm⟩
  · rcases List.append_eq_append_iff.1 hso with ⟨a2, hx, hold⟩ | ⟨d, hs, hc1⟩
    · cases c1 with
      | nil =>
        left
        refine ⟨s, [], ?_⟩
        rw [hx, hold]
        simp
      | cons b c2 =>
        simp only [List.cons_append, List.cons.injEq] at hcy
        exfalso
        apply hc
        rw [hold, hcy.1]
        simp
    · cases d with
      | nil =>
        cases old with
        | nil => exact Or.inl ⟨x, [], by simp⟩
        | cons b o =>
          rw [hc1] at hcy
          simp only [List.nil_append, List.cons_append, List.cons.injEq] at hcy
          exfalso
          apply hc
          rw [hcy.1]
          simp
      | cons b d =>
        rw [hc1] at hcy
        simp only [List.cons_append, List.cons.injEq] at hcy
        right
        exact ⟨d, t, by rw [hcy.2]⟩

theorem Join_clean (old : Str) (c : Nat) (hold : old ≠ []) (hc : c ∉ old)
    (words : List Str) (h : ∀ w ∈ words, ¬ old <:+: w) : ¬ old <:+: Join words [c] := by
  induction words with
  | nil =>
    simp only [Join, List.infix_nil]
    exact hold
  | cons a words ih =>
    cases words with
    | nil => simpa [Join] using h a (List.mem_cons_self _ _)
    | cons b rest =>
      intro hin
      simp only [Join, List.append_assoc, List.singleton_append] at hin
      rcases infix_split old a _ c hc hin with h1 | h1
      · exact h a (List.mem_cons_self _ _) h1
      · exact ih (fun w hw => h w (List.mem_cons_of_mem _ hw)) h1

theorem mem_obsOf (K w : Str) (log : Log) (h : w ∈ obsOf K log) : (K, w) ∈ log := by
  unfold obsOf at h
  obtain ⟨e, he, rfl⟩ := List.mem_map.1 h
  obtain ⟨hin, hk⟩ := List.mem_filter.1 he
  have : e.1 = K := by simpa using hk
  rw [← this]
  exact hin

theorem obsOf_mem (K w : Str) (log : Log) (h : (K, w) ∈ log) : w ∈ obsOf K log := by
  unfold obsOf
  exact List.mem_map.2 ⟨(K, w), List.mem_filter.2 ⟨h, by simp⟩, rfl⟩

theorem mem_stepEvents (n : Nat) (pre : List Str) (t : Str) (e : Str × Str)
    (h : e ∈ stepEvents n pre t) : e.2 = t ∧ ∃ p ∈ windows n pre, e.1 = p.String := by
  unfold stepEvents at h
  obtain ⟨p, hp, rfl⟩ := List.mem_map.1 h
  exact ⟨rfl, p, hp, rfl⟩

theorem mem_wordEvents (n : Nat) (toks pre : List Str) (e : Str × Str)
    (h : e ∈ wordEvents n pre toks) : e.2 ∈ toks := by
  induction toks generalizing pre with
  | nil => simp [wordEvents] at h
  | cons t rest ih =>
    simp only [wordEvents, List.mem_append] at h
    rcases h with h | h
    · rw [(mem_stepEvents n pre t e h).1]
      exact List.mem_cons_self _ _
    · exact List.mem_cons_of_mem _ (ih _ h)

/-- Every logged observation is the end of line marker or a token of a line. -/
theorem mem_corpusEvents (n : Nat) (corpus : List (List Str)) (e : Str × Str)
    (h : e ∈ corpusEvents n corpus) : e.2 = ENDLINE ∨ ∃ toks ∈ corpus, e.2 ∈ toks := by
  induction corpus with
  | nil => simp [corpusEvents] at h
  | cons toks rest ih =>
    simp only [corpusEvents, lineEvents, List.mem_append] at h
    rcases h with (h | h) | h
    · exact Or.inr ⟨toks, List.mem_cons_self _ _, mem_wordEvents n toks [] e h⟩
    · exact Or.inl (mem_stepEvents n toks ENDLINE e h).1
    · rcases ih h with h1 | ⟨t, ht, h2⟩
      · exact Or.inl h1
      · exact Or.inr ⟨t, List.mem_cons_of_mem _ ht, h2⟩

/-- The observations of a chain built from the empty chain: the end of line marker and the
learned tokens of the lines. -/
theorem built_observation (lc : Nat → Nat) (m : Int) (r avoidR : List Str) (c : Chain)
    (hb : Build lc (NewChain m) r avoidR = some c) (K w : Str) (hw : w ∈ c.chain.get K) :
    w = ENDLINE ∨ ∃ line ∈ r, w ∈ learnedLine lc (avoidSet lc avoidR) line := by
  by_cases hm : 0 ≤ m
  · rw [Build_eq lc (NewChain m) r avoidR hm] at hb
    injection hb with hb
    subst hb
    simp only [NewChain, get_applyLog] at hw
    have hw2 : w ∈ obsOf K (corpusEvents m.toNat
        (r.map (learnedLine lc (avoidSet lc avoidR)))) := by
      simpa [Table.get, Table.find] using hw
    rcases mem_corpusEvents _ _ _ (mem_obsOf K w _ hw2) with h | ⟨toks, ht, h⟩
    · exact Or.inl h
    · obtain ⟨line, hl, rfl⟩ := List.mem_map.1 ht
      exact Or.inr ⟨line, hl, h⟩
  · have hneg : (NewChain m).maxPrefixLen < 0 := by simp only [NewChain]; omega
    simp only [Build, BuildLog_neg lc (NewChain m) r avoidR hneg] at hb
    cases r with
    | nil =>
      simp at hb
      subst hb
      simp [NewChain, Table.get, Table.find] at hw
    | cons a b => simp at hb

theorem marker_facts : ENDLINE ≠ [] ∧ 32 ∉ ENDLINE ∧ 45 ∉ ENDLINE := by decide

/-- Hyphenation creates no occurrence of the end of line marker. -/
theorem learn_clean (lc : Nat → Nat) (avoid : List Str) (s t : Str) (hs : s ≠ [])
    (hcl : ¬ ENDLINE <:+: s) (ht : learn lc avoid s = some t) : ¬ ENDLINE <:+: t := by
  rw [learn_eq lc avoid s hs] at ht
  injection ht with ht
  subst ht
  split
  · intro hin
    rw [List.append_assoc, List.singleton_append] at hin
    rcases infix_split ENDLINE _ _ 45 marker_facts.2.2 hin with h | h
    · exact hcl (h.trans (List.take_prefix 1 s).isInfix)
    · exact hcl (h.trans (List.drop_suffix 1 s).isInfix)
  · exact hcl

theorem learnedLine_clean (lc : Nat → Nat) (avoid : List Str) (line t : Str)
    (hcl : ∀ w ∈ Fields line, ¬ ENDLINE <:+: w) (ht : t ∈ learnedLine lc avoid line) :
    ¬ ENDLINE <:+: t := by
  unfold learnedLine at ht
  obtain ⟨s, hs, hst⟩ := List.mem_filterMap.1 ht
  exact learn_clean lc avoid s t (Fields_token line s hs).1 (hcl s hs) hst

theorem Generate_eq (c : Chain) (n : Int) (rnd : Nat → Nat) (words : List Str)
    (h : generateWords c n rnd = some words) :
    Generate c n rnd = some (Replace (Join words [32]) ENDLINE []) := by
  simp [Generate, h]

theorem Generate_neg (c : Chain) (n : Int) (rnd : Nat → Nat) (hm : c.maxPrefixLen < 0) :
    Generate c n rnd = none := by
  simp [Generate, generateWords_neg c n rnd hm]

theorem Build_maxPrefixLen (lc : Nat → Nat) (c c1 : Chain) (r avoidR : List Str)
    (h : Build lc c r avoidR = some c1) : c1.maxPrefixLen = c.maxPrefixLen := by
  unfold Build BuildLog at h
  cases hr : recordLines lc (avoidSet lc avoidR) c.maxPrefixLen r c.chain [] with
  | none => simp [hr] at h
  | some x =>
    simp [hr] at h
    rw [← h]

/-- C2 (amended): when no word of the corpus holds the end of line marker as a substring,
Build on a new chain followed by Generate returns a string for every maxOrder >= 0, and a
string it returns never holds the marker as a substring. -/
theorem C2_output_without_marker (lc : Nat → Nat) (maxOrder n : Int) (r avoidR : List Str)
    (rnd : Nat → Nat) (hclean : ∀ line ∈ r, ∀ w ∈ Fields line, ¬ ENDLINE <:+: w) :
    (0 ≤ maxOrder → ∃ out, (Build lc (NewChain maxOrder) r avoidR).bind
        (fun c => Generate c n rnd) = some out) ∧
      ∀ out, (Build lc (NewChain maxOrder) r avoidR).bind (fun c => Generate c n rnd) =
        some out → ¬ ENDLINE <:+: out := by
  by_cases hm : 0 ≤ maxOrder
  · have hb := Build_eq lc (NewChain maxOrder) r avoidR hm
    obtain ⟨words, hw, _, hall⟩ := generateWords_spec
      ⟨applyLog (NewChain maxOrder).chain (corpusEvents (NewChain maxOrder).maxPrefixLen.toNat
        (r.map (learnedLine lc (avoidSet lc avoidR)))), (NewChain maxOrder).maxPrefixLen⟩
      n rnd hm
    have hrun : (Build lc (NewChain maxOrder) r avoidR).bind (fun c => Generate c n rnd) =
        some (Replace (Join words [32]) ENDLINE []) := by
      rw [hb, Option.some_bind, Generate_eq _ n rnd words hw]
    refine ⟨fun _ => ⟨_, hrun⟩, ?_⟩
    intro out hout
    rw [hrun] at hout
    injection hout with hout
    subst hout
    have hword : ∀ w ∈ words, w = ENDLINE ∨ ¬ ENDLINE <:+: w := by
      intro w hw1
      obtain ⟨K, hK⟩ := hall w hw1
      rcases built_observation lc maxOrder r avoidR _ hb K w hK with h | ⟨line, hl, h⟩
      · exact Or.inl h
      · exact Or.inr (learnedLine_clean lc _ line w (hclean line hl) h)
    rw [Replace_Join ENDLINE 32 marker_facts.1 marker_facts.2.1 words hword]
    apply Join_clean ENDLINE 32 marker_facts.1 marker_facts.2.1
    intro w hw1
    obtain ⟨w0, hw0, rfl⟩ := List.mem_map.1 hw1
    by_cases he : w0 = ENDLINE
    · rw [if_pos he]
      simp only [List.infix_nil]
      exact marker_facts.1
    · rw [if_neg he]
      rcases hword w0 hw0 with h | h
      · exact absurd h he
      · exact h
  · refine ⟨fun h => absurd h hm, ?_⟩
    intro out hout
    exfalso
    cases hb : Build lc (NewChain maxOrder) r avoidR with
    | none => simp [hb] at hout
    | some c =>
      have hlen := Build_maxPrefixLen lc _ c r avoidR hb
      have hneg : c.maxPrefixLen < 0 := by rw [hlen]; simp only [NewChain]; omega
      simp [hb, Generate_neg c n rnd hneg] at hout

theorem C2_output_without_marker_witness :
    (∀ line ∈ [str "a b c", str "a c"], ∀ w ∈ Fields line, ¬ ENDLINE <:+: w) ∧
    ((0 ≤ (2 : Int) → ∃ out, (Build caseRangesLower (NewChain 2) [str "a b c", str "a c"]
        []).bind (fun c => Generate c 10 (fun t => t + 1)) = some out) ∧
      ∀ out, (Build caseRangesLower (NewChain 2) [str "a b c", str "a c"] []).bind
        (fun c => Generate c 10 (fun t => t + 1)) = some out → ¬ ENDLINE <:+: out) ∧
    (Build caseRangesLower (NewChain 2) [str "a b c", str "a c"] []).bind
        (fun c => Generate c 10 (fun t => t + 1)) = some (str "a b c ") :=
  ⟨by decide,
    C2_output_without_marker caseRangesLower 2 10 [str "a b c", str "a c"] []
      (fun t => t + 1) (by decide),
    by decide⟩

/-- C2, as stated, fails: a corpus word that holds the marker around another occurrence of
the marker is output as the marker itself. -/
theorem C2_counterexample :
    (Build caseRangesLower (NewChain 1) [str "____END____ENDLINELINE"] []).bind
        (fun c => Generate c 1 (fun _ => 0)) = some ENDLINE ∧
      ENDLINE <:+: ENDLINE :=
  ⟨by decide, List.infix_refl _⟩

theorem window_nil (k : Nat) : window k [] = List.replicate k [] := by
  simp [window]

theorem genLoop_empty_pool (chain : Table) (rnd : Nat → Nat) (k : Nat) (ps : List Prefix)
    (words : List Str) (t : Nat) (h : choicesOf chain ps = []) :
    genLoop chain rnd k ps words t = some words := by
  cases k with
  | zero => rfl
  | succ k => simp [genLoop, h]

/-- C7: for a chain of every order (maxPrefixLen >= 0, which covers every positive maxOrder)
that has no observations under the all-empty prefix keys of orders 1..maxPrefixLen, Generate
returns the empty string for every n and every random source; Build on an empty corpus
returns the chain unchanged, so this holds of a new chain built from an empty corpus, with
any avoid source. -/
theorem C7_generate_empty (lc : Nat → Nat) (c : Chain) (avoidR : List Str) (n : Int)
    (rnd : Nat → Nat) (hm : 0 ≤ c.maxPrefixLen)
    (hempty : ∀ k : Nat, 1 ≤ k → (k : Int) ≤ c.maxPrefixLen →
      c.chain.get (Prefix.String (List.replicate k [])) = []) :
    Generate c n rnd = some [] ∧ Build lc c [] avoidR = some c := by
  constructor
  · have hpool : choicesOf c.chain (windows c.maxPrefixLen.toNat []) = [] := by
      rw [choicesOf_eq]
      apply List.flatMap_eq_nil_iff.2
      intro p hp
      unfold windows at hp
      obtain ⟨i, hi, rfl⟩ := List.mem_map.1 hp
      rw [window_nil]
      have hi2 := List.mem_range.1 hi
      exact hempty (i + 1) (by omega) (by omega)
    have hw : generateWords c n rnd = some [] := by
      simp only [generateWords, newPrefixes_eq _ hm]
      exact genLoop_empty_pool _ _ _ _ _ _ hpool
    rw [Generate_eq c n rnd [] hw]
    rfl
  · simp [Build, BuildLog, recordLines]

theorem C7_generate_empty_witness :
    (0 : Int) ≤ (NewChain 2).maxPrefixLen ∧
    (∀ k : Nat, 1 ≤ k → (k : Int) ≤ (NewChain 2).maxPrefixLen →
      (NewChain 2).chain.get (Prefix.String (List.replicate k [])) = []) ∧
    (Generate (NewChain 2) 5 (fun t => t) = some [] ∧
      Build caseRangesLower (NewChain 2) [] [str "cat"] = some (NewChain 2)) :=
  ⟨by decide, fun _ _ _ => rfl,
    C7_generate_empty caseRangesLower (NewChain 2) [str "cat"] 5 (fun t => t) (by decide)
      (fun _ _ _ => rfl)⟩

/-- Outside the orders a chain is made for (a Prefix has one or more words, markov.go:19): a
chain created with a negative maxPrefixLen has no observations at all, Build on an empty
corpus returns it, and Generate panics in `make`. -/
theorem Generate_negative_order :
    (∀ k : Nat, 1 ≤ k → (k : Int) ≤ (NewChain (-1)).maxPrefixLen →
      (NewChain (-1)).chain.get (Prefix.String (List.replicate k [])) = []) ∧
    Build caseRangesLower (NewChain (-1)) [] [] = some (NewChain (-1)) ∧
    Generate (NewChain (-1)) 3 (fun _ => 0) = none :=
  ⟨fun _ _ _ => rfl, by decide, by decide⟩

/-- C8: for maxOrder >= 1, Build raises no error on any corpus and avoid source: it returns
a chain, every word of every line is non-empty and is learned without a slice out of range
(s[:1], s[1:], lowers[:len-1]), and Shift succeeds on every window. -/
theorem C8_build_no_panic (lc : Nat → Nat) (c : Chain) (r avoidR : List Str)
    (hm : 1 ≤ c.maxPrefixLen) :
    (∃ c1, Build lc c r avoidR = some c1) ∧
      (∀ line ∈ r, ∀ s ∈ Fields line,
        s ≠ [] ∧ ∃ t, learn lc (avoidSet lc avoidR) s = some t) ∧
      (∀ (pre : List Str) (w : Str), ∀ p ∈ windows c.maxPrefixLen.toNat pre,
        ∃ q, Prefix.Shift p w = some q) := by
  refine ⟨⟨_, Build_eq lc c r avoidR (by omega)⟩, ?_, ?_⟩
  · intro line _ s hs
    have hne := (Fields_token line s hs).1
    exact ⟨hne, _, learn_eq lc _ s hne⟩
  · intro pre w p hp
    exact ⟨_, Shift_eq p w (windows_length _ pre p hp)⟩

theorem C8_build_no_panic_witness :
    (1 : Int) ≤ (NewChain 2).maxPrefixLen ∧
    ((∃ c1, Build caseRangesLower (NewChain 2)
        [str "", str "  ", str "a", str "<", str ">", str "<> x"] [str "", str "ab"] =
        some c1) ∧
      (∀ line ∈ [str "", str "  ", str "a", str "<", str ">", str "<> x"],
        ∀ s ∈ Fields line,
          s ≠ [] ∧ ∃ t, learn caseRangesLower (avoidSet caseRangesLower [str "", str "ab"]) s =
            some t) ∧
      (∀ (pre : List Str) (w : Str), ∀ p ∈ windows (NewChain 2).maxPrefixLen.toNat pre,
        ∃ q, Prefix.Shift p w = some q)) :=
  ⟨by decide,
    C8_build_no_panic caseRangesLower (NewChain 2)
      [str "", str "  ", str "a", str "<", str ">", str "<> x"] [str "", str "ab"]
      (by decide)⟩

/-- C10: for a chain whose observation lists are all non-empty, Build completes (for
maxPrefixLen >= 0), and after it every key present has a non-empty observation list and every
key looked up during the run is present, with the observation appended at that lookup in its
list. -/
theorem C10_observed_prefix_nonempty (lc : Nat → Nat) (c : Chain) (r avoidR : List Str)
    (hne : ∀ K v, c.chain.find K = some v → v ≠ []) :
    (0 ≤ c.maxPrefixLen → ∃ x, BuildLog lc c r avoidR = some x) ∧
      ∀ c1 log, BuildLog lc c r avoidR = some (c1, log) →
        (∀ K v, c1.chain.find K = some v → v ≠ []) ∧
        (∀ e ∈ log, ∃ v, c1.chain.find e.1 = some v ∧ e.2 ∈ v) := by
  by_cases hm : 0 ≤ c.maxPrefixLen
  · refine ⟨fun _ => ⟨_, BuildLog_eq lc c r avoidR hm⟩, ?_⟩
    intro c1 log hb
    rw [BuildLog_eq lc c r avoidR hm] at hb
    injection hb with hb
    injection hb with h1 h2
    subst h1
    subst h2
    constructor
    · intro K v hv
      simp only [find_applyLog] at hv
      split at hv
      · exact hne K v hv
      · rename_i hobs
        injection hv with hv
        subst hv
        simp [hobs]
    · intro e he
      have hmem : e.2 ∈ obsOf e.1 (corpusEvents c.maxPrefixLen.toNat
          (r.map (learnedLine lc (avoidSet lc avoidR)))) := obsOf_mem e.1 e.2 _ he
      have hobs : obsOf e.1 (corpusEvents c.maxPrefixLen.toNat
          (r.map (learnedLine lc (avoidSet lc avoidR)))) ≠ [] := List.ne_nil_of_mem hmem
      refine ⟨c.chain.get e.1 ++ obsOf e.1 (corpusEvents c.maxPrefixLen.toNat
          (r.map (learnedLine lc (avoidSet lc avoidR)))), ?_, List.mem_append_right _ hmem⟩
      simp only [find_applyLog, if_neg hobs]
  · refine ⟨fun h => absurd h hm, ?_⟩
    intro c1 log hb
    rw [BuildLog_neg lc c r avoidR (by omega)] at hb
    cases r with
    | nil =>
      simp only [if_true] at hb
      injection hb with hb
      injection hb with h1 h2
      subst h1
      subst h2
      exact ⟨hne, by simp⟩
    | cons a b => simp at hb

theorem C10_observed_prefix_nonempty_witness :
    (∀ K v, (NewChain 2).chain.find K = some v → v ≠ []) ∧
    ((0 ≤ (NewChain 2).maxPrefixLen →
        ∃ x, BuildLog caseRangesLower (NewChain 2) [str "a b"] [] = some x) ∧
      ∀ c1 log, BuildLog caseRangesLower (NewChain 2) [str "a b"] [] = some (c1, log) →
        (∀ K v, c1.chain.find K = some v → v ≠ []) ∧
        (∀ e ∈ log, ∃ v, c1.chain.find e.1 = some v ∧ e.2 ∈ v)) ∧
    (BuildLog caseRangesLower (NewChain 2) [str "a b"] []).map (fun x => x.2) =
      some [(str "", str "a"), (str " ", str "a"), (str "a", str "b"), (str " a", str "b"),
        (str "b", ENDLINE), (str "a b", ENDLINE)] :=
  ⟨fun K v h => by simp [NewChain, Table.find] at h,
    C10_observed_prefix_nonempty caseRangesLower (NewChain 2) [str "a b"] []
      (fun K v h => by simp [NewChain, Table.find] at h),
    by decide⟩

theorem stepEvents_mem (n k : Nat) (pre : List Str) (t : Str) (hk : k < n) :
    ((window (k + 1) pre).String, t) ∈ stepEvents n pre t := by
  unfold stepEvents windows
  exact List.mem_map.2 ⟨window (k + 1) pre,
    List.mem_map.2 ⟨k, List.mem_range.2 hk, rfl⟩, rfl⟩

theorem wordEvents_mem (n k : Nat) (toks pre : List Str) (j : Nat) (t : Str)
    (hj : toks[j]? = some t) (hk : k < n) :
    ((window (k + 1) (pre ++ toks.take j)).String, t) ∈ wordEvents n pre toks := by
  induction toks generalizing pre j with
  | nil => simp at hj
  | cons a toks ih =>
    simp only [wordEvents, List.mem_append]
    cases j with
    | zero =>
      simp only [List.getElem?_cons_zero, Option.some.injEq] at hj
      subst hj
      left
      simpa using stepEvents_mem n k pre a hk
    | succ j =>
      simp only [List.getElem?_cons_succ] at hj
      right
      have := ih (pre ++ [a]) j hj
      simpa using this

/-- Every position of a line is logged at every order: the token at the position, or the
end of line marker after the last token, under the key of the window before it. -/
theorem lineEvents_mem (n k : Nat) (toks : List Str) (j : Nat) (t : Str)
    (hj : (toks ++ [ENDLINE])[j]? = some t) (hk : k < n) :
    ((window (k + 1) (toks.take j)).String, t) ∈ lineEvents n toks := by
  unfold lineEvents
  by_cases hlt : j < toks.length
  · rw [List.getElem?_append_left hlt] at hj
    have := wordEvents_mem n k toks [] j t hj hk
    simp only [List.nil_append] at this
    exact List.mem_append_left _ this
  · have hj2 : j = toks.length := by
      have hlt2 : j < (toks ++ [ENDLINE]).length := by
        by_contra hcon
        rw [List.getElem?_eq_none (by omega)] at hj
        cases hj
      simp only [List.length_append, List.length_singleton] at hlt2
      omega
    subst hj2
    rw [List.getElem?_append_right (Nat.le_refl _)] at hj
    simp only [Nat.sub_self, List.getElem?_cons_zero, Option.some.injEq] at hj
    subst hj
    rw [List.take_length]
    exact List.mem_append_right _ (stepEvents_mem n k toks ENDLINE hk)

theorem corpusEvents_mem (n : Nat) (corpus : List (List Str)) (toks : List Str)
    (e : Str × Str) (ht : toks ∈ corpus) (he : e ∈ lineEvents n toks) :
    e ∈ corpusEvents n corpus := by
  induction corpus with
  | nil => simp at ht
  | cons a corpus ih =>
    simp only [corpusEvents, List.mem_append]
    rcases List.mem_cons.1 ht with rfl | ht
    · exact Or.inl he
    · exact Or.inr (ih ht)

theorem window_getLast (k : Nat) (pre : List Str) (t : Str) :
    (window (k + 1) (pre ++ [t])).getLast? = some t := by
  rw [← window_shift (k + 1) pre t (by omega)]
  simp

/-- What a completed run of `Build` has logged and stored: the log is the list of events of
the learned tokens of the lines, and the table holds, under every key, its old observations
followed by the logged ones. -/
theorem BuildLog_some (lc : Nat → Nat) (c c1 : Chain) (r avoidR : List Str) (log : Log)
    (h : BuildLog lc c r avoidR = some (c1, log)) (hr : r ≠ []) :
    0 ≤ c.maxPrefixLen ∧
      log = corpusEvents c.maxPrefixLen.toNat (r.map (learnedLine lc (avoidSet lc avoidR))) ∧
      c1.chain = applyLog c.chain log := by
  by_cases hm : 0 ≤ c.maxPrefixLen
  · rw [BuildLog_eq lc c r avoidR hm] at h
    injection h with h
    injection h with h1 h2
    subst h1
    subst h2
    exact ⟨hm, rfl, rfl⟩
  · rw [BuildLog_neg lc c r avoidR (by omega), if_neg hr] at h
    cases h

theorem encodeRune_ne_nil (r : Nat) : encodeRune r ≠ [] := by
  unfold encodeRune
  split_ifs <;> simp

theorem ToLower_ne_nil (lc : Nat → Nat) (s : Str) (hs : s ≠ []) : ToLower lc s ≠ [] := by
  unfold ToLower
  cases s with
  | nil => exact absurd rfl hs
  | cons b bs =>
    split
    · simp
    · simp only [runes, List.length_cons, runesAux, List.foldr_cons]
      intro h
      exact encodeRune_ne_nil _ (List.append_eq_nil.1 h).1

theorem mem_foldl_avoid (lc : Nat → Nat) (ws : List Str) (acc : List Str) (m : Str) :
    m ∈ ws.foldl (fun avoid s => if s.length ≥ 3 then ToLower lc s :: avoid else avoid) acc ↔
      m ∈ acc ∨ ∃ t ∈ ws, 3 ≤ t.length ∧ m = ToLower lc t := by
  induction ws generalizing acc with
  | nil => simp
  | cons s ws ih =>
    rw [List.foldl_cons, ih]
    by_cases h3 : s.length ≥ 3
    · rw [if_pos h3]
      constructor
      · rintro (h | ⟨t, ht, h1, h2⟩)
        · rcases List.mem_cons.1 h with h | h
          · exact Or.inr ⟨s, List.mem_cons_self _ _, h3, h⟩
          · exact Or.inl h
        · exact Or.inr ⟨t, List.mem_cons_of_mem _ ht, h1, h2⟩
      · rintro (h | ⟨t, ht, h1, h2⟩)
        · exact Or.inl (List.mem_cons_of_mem _ h)
        · rcases List.mem_cons.1 ht with rfl | ht
          · exact Or.inl (by rw [h2]; exact List.mem_cons_self _ _)
          · exact Or.inr ⟨t, ht, h1, h2⟩
    · rw [if_neg h3]
      constructor
      · rintro (h | ⟨t, ht, h1, h2⟩)
        · exact Or.inl h
        · exact Or.inr ⟨t, List.mem_cons_of_mem _ ht, h1, h2⟩
      · rintro (h | ⟨t, ht, h1, h2⟩)
        · exact Or.inl h
        · rcases List.mem_cons.1 ht with rfl | ht
          · exact absurd h1 h3
          · exact Or.inr ⟨t, ht, h1, h2⟩

theorem mem_foldl_lines (lc : Nat → Nat) (lines : List Str) (acc : List Str) (m : Str) :
    m ∈ lines.foldl (fun avoid line =>
        (Fields line).foldl (fun avoid s =>
          if s.length ≥ 3 then ToLower lc s :: avoid else avoid) avoid) acc ↔
      m ∈ acc ∨ ∃ line ∈ lines, ∃ t ∈ Fields line, 3 ≤ t.length ∧ m = ToLower lc t := by
  induction lines generalizing acc with
  | nil => simp
  | cons line lines ih =>
    rw [List.foldl_cons, ih, mem_foldl_avoid]
    constructor
    · rintro ((h | ⟨t, ht, h1, h2⟩) | ⟨l, hl, h⟩)
      · exact Or.inl h
      · exact Or.inr ⟨line, List.mem_cons_self _ _, t, ht, h1, h2⟩
      · exact Or.inr ⟨l, List.mem_cons_of_mem _ hl, h⟩
    · rintro (h | ⟨l, hl, t, ht, h1, h2⟩)
      · exact Or.inl (Or.inl h)
      · rcases List.mem_cons.1 hl with rfl | hl
        · exact Or.inl (Or.inr ⟨t, ht, h1, h2⟩)
        · exact Or.inr ⟨l, hl, t, ht, h1, h2⟩

/-- The members of the avoid set: the lower-cased fields, of at least 3 bytes, of the lines
of the avoid source. -/
theorem mem_avoidSet (lc : Nat → Nat) (avoidR : List Str) (m : Str) :
    m ∈ avoidSet lc avoidR ↔
      ∃ line ∈ avoidR, ∃ t ∈ Fields line, 3 ≤ t.length ∧ m = ToLower lc t := by
  unfold avoidSet
  rw [mem_foldl_lines]
  simp

theorem avoidSet_ne_nil (lc : Nat → Nat) (avoidR : List Str) : [] ∉ avoidSet lc avoidR := by
  intro h
  obtain ⟨line, _, t, ht, h3, he⟩ := (mem_avoidSet lc avoidR []).1 h
  have hne : t ≠ [] := (Fields_token line t ht).1
  exact ToLower_ne_nil lc t hne he.symm

theorem avoided_of_hit (lc : Nat → Nat) (avoidR : List Str) (w : Str)
    (h : matchKey lc w ∈ avoidSet lc avoidR ∨
      (matchKey lc w).dropLast ∈ avoidSet lc avoidR) :
    avoided lc (avoidSet lc avoidR) w := by
  rcases h with h | h
  · exact Or.inl h
  · refine Or.inr ⟨?_, h⟩
    by_contra hlen
    have h1 : (matchKey lc w).dropLast = [] := by
      apply List.length_eq_zero.1
      rw [List.length_dropLast]
      omega
    rw [h1] at h
    exact avoidSet_ne_nil lc avoidR h

/-- C4 (amended): a corpus word whose matching key (the word lower-cased, one leading `<` and
one trailing `>` removed), or that key without its last byte, is in the avoid set is recorded
as the word itself, in its original case, with a hyphen inserted after its first byte: this is
the token of the line at the position of the word, the observation a completed Build has
logged and stored at every order under the key of the window before the word, and the last
element of the window after the word. -/
theorem C4_avoided_word_hyphenated (lc : Nat → Nat) (c : Chain) (r avoidR : List Str)
    (line : Str) (j : Nat) (w : Str) (hl : line ∈ r) (hw : (Fields line)[j]? = some w)
    (h : matchKey lc w ∈ avoidSet lc avoidR ∨
      (matchKey lc w).dropLast ∈ avoidSet lc avoidR) :
    learn lc (avoidSet lc avoidR) w = some (w.take 1 ++ [45] ++ w.drop 1) ∧
      (learnedLine lc (avoidSet lc avoidR) line)[j]? = some (w.take 1 ++ [45] ++ w.drop 1) ∧
      ∀ c1 log, BuildLog lc c r avoidR = some (c1, log) →
        ∀ k : Nat, (k : Int) < c.maxPrefixLen →
          ((window (k + 1) ((learnedLine lc (avoidSet lc avoidR) line).take j)).String,
            w.take 1 ++ [45] ++ w.drop 1) ∈ log ∧
          (w.take 1 ++ [45] ++ w.drop 1) ∈ c1.chain.get
            (window (k + 1) ((learnedLine lc (avoidSet lc avoidR) line).take j)).String ∧
          (window (k + 1) ((learnedLine lc (avoidSet lc avoidR) line).take (j + 1))).getLast? =
            some (w.take 1 ++ [45] ++ w.drop 1) := by
  have hmem : w ∈ Fields line := List.getElem?_mem hw
  have hne : w ≠ [] := (Fields_token line w hmem).1
  have hav := avoided_of_hit lc avoidR w h
  have htok : (learnedLine lc (avoidSet lc avoidR) line)[j]? =
      some (w.take 1 ++ [45] ++ w.drop 1) := by
    rw [learnedLine_eq_map, List.getElem?_map, hw]
    simp [hav]
  refine ⟨by rw [learn_eq lc _ w hne, if_pos hav], htok, ?_⟩
  intro c1 log hb k hk
  have hr : r ≠ [] := List.ne_nil_of_mem hl
  obtain ⟨hm, hlog, hchain⟩ := BuildLog_some lc c c1 r avoidR log hb hr
  have hjlt : j < (learnedLine lc (avoidSet lc avoidR) line).length := by
    by_contra hcon
    rw [List.getElem?_eq_none (by omega)] at htok
    cases htok
  have hin : ((window (k + 1) ((learnedLine lc (avoidSet lc avoidR) line).take j)).String,
      w.take 1 ++ [45] ++ w.drop 1) ∈ log := by
    rw [hlog]
    apply corpusEvents_mem _ _ (learnedLine lc (avoidSet lc avoidR) line) _
      (List.mem_map.2 ⟨line, hl, rfl⟩)
    apply lineEvents_mem _ k _ j _ _ (by omega)
    rw [List.getElem?_append_left hjlt]
    exact htok
  refine ⟨hin, ?_, ?_⟩
  · rw [hchain, get_applyLog]
    exact List.mem_append_right _ (obsOf_mem _ _ _ hin)
  · rw [List.take_succ, htok]
    exact window_getLast k _ _

theorem C4_avoided_word_hyphenated_witness :
    str "Cat sat" ∈ [str "Cat sat"] ∧
    (Fields (str "Cat sat"))[0]? = some (str "Cat") ∧
    (matchKey caseRangesLower (str "Cat") ∈ avoidSet caseRangesLower [str "cat"] ∨
      (matchKey caseRangesLower (str "Cat")).dropLast ∈ avoidSet caseRangesLower [str "cat"]) ∧
    (learn caseRangesLower (avoidSet caseRangesLower [str "cat"]) (str "Cat") =
        some ((str "Cat").take 1 ++ [45] ++ (str "Cat").drop 1) ∧
      (learnedLine caseRangesLower (avoidSet caseRangesLower [str "cat"]) (str "Cat sat"))[0]? =
        some ((str "Cat").take 1 ++ [45] ++ (str "Cat").drop 1) ∧
      ∀ c1 log, BuildLog caseRangesLower (NewChain 1) [str "Cat sat"] [str "cat"] =
          some (c1, log) →
        ∀ k : Nat, (k : Int) < (NewChain 1).maxPrefixLen →
          ((window (k + 1) ((learnedLine caseRangesLower (avoidSet caseRangesLower [str "cat"])
              (str "Cat sat")).take 0)).String,
            (str "Cat").take 1 ++ [45] ++ (str "Cat").drop 1) ∈ log ∧
          ((str "Cat").take 1 ++ [45] ++ (str "Cat").drop 1) ∈ c1.chain.get
            (window (k + 1) ((learnedLine caseRangesLower (avoidSet caseRangesLower [str "cat"])
              (str "Cat sat")).take 0)).String ∧
          (window (k + 1) ((learnedLine caseRangesLower (avoidSet caseRangesLower [str "cat"])
              (str "Cat sat")).take (0 + 1))).getLast? =
            some ((str "Cat").take 1 ++ [45] ++ (str "Cat").drop 1)) ∧
    learnedLine caseRangesLower (avoidSet caseRangesLower [str "cat"]) (str "Cat sat") =
      [str "C-at", str "sat"] ∧
    learn caseRangesLower (avoidSet caseRangesLower [str "cat"]) (str "cats") =
      some (str "c-ats") ∧
    Build caseRangesLower (NewChain 1) [str "Cat sat"] [str "cat"] =
      some ⟨[(str "", [str "C-at"]), (str "C-at", [str "sat"]), (str "sat", [ENDLINE])], 1⟩ :=
  ⟨by decide, by decide, by decide,
    C4_avoided_word_hyphenated caseRangesLower (NewChain 1) [str "Cat sat"] [str "cat"]
      (str "Cat sat") 0 (str "Cat") (by decide) (by decide) (by decide),
    by decide, by decide, by decide⟩

/-- C4, as stated on characters, fails on words outside ASCII.  The word of the bytes
C3 A9 74 C3 A9 (e acute, t, e acute), itself the avoid word, has its matching key in the
avoid set and is recorded as C3 2D A9 74 C3 A9: the hyphen follows the first byte, inside
the first character, and not the first character.  The word 63 61 74 C3 A9 (c, a, t,
e acute) with the avoid word `cat` has its matching key without its last character in the
avoid set and is recorded unchanged, since the program removes the last byte only. -/
theorem C4_counterexample :
    Fields [195, 169, 116, 195, 169] = [[195, 169, 116, 195, 169]] ∧
    matchKey caseRangesLower [195, 169, 116, 195, 169] ∈
      avoidSet caseRangesLower [[195, 169, 116, 195, 169]] ∧
    learn caseRangesLower (avoidSet caseRangesLower [[195, 169, 116, 195, 169]])
      [195, 169, 116, 195, 169] = some [195, 45, 169, 116, 195, 169] ∧
    hyphenAfterChar [195, 169, 116, 195, 169] = [195, 169, 45, 116, 195, 169] ∧
    learn caseRangesLower (avoidSet caseRangesLower [[195, 169, 116, 195, 169]])
      [195, 169, 116, 195, 169] ≠ some (hyphenAfterChar [195, 169, 116, 195, 169]) ∧
    (BuildLog caseRangesLower (NewChain 1) [[195, 169, 116, 195, 169]]
      [[195, 169, 116, 195, 169]]).map (fun x => x.2) =
      some [([], [195, 45, 169, 116, 195, 169]), ([195, 45, 169, 116, 195, 169], ENDLINE)] ∧
    Fields [99, 97, 116, 195, 169] = [[99, 97, 116, 195, 169]] ∧
    dropLastChar (matchKey caseRangesLower [99, 97, 116, 195, 169]) = str "cat" ∧
    dropLastChar (matchKey caseRangesLower [99, 97, 116, 195, 169]) ∈
      avoidSet caseRangesLower [str "cat"] ∧
    hyphenAfterChar [99, 97, 116, 195, 169] = [99, 45, 97, 116, 195, 169] ∧
    learn caseRangesLower (avoidSet caseRangesLower [str "cat"]) [99, 97, 116, 195, 169] =
      some [99, 97, 116, 195, 169] ∧
    (BuildLog caseRangesLower (NewChain 1) [[99, 97, 116, 195, 169]] [str "cat"]).map
      (fun x => x.2) =
      some [([], [99, 97, 116, 195, 169]), ([99, 97, 116, 195, 169], ENDLINE)] := by
  decide

theorem TrimPrefix_of_not (s pre : Str) (h : ¬ pre <+: s) : TrimPrefix s pre = s := by
  unfold TrimPrefix
  rw [if_neg]
  rw [List.isPrefixOf_iff_prefix]
  exact h

theorem TrimSuffix_of_not (s suf : Str) (h : ¬ suf <:+ s) : TrimSuffix s suf = s := by
  unfold TrimSuffix
  rw [if_neg]
  rw [List.isSuffixOf_iff_suffix]
  exact h

/-- C5 (amended): every observation a completed Build has logged is the end of line marker
or a recorded token of a line; Build records every word of a line hyphenated exactly when
one of the two avoid checks on its matching key hits, and unchanged otherwise; the matching
key of an unchanged word is not in the avoid set, so an unchanged word whose lower-case form
has neither a leading `<` nor a trailing `>` is not, lower-cased, a member of the avoid
set. -/
theorem C5_recorded_tokens (lc : Nat → Nat) (c : Chain) (r avoidR : List Str) :
    (∀ c1 log, BuildLog lc c r avoidR = some (c1, log) →
      ∀ e ∈ log, e.2 = ENDLINE ∨ ∃ line ∈ r, e.2 ∈ learnedLine lc (avoidSet lc avoidR) line) ∧
    ∀ line ∈ r,
      learnedLine lc (avoidSet lc avoidR) line = (Fields line).map (fun w =>
        if avoided lc (avoidSet lc avoidR) w then w.take 1 ++ [45] ++ w.drop 1 else w) ∧
      ∀ w ∈ Fields line, ¬ avoided lc (avoidSet lc avoidR) w →
        matchKey lc w ∉ avoidSet lc avoidR ∧
        (¬ [60] <+: ToLower lc w → ¬ [62] <:+ ToLower lc w →
          ToLower lc w ∉ avoidSet lc avoidR) := by
  constructor
  · intro c1 log hb e he
    by_cases hr : r = []
    · subst hr
      simp only [BuildLog, recordLines] at hb
      injection hb with hb
      injection hb with _ h2
      rw [← h2] at he
      simp at he
    · obtain ⟨_, hlog, _⟩ := BuildLog_some lc c c1 r avoidR log hb hr
      rw [hlog] at he
      rcases mem_corpusEvents _ _ e he with h | ⟨toks, ht, h⟩
      · exact Or.inl h
      · obtain ⟨line, hl, rfl⟩ := List.mem_map.1 ht
        exact Or.inr ⟨line, hl, h⟩
  · intro line _
    refine ⟨learnedLine_eq_map lc _ line, ?_⟩
    intro w _ hnot
    have h1 : matchKey lc w ∉ avoidSet lc avoidR := fun h => hnot (Or.inl h)
    refine ⟨h1, ?_⟩
    intro hp hs
    have : matchKey lc w = ToLower lc w := by
      unfold matchKey
      rw [TrimPrefix_of_not _ _ hp, TrimSuffix_of_not _ _ hs]
    rw [← this]
    exact h1

theorem C5_recorded_tokens_witness :
    ((∀ c1 log, BuildLog caseRangesLower (NewChain 1) [str "Cat dog"] [str "cat"] =
        some (c1, log) →
      ∀ e ∈ log, e.2 = ENDLINE ∨ ∃ line ∈ [str "Cat dog"],
        e.2 ∈ learnedLine caseRangesLower (avoidSet caseRangesLower [str "cat"]) line) ∧
    ∀ line ∈ [str "Cat dog"],
      learnedLine caseRangesLower (avoidSet caseRangesLower [str "cat"]) line =
        (Fields line).map (fun w =>
          if avoided caseRangesLower (avoidSet caseRangesLower [str "cat"]) w
          then w.take 1 ++ [45] ++ w.drop 1 else w) ∧
      ∀ w ∈ Fields line,
        ¬ avoided caseRangesLower (avoidSet caseRangesLower [str "cat"]) w →
        matchKey caseRangesLower w ∉ avoidSet caseRangesLower [str "cat"] ∧
        (¬ [60] <+: ToLower caseRangesLower w → ¬ [62] <:+ ToLower caseRangesLower w →
          ToLower caseRangesLower w ∉ avoidSet caseRangesLower [str "cat"])) ∧
    learnedLine caseRangesLower (avoidSet caseRangesLower [str "cat"]) (str "Cat dog") =
      [str "C-at", str "dog"] ∧
    (BuildLog caseRangesLower (NewChain 1) [str "Cat dog"] [str "cat"]).map (fun x => x.2) =
      some [(str "", str "C-at"), (str "C-at", str "dog"), (str "dog", ENDLINE)] :=
  ⟨C5_recorded_tokens caseRangesLower (NewChain 1) [str "Cat dog"] [str "cat"], by decide,
    by decide⟩

/-- C5, as stated, fails: with the avoid word `<cat>` the corpus word `<cat>` has the
matching key `cat`, is recorded unchanged, and is, lower-cased, a member of the avoid set. -/
theorem C5_counterexample :
    Build caseRangesLower (NewChain 1) [str "<cat>"] [str "<cat>"] =
        some ⟨[(str "", [str "<cat>"]), (str "<cat>", [ENDLINE])], 1⟩ ∧
      ToLower caseRangesLower (str "<cat>") ∈ avoidSet caseRangesLower [str "<cat>"] := by
  decide

theorem runesAux_sub (fuel : Nat) (s : Str) :
    ∀ rb ∈ runesAux fuel s, ∀ b ∈ rb.2, b ∈ s := by
  induction fuel generalizing s with
  | zero => simp [runesAux]
  | succ fuel ih =>
    cases s with
    | nil => simp [runesAux]
    | cons b0 rest =>
      intro rb hrb b hb
      simp only [runesAux, List.mem_cons] at hrb
      rcases hrb with rfl | hrb
      · exact List.mem_of_mem_take hb
      · exact List.mem_of_mem_drop (ih _ rb hrb b hb)

/-- The bytes of a field are bytes of the string. -/
theorem Fields_sub (s t : Str) (ht : t ∈ Fields s) : ∀ b ∈ t, b ∈ s := by
  refine (fieldsAux_tokens (fun x => ∀ b ∈ x, b ∈ s) ?_ IsSpace (runes s) none ?_ (by simp)
    t ht).2
  · intro a b ha hb c hc
    rcases List.mem_append.1 hc with h | h
    · exact ha c h
    · exact hb c h
  · intro rb hrb
    exact ⟨(runesAux_chunk _ _ rb hrb).1, fun _ => runesAux_sub _ _ rb hrb⟩

theorem ToLower_ascii (lc : Nat → Nat) (s : Str) (h : ∀ b ∈ s, b < 128) :
    ToLower lc s = s.map (fun c => if 65 ≤ c ∧ c ≤ 90 then c + 32 else c) := by
  unfold ToLower
  rw [if_pos]
  simpa using h

theorem ToLower_ascii_idem (lc : Nat → Nat) (s : Str) (h : ∀ b ∈ s, b < 128) :
    (ToLower lc s).length = s.length ∧ ToLower lc (ToLower lc s) = ToLower lc s := by
  rw [ToLower_ascii lc s h]
  refine ⟨by simp, ?_⟩
  rw [ToLower_ascii lc]
  · rw [List.map_map]
    apply List.map_congr_left
    intro c _
    simp only [Function.comp]
    split_ifs <;> omega
  · intro b hb
    obtain ⟨c, hc, rfl⟩ := List.mem_map.1 hb
    have := h c hc
    split_ifs <;> omega

/-- C6 (amended): the avoid set Build constructs is exactly the set of the strings.ToLower
forms of the white-space separated tokens of the source whose length before lower-casing is
at least 3 bytes; no member is empty; when the source is ASCII every member is lower-case
and at least 3 bytes long; an empty source yields the empty set. -/
theorem C6_avoid_set (lc : Nat → Nat) (avoidR : List Str) :
    (∀ m, m ∈ avoidSet lc avoidR ↔
      ∃ line ∈ avoidR, ∃ t ∈ Fields line, 3 ≤ t.length ∧ m = ToLower lc t) ∧
    (∀ m ∈ avoidSet lc avoidR, m ≠ []) ∧
    ((∀ line ∈ avoidR, ∀ b ∈ line, b < 128) →
      ∀ m ∈ avoidSet lc avoidR, 3 ≤ m.length ∧ ToLower lc m = m) ∧
    avoidSet lc [] = [] := by
  refine ⟨mem_avoidSet lc avoidR, ?_, ?_, rfl⟩
  · intro m hm h
    rw [h] at hm
    exact avoidSet_ne_nil lc avoidR hm
  · intro hascii m hm
    obtain ⟨line, hl, t, ht, h3, rfl⟩ := (mem_avoidSet lc avoidR m).1 hm
    have hta : ∀ b ∈ t, b < 128 := fun b hb => hascii line hl b (Fields_sub line t ht b hb)
    have := ToLower_ascii_idem lc t hta
    exact ⟨by omega, this.2⟩

theorem C6_avoid_set_witness :
    ((∀ m, m ∈ avoidSet caseRangesLower [str "Cat on  a", str "MAT"] ↔
      ∃ line ∈ [str "Cat on  a", str "MAT"], ∃ t ∈ Fields line,
        3 ≤ t.length ∧ m = ToLower caseRangesLower t) ∧
    (∀ m ∈ avoidSet caseRangesLower [str "Cat on  a", str "MAT"], m ≠ []) ∧
    ((∀ line ∈ [str "Cat on  a", str "MAT"], ∀ b ∈ line, b < 128) →
      ∀ m ∈ avoidSet caseRangesLower [str "Cat on  a", str "MAT"],
        3 ≤ m.length ∧ ToLower caseRangesLower m = m) ∧
    avoidSet caseRangesLower [] = []) ∧
    (∀ m ∈ avoidSet caseRangesLower [str "Cat on  a", str "MAT"],
        3 ≤ m.length ∧ ToLower caseRangesLower m = m) ∧
    avoidSet caseRangesLower [str "Cat on  a", str "MAT"] = [str "mat", str "cat"] :=
  ⟨C6_avoid_set caseRangesLower [str "Cat on  a", str "MAT"],
    (C6_avoid_set caseRangesLower [str "Cat on  a", str "MAT"]).2.2.1 (by decide),
    by decide⟩

/-- C6, as stated, fails: the Kelvin sign U+212A is a token of 3 bytes, so it is kept, and
its lower-case form is the one-byte string `k`. -/
theorem C6_counterexample :
    Fields [0xE2, 0x84, 0xAA] = [[0xE2, 0x84, 0xAA]] ∧
    avoidSet caseRangesLower [[0xE2, 0x84, 0xAA]] = [str "k"] ∧
    ¬ (∀ m ∈ avoidSet caseRangesLower [[0xE2, 0x84, 0xAA]], 3 ≤ m.length) := by
  decide

theorem length_fieldsAux (f : Nat → Bool) (rs : List (Nat × Str)) (cur : Option Str) :
    (fieldsAux f rs cur).length = countFields f rs cur.isSome := by
  induction rs generalizing cur with
  | nil => cases cur <;> rfl
  | cons rb rs ih =>
    obtain ⟨r, bs⟩ := rb
    cases cur with
    | none =>
      by_cases hf : f r = true
      · simp [fieldsAux, countFields, hf, ih]
      · simp [fieldsAux, countFields, hf, ih]
    | some c =>
      by_cases hf : f r = true
      · simp [fieldsAux, countFields, hf, ih]
        omega
      · simp [fieldsAux, countFields, hf, ih]

theorem countFields_mono (f : Nat → Bool) (rs : List (Nat × Str)) :
    countFields f rs false ≤ countFields f rs true := by
  cases rs with
  | nil => simp [countFields]
  | cons rb rs =>
    by_cases hf : f rb.1 = true <;> simp [countFields, hf]

theorem countFields_le (f : Nat → Bool) (rs : List (Nat × Str)) (o : Bool) :
    countFields f rs o ≤ countFields f rs true := by
  cases o
  · exact countFields_mono f rs
  · exact Nat.le_refl _

/-- Deleting bytes that are not white space does not add a field. -/
theorem Deleted_countFields (s t : Str)
    (h : Deleted (fun b => asciiSpace b = false) s t) (o : Bool) :
    countFields asciiSpace (byteRunes t) o ≤ countFields asciiSpace (byteRunes s) o := by
  induction h generalizing o with
  | nil => exact Nat.le_refl _
  | keep b s t _ ih =>
    simp only [byteRunes, List.map_cons, countFields]
    by_cases hf : asciiSpace b = true
    · simp only [hf, if_true]
      exact Nat.add_le_add_left (ih false) _
    · simp only [hf]
      exact ih true
  | drop b s t hb _ ih =>
    simp only [byteRunes, List.map_cons, countFields, hb]
    exact Nat.le_trans (ih o) (countFields_le _ _ o)

theorem Deleted_refl (P : Nat → Prop) (s : Str) : Deleted P s s := by
  induction s with
  | nil => exact Deleted.nil
  | cons b s ih => exact Deleted.keep b s s ih

theorem Deleted_append (P : Nat → Prop) (x s t : Str) (hx : ∀ b ∈ x, P b)
    (h : Deleted P s t) : Deleted P (x ++ s) t := by
  induction x with
  | nil => exact h
  | cons b x ih =>
    exact Deleted.drop b _ _ (hx b (List.mem_cons_self _ _))
      (ih (fun c hc => hx c (List.mem_cons_of_mem _ hc)))

theorem replaceAux_Deleted (P : Nat → Prop) (old : Str) (hold : old ≠ [])
    (hP : ∀ b ∈ old, P b) (k : Nat) (s : Str) (hk : s.length ≤ k) :
    Deleted P s (replaceAux old [] 0 s) := by
  induction k generalizing s with
  | zero =>
    have : s = [] := List.length_eq_zero.1 (by omega)
    subst this
    exact Deleted.nil
  | succ k ih =>
    cases s with
    | nil => exact Deleted.nil
    | cons c cs =>
      by_cases hp : old.isPrefixOf (c :: cs) = true
      · obtain ⟨rest, hrest⟩ := List.isPrefixOf_iff_prefix.1 hp
        rw [← hrest, replaceAux_old old rest hold]
        apply Deleted_append P old rest _ hP
        apply ih
        have hl := congrArg List.length hrest
        have hpos : 0 < old.length := List.length_pos.2 hold
        simp only [List.length_append, List.length_cons] at hl hk
        omega
      · rw [replaceAux_zero, if_neg hp]
        apply Deleted.keep
        apply ih
        simp only [List.length_cons] at hk
        omega

theorem Replace_Deleted (P : Nat → Prop) (old s : Str) (hold : old ≠ [])
    (hP : ∀ b ∈ old, P b) : Deleted P s (Replace s old []) :=
  replaceAux_Deleted P old hold hP s.length s (Nat.le_refl _)

theorem byteRunes_cons (b : Nat) (s : Str) : byteRunes (b :: s) = (b, [b]) :: byteRunes s :=
  rfl

theorem countFields_cons (f : Nat → Bool) (rb : Nat × Str) (rest : List (Nat × Str))
    (o : Bool) :
    countFields f (rb :: rest) o =
      if f rb.1 then (if o then 1 else 0) + countFields f rest false
      else countFields f rest true := by
  cases o <;> rfl

theorem countFields_word (w rest : Str) (o : Bool) (hw : ∀ b ∈ w, asciiSpace b = false) :
    countFields asciiSpace (byteRunes (w ++ rest)) o =
      countFields asciiSpace (byteRunes rest) (o || !w.isEmpty) := by
  induction w generalizing o with
  | nil => simp
  | cons b w ih =>
    have hb := hw b (List.mem_cons_self _ _)
    rw [List.cons_append, byteRunes_cons, countFields_cons]
    simp only [hb, Bool.false_eq_true, if_false]
    rw [ih true (fun c hc => hw c (List.mem_cons_of_mem _ hc))]
    simp

theorem countFields_Join (words : List Str)
    (h : ∀ w ∈ words, ∀ b ∈ w, asciiSpace b = false) :
    countFields asciiSpace (byteRunes (Join words [32])) false ≤ words.length := by
  induction words with
  | nil => simp [Join, byteRunes, countFields]
  | cons a words ih =>
    have ha := h a (List.mem_cons_self _ _)
    cases words with
    | nil =>
      have := countFields_word a [] false ha
      simp only [List.append_nil] at this
      simp only [Join, this, List.length_singleton]
      cases a.isEmpty <;> simp [countFields, byteRunes]
    | cons b rest =>
      have ih2 := ih (fun w hw => h w (List.mem_cons_of_mem _ hw))
      have h32 : asciiSpace 32 = true := by decide
      simp only [Join, List.append_assoc, List.singleton_append]
      rw [countFields_word a _ false ha, byteRunes_cons, countFields_cons]
      simp only [h32, if_true]
      simp only [List.length_cons] at ih2 ⊢
      split <;> omega

theorem marker_ascii : ∀ b ∈ ENDLINE, asciiSpace b = false := by decide

theorem decodeRune_two (b0 : Nat) (rest : Str) (h1 : ¬ b0 < 0x80) (h2 : ¬ b0 < 0xC2)
    (h3 : b0 < 0xE0) :
    decodeRune (b0 :: rest) =
      match rest with
      | b1 :: _ =>
        if 0x80 ≤ b1 ∧ b1 ≤ 0xBF then ((b0 % 32) * 64 + b1 % 64, 2) else (0xFFFD, 1)
      | [] => (0xFFFD, 1) := by
  simp only [decodeRune, h1, h2, h3, if_false, if_true]
  rcases rest with _ | ⟨b1, r⟩ <;> rfl

theorem decodeRune_three (b0 : Nat) (rest : Str) (h3 : ¬ b0 < 0xE0) (h4 : b0 < 0xF0) :
    decodeRune (b0 :: rest) =
      match rest with
      | b1 :: b2 :: _ =>
        if (if b0 = 0xE0 then 0xA0 else 0x80) ≤ b1 ∧ b1 ≤ (if b0 = 0xED then 0x9F else 0xBF)
            ∧ 0x80 ≤ b2 ∧ b2 ≤ 0xBF then
          ((b0 % 16) * 4096 + (b1 % 64) * 64 + b2 % 64, 3)
        else (0xFFFD, 1)
      | _ => (0xFFFD, 1) := by
  have h1 : ¬ b0 < 0x80 := by omega
  have h2 : ¬ b0 < 0xC2 := by omega
  simp only [decodeRune, h1, h2, h3, h4, if_false, if_true]
  rcases rest with _ | ⟨b1, _ | ⟨b2, r⟩⟩ <;> rfl

theorem decodeRune_four (b0 : Nat) (rest : Str) (h4 : ¬ b0 < 0xF0) (h5 : b0 < 0xF5) :
    decodeRune (b0 :: rest) =
      match rest with
      | b1 :: b2 :: b3 :: _ =>
        if (if b0 = 0xF0 then 0x90 else 0x80) ≤ b1 ∧ b1 ≤ (if b0 = 0xF4 then 0x8F else 0xBF)
            ∧ 0x80 ≤ b2 ∧ b2 ≤ 0xBF ∧ 0x80 ≤ b3 ∧ b3 ≤ 0xBF then
          ((b0 % 8) * 262144 + (b1 % 64) * 4096 + (b2 % 64) * 64 + b3 % 64, 4)
        else (0xFFFD, 1)
      | _ => (0xFFFD, 1) := by
  have h1 : ¬ b0 < 0x80 := by omega
  have h2 : ¬ b0 < 0xC2 := by omega
  have h3 : ¬ b0 < 0xE0 := by omega
  simp only [decodeRune, h1, h2, h3, h4, h5, if_false, if_true]
  rcases rest with _ | ⟨b1, _ | ⟨b2, _ | ⟨b3, r⟩⟩⟩ <;> rfl

theorem decodeRune_one (b0 : Nat) (rest : Str) (h : b0 < 0xC2 ∨ 0xF5 ≤ b0) :
    decodeRune (b0 :: rest) = (if b0 < 0x80 then b0 else 0xFFFD, 1) := by
  unfold decodeRune
  by_cases h1 : b0 < 0x80
  · simp [h1]
  by_cases h2 : b0 < 0xC2
  · simp [h1, h2]
  have h3 : ¬ b0 < 0xE0 := by omega
  have h4 : ¬ b0 < 0xF0 := by omega
  have h5 : ¬ b0 < 0xF5 := by omega
  simp [h1, h2, h3, h4, h5]

/-- Decoding is local: what follows a string does not change the rune at its head, when it
starts with a byte that is not a continuation byte. -/
theorem decodeRune_append (s tail : Str) (hs : s ≠ []) (ht : startsClean tail) :
    decodeRune (s ++ tail) = decodeRune s := by
  cases s with
  | nil => exact absurd rfl hs
  | cons b0 s1 =>
    rw [List.cons_append]
    by_cases h : b0 < 0xC2 ∨ 0xF5 ≤ b0
    · rw [decodeRune_one b0 _ h, decodeRune_one b0 _ h]
    have hA : ¬ b0 < 0xC2 := fun h1 => h (Or.inl h1)
    have hB : b0 < 0xF5 := by
      by_contra h1
      exact h (Or.inr (by omega))
    by_cases h3 : b0 < 0xE0
    · rw [decodeRune_two b0 _ (by omega) hA h3, decodeRune_two b0 _ (by omega) hA h3]
      cases s1 with
      | cons b1 s2 => rfl
      | nil =>
        cases tail with
        | nil => rfl
        | cons c t =>
          have hc := ht c rfl
          simp only [List.nil_append]
          rw [if_neg]
          unfold notCont at hc
          omega
    by_cases h4 : b0 < 0xF0
    · rw [decodeRune_three b0 _ h3 h4, decodeRune_three b0 _ h3 h4]
      rcases s1 with _ | ⟨b1, _ | ⟨b2, s3⟩⟩
      · rcases tail with _ | ⟨c, _ | ⟨c2, t⟩⟩
        · rfl
        · rfl
        · have hc := ht c rfl
          simp only [List.nil_append]
          rw [if_neg]
          unfold notCont at hc
          rintro ⟨g1, g2, _⟩
          split at g1 <;> split at g2 <;> omega
      · rcases tail with _ | ⟨c, t⟩
        · rfl
        · have hc := ht c rfl
          simp only [List.cons_append, List.nil_append]
          rw [if_neg]
          unfold notCont at hc
          rintro ⟨_, _, g3, g4⟩
          omega
      · rfl
    · rw [decodeRune_four b0 _ h4 hB, decodeRune_four b0 _ h4 hB]
      rcases s1 with _ | ⟨b1, _ | ⟨b2, _ | ⟨b3, s4⟩⟩⟩
      · rcases tail with _ | ⟨c, _ | ⟨c2, _ | ⟨c3, t⟩⟩⟩
        · rfl
        · rfl
        · rfl
        · have hc := ht c rfl
          simp only [List.nil_append]
          rw [if_neg]
          unfold notCont at hc
          rintro ⟨g1, g2, _⟩
          split at g1 <;> split at g2 <;> omega
      · rcases tail with _ | ⟨c, _ | ⟨c2, t⟩⟩
        · rfl
        · rfl
        · have hc := ht c rfl
          simp only [List.cons_append, List.nil_append]
          rw [if_neg]
          unfold notCont at hc
          rintro ⟨_, _, g3, g4, _⟩
          omega
      · rcases tail with _ | ⟨c, t⟩
        · rfl
        · have hc := ht c rfl
          simp only [List.cons_append, List.nil_append]
          rw [if_neg]
          unfold notCont at hc
          rintro ⟨_, _, _, _, g5, g6⟩
          omega
      · rfl

theorem runesAux_nil (k : Nat) : runesAux k [] = [] := by
  cases k <;> rfl

theorem runesAux_fuel_aux (k : Nat) :
    ∀ (j : Nat) (s : Str), s.length ≤ j → j ≤ k → runesAux j s = runesAux s.length s := by
  induction k with
  | zero =>
    intro j s h hj
    have hj0 : j = 0 := by omega
    subst hj0
    have : s = [] := List.length_eq_zero.1 (by omega)
    subst this
    rfl
  | succ k ih =>
    intro j s h hj
    cases s with
    | nil => exact runesAux_nil j
    | cons b bs =>
      obtain ⟨hw1, _, _⟩ := decodeRune_cases b bs
      have hd : ((b :: bs).drop (decodeRune (b :: bs)).2).length ≤ bs.length := by
        simp only [List.length_drop, List.length_cons]
        omega
      simp only [List.length_cons] at h
      cases j with
      | zero => omega
      | succ j =>
        simp only [runesAux, List.length_cons]
        rw [ih j _ (by omega) (by omega), ih bs.length _ hd (by omega)]

/-- The bound on the number of runes is never reached: any bound from the length of the
string on gives the same runes. -/
theorem runesAux_fuel (k : Nat) (s : Str) (h : s.length ≤ k) :
    runesAux k s = runesAux s.length s :=
  runesAux_fuel_aux k k s h (Nat.le_refl _)

theorem runes_nil : runes [] = [] := rfl

theorem runes_cons (b : Nat) (bs : Str) :
    runes (b :: bs) =
      ((decodeRune (b :: bs)).1, (b :: bs).take (decodeRune (b :: bs)).2) ::
        runes ((b :: bs).drop (decodeRune (b :: bs)).2) := by
  obtain ⟨hw1, _, _⟩ := decodeRune_cases b bs
  have hd : ((b :: bs).drop (decodeRune (b :: bs)).2).length ≤ bs.length := by
    simp only [List.length_drop, List.length_cons]
    omega
  simp only [runes, List.length_cons, runesAux]
  rw [runesAux_fuel _ _ hd]

/-- The runes of a concatenation whose second part starts at a rune boundary. -/
theorem runes_append (x y : Str) (hy : startsClean y) :
    runes (x ++ y) = runes x ++ runes y := by
  suffices h : ∀ k (x : Str), x.length ≤ k → runes (x ++ y) = runes x ++ runes y from
    h x.length x (Nat.le_refl _)
  intro k
  induction k with
  | zero =>
    intro x hx
    have : x = [] := List.length_eq_zero.1 (by omega)
    subst this
    rfl
  | succ k ih =>
    intro x hx
    cases x with
    | nil => rfl
    | cons b bs =>
      obtain ⟨hw1, hw2, _⟩ := decodeRune_cases b bs
      have hdec : decodeRune (b :: (bs ++ y)) = decodeRune (b :: bs) :=
        decodeRune_append (b :: bs) y (by simp) hy
      have hlen : (decodeRune (b :: bs)).2 ≤ (b :: bs).length := by
        simpa using hw2
      rw [List.cons_append, runes_cons, runes_cons b bs, hdec, ← List.cons_append,
        List.take_append_of_le_length hlen, List.drop_append_of_le_length hlen]
      rw [ih _ (by
        simp only [List.length_drop, List.length_cons] at hx ⊢
        omega)]
      rfl

theorem bytesOf_runes (s : Str) : bytesOf (runes s) = s := by
  suffices h : ∀ k (s : Str), s.length ≤ k → bytesOf (runes s) = s from
    h s.length s (Nat.le_refl _)
  intro k
  induction k with
  | zero =>
    intro s hs
    have : s = [] := List.length_eq_zero.1 (by omega)
    subst this
    rfl
  | succ k ih =>
    intro s hs
    cases s with
    | nil => rfl
    | cons b bs =>
      obtain ⟨hw1, hw2, _⟩ := decodeRune_cases b bs
      rw [runes_cons]
      simp only [bytesOf, List.flatMap_cons]
      have := ih ((b :: bs).drop (decodeRune (b :: bs)).2) (by
        simp only [List.length_drop, List.length_cons] at hs ⊢
        omega)
      simp only [bytesOf] at this
      rw [this, List.take_append_drop]

/-- Decoding the bytes of a tail of the runes of a string gives that tail. -/
theorem runes_suffix (A B : List (Nat × Str)) (s : Str) (h : runes s = A ++ B) :
    runes (bytesOf B) = B := by
  induction A generalizing s with
  | nil =>
    rw [List.nil_append] at h
    rw [← h, bytesOf_runes]
  | cons a A ih =>
    cases s with
    | nil => simp [runes_nil] at h
    | cons b bs =>
      rw [runes_cons, List.cons_append] at h
      injection h with _ h2
      exact ih _ h2

theorem IsSpace_notCont (b : Nat) (rest : Str)
    (h : IsSpace (decodeRune (b :: rest)).1 = true) : notCont b := by
  unfold notCont
  by_contra hc
  have hb : b < 0xC2 ∨ 0xF5 ≤ b := Or.inl (by omega)
  rw [decodeRune_one b rest hb] at h
  have h1 : ¬ b < 0x80 := by omega
  simp only [h1, if_false] at h
  revert h
  decide

/-- The bytes of runes that start with a white space rune start at a rune boundary. -/
theorem startsClean_space (r : Nat) (bs : Str) (rest : List (Nat × Str))
    (hrun : runes (bytesOf ((r, bs) :: rest)) = (r, bs) :: rest)
    (hsp : IsSpace r = true) : startsClean (bytesOf ((r, bs) :: rest)) := by
  intro c hc
  cases hS : bytesOf ((r, bs) :: rest) with
  | nil => rw [hS] at hc; simp at hc
  | cons b S =>
    rw [hS] at hc hrun
    simp only [List.head?_cons, Option.some.injEq] at hc
    subst hc
    rw [runes_cons] at hrun
    injection hrun with h1 _
    injection h1 with h1 _
    rw [← h1] at hsp
    exact IsSpace_notCont b S hsp

theorem bytesOf_cons (rb : Nat × Str) (rest : List (Nat × Str)) :
    bytesOf (rb :: rest) = rb.2 ++ bytesOf rest := by
  simp [bytesOf, List.flatMap_cons]

theorem bytesOf_append (A B : List (Nat × Str)) : bytesOf (A ++ B) = bytesOf A ++ bytesOf B := by
  simp [bytesOf, List.flatMap_append]

theorem fieldsAux_spaceless (rest : List (Nat × Str)) (cur : Option Str)
    (M0 : List (Nat × Str))
    (hclos : ∀ A B, rest = A ++ B → runes (bytesOf B) = B)
    (hcur : ∀ c, cur = some c → c = bytesOf M0 ∧ (∀ rb ∈ M0, IsSpace rb.1 = false) ∧
      runes (bytesOf M0 ++ bytesOf rest) = M0 ++ rest) :
    ∀ t ∈ fieldsAux IsSpace rest cur, spaceless t := by
  induction rest generalizing cur M0 with
  | nil =>
    cases cur with
    | none => simp [fieldsAux]
    | some c =>
      intro t ht
      simp only [fieldsAux, List.mem_singleton] at ht
      subst ht
      obtain ⟨h1, h2, h3⟩ := hcur t rfl
      have : bytesOf ([] : List (Nat × Str)) = [] := rfl
      rw [this, List.append_nil, List.append_nil] at h3
      intro rb hrb
      rw [h1, h3] at hrb
      exact h2 rb hrb
  | cons rb rest ih =>
    obtain ⟨r, bs⟩ := rb
    have hclos2 : ∀ A B, rest = A ++ B → runes (bytesOf B) = B := by
      intro A B h
      exact hclos ((r, bs) :: A) B (by rw [h]; rfl)
    have hself : runes (bytesOf ((r, bs) :: rest)) = (r, bs) :: rest := hclos [] _ rfl
    by_cases hf : IsSpace r = true
    · cases cur with
      | none =>
        simp only [fieldsAux, hf, if_true]
        exact ih none [] hclos2 (by simp)
      | some c =>
        simp only [fieldsAux, hf, if_true]
        intro t ht
        rcases List.mem_cons.1 ht with rfl | ht
        · obtain ⟨h1, h2, h3⟩ := hcur t rfl
          rw [runes_append _ _ (startsClean_space r bs rest hself hf), hself] at h3
          have h4 : runes (bytesOf M0) = M0 := List.append_cancel_right h3
          intro rb hrb
          rw [h1, h4] at hrb
          exact h2 rb hrb
        · exact ih none [] hclos2 (by simp) t ht
    · have hns : IsSpace r = false := by simpa using hf
      cases cur with
      | none =>
        simp only [fieldsAux, hf]
        refine ih (some bs) [(r, bs)] hclos2 ?_
        intro c hc
        cases hc
        refine ⟨by simp [bytesOf], ?_, ?_⟩
        · intro rb hrb
          simp only [List.mem_singleton] at hrb
          subst hrb
          exact hns
        · rw [← bytesOf_append]
          exact hself
      | some c0 =>
        simp only [fieldsAux, hf]
        obtain ⟨h1, h2, h3⟩ := hcur c0 rfl
        refine ih (some (c0 ++ bs)) (M0 ++ [(r, bs)]) hclos2 ?_
        intro c hc
        cases hc
        refine ⟨by rw [h1, bytesOf_append]; simp [bytesOf], ?_, ?_⟩
        · intro rb hrb
          rcases List.mem_append.1 hrb with h | h
          · exact h2 rb h
          · simp only [List.mem_singleton] at h
            subst h
            exact hns
        · rw [← bytesOf_append, List.append_assoc, List.singleton_append]
          rw [← bytesOf_append] at h3
          exact h3

/-- No rune of a field is white space. -/
theorem Fields_spaceless (s t : Str) (ht : t ∈ Fields s) : spaceless t :=
  fieldsAux_spaceless (runes s) none [] (fun A B h => runes_suffix A B s h) (by simp) t ht

theorem runes_cont (x y : Str) (hx : ∀ b ∈ x, 0x80 ≤ b ∧ b ≤ 0xBF) :
    runes (x ++ y) = x.map (fun b => (0xFFFD, [b])) ++ runes y := by
  induction x with
  | nil => rfl
  | cons b x ih =>
    have hb := hx b (List.mem_cons_self _ _)
    have h1 : ¬ b < 0x80 := by omega
    rw [List.cons_append, runes_cons, decodeRune_one b _ (Or.inl (by omega))]
    simp only [h1, if_false, List.take_succ_cons, List.take_zero, List.drop_succ_cons,
      List.drop_zero, List.map_cons, List.cons_append]
    rw [ih (fun c hc => hx c (List.mem_cons_of_mem _ hc))]

/-- The bytes of a rune after its first byte are continuation bytes. -/
theorem decodeRune_tail (b0 : Nat) (rest : Str) :
    ∀ b ∈ rest.take ((decodeRune (b0 :: rest)).2 - 1), 0x80 ≤ b ∧ b ≤ 0xBF := by
  by_cases h : b0 < 0xC2 ∨ 0xF5 ≤ b0
  · rw [decodeRune_one b0 _ h]
    simp
  have hA : ¬ b0 < 0xC2 := fun h1 => h (Or.inl h1)
  have hB : b0 < 0xF5 := by
    by_contra h1
    exact h (Or.inr (by omega))
  by_cases h3 : b0 < 0xE0
  · rw [decodeRune_two b0 _ (by omega) hA h3]
    rcases rest with _ | ⟨b1, r⟩
    · simp
    · by_cases c : 0x80 ≤ b1 ∧ b1 ≤ 0xBF
      · simp only [if_pos c]
        simp
        exact c
      · simp only [if_neg c]
        simp
  by_cases h4 : b0 < 0xF0
  · rw [decodeRune_three b0 _ h3 h4]
    rcases rest with _ | ⟨b1, _ | ⟨b2, r⟩⟩
    · simp
    · simp
    · by_cases c : (if b0 = 0xE0 then 0xA0 else 0x80) ≤ b1 ∧
          b1 ≤ (if b0 = 0xED then 0x9F else 0xBF) ∧ 0x80 ≤ b2 ∧ b2 ≤ 0xBF
      · have hb1 : 0x80 ≤ b1 ∧ b1 ≤ 0xBF := by
          obtain ⟨g1, g2, _⟩ := c
          split at g1 <;> split at g2 <;> omega
        simp only [if_pos c]
        simp
        exact ⟨hb1, c.2.2⟩
      · simp only [if_neg c]
        simp
  · rw [decodeRune_four b0 _ h4 hB]
    rcases rest with _ | ⟨b1, _ | ⟨b2, _ | ⟨b3, r⟩⟩⟩
    · simp
    · simp
    · simp
    · by_cases c : (if b0 = 0xF0 then 0x90 else 0x80) ≤ b1 ∧
          b1 ≤ (if b0 = 0xF4 then 0x8F else 0xBF) ∧ 0x80 ≤ b2 ∧ b2 ≤ 0xBF ∧ 0x80 ≤ b3 ∧ b3 ≤ 0xBF
      · have hb1 : 0x80 ≤ b1 ∧ b1 ≤ 0xBF := by
          obtain ⟨g1, g2, _⟩ := c
          split at g1 <;> split at g2 <;> omega
        simp only [if_pos c]
        simp
        exact ⟨hb1, ⟨c.2.2.1, c.2.2.2.1⟩, c.2.2.2.2⟩
      · simp only [if_neg c]
        simp

theorem spaceless_nil : spaceless [] := by
  intro rb hrb
  simp [runes_nil] at hrb

theorem IsSpace_replacement : IsSpace 0xFFFD = false := by decide

/-- The tail of a string without white space runes has no white space rune either: the
continuation bytes left of its first rune decode to U+FFFD. -/
theorem spaceless_tail (b0 : Nat) (rest : Str) (h : spaceless (b0 :: rest)) :
    spaceless rest := by
  obtain ⟨hw1, hw2, _⟩ := decodeRune_cases b0 rest
  have hsplit : rest = rest.take ((decodeRune (b0 :: rest)).2 - 1) ++
      (b0 :: rest).drop (decodeRune (b0 :: rest)).2 := by
    have hd : (b0 :: rest).drop (decodeRune (b0 :: rest)).2 =
        rest.drop ((decodeRune (b0 :: rest)).2 - 1) := by
      obtain ⟨w, hw⟩ : ∃ w, (decodeRune (b0 :: rest)).2 = w + 1 := ⟨_, (Nat.sub_add_cancel hw1).symm⟩
      rw [hw]
      simp
    rw [hd, List.take_append_drop]
  intro rb hrb
  rw [hsplit, runes_cont _ _ (decodeRune_tail b0 rest)] at hrb
  rcases List.mem_append.1 hrb with h1 | h1
  · obtain ⟨b, _, rfl⟩ := List.mem_map.1 h1
    exact IsSpace_replacement
  · apply h rb
    rw [runes_cons]
    exact List.mem_cons_of_mem _ h1

/-- Hyphenating a word without white space runes leaves it without white space runes. -/
theorem spaceless_hyphen (s : Str) (hs : s ≠ []) (h : spaceless s) :
    spaceless (s.take 1 ++ [45] ++ s.drop 1) := by
  cases s with
  | nil => exact absurd rfl hs
  | cons b0 rest =>
    have htail := spaceless_tail b0 rest h
    have h45 : decodeRune (45 :: rest) = (45, 1) := by
      rw [decodeRune_one 45 rest (Or.inl (by omega))]
      rfl
    have hsc : startsClean (45 :: rest) := by
      intro c hc
      simp only [List.head?_cons, Option.some.injEq] at hc
      subst hc
      exact Or.inl (by omega)
    have hfirst : IsSpace (decodeRune [b0]).1 = false := by
      by_cases hb : b0 < 0x80
      · have h0 := h ((decodeRune (b0 :: rest)).1, (b0 :: rest).take (decodeRune (b0 :: rest)).2)
          (by rw [runes_cons]; exact List.mem_cons_self _ _)
        rw [decodeRune_one b0 _ (Or.inl (by omega))] at h0 ⊢
        exact h0
      · have : decodeRune ([b0] ++ []) = decodeRune [b0] := by simp
        by_cases hc : b0 < 0xC2 ∨ 0xF5 ≤ b0
        · rw [decodeRune_one b0 _ hc]
          simp only [hb, if_false]
          exact IsSpace_replacement
        · have hA : ¬ b0 < 0xC2 := fun h1 => hc (Or.inl h1)
          have hB : b0 < 0xF5 := by
            by_contra h1
            exact hc (Or.inr (by omega))
          by_cases h3 : b0 < 0xE0
          · rw [decodeRune_two b0 _ (by omega) hA h3]
            exact IsSpace_replacement
          by_cases h4 : b0 < 0xF0
          · rw [decodeRune_three b0 _ h3 h4]
            exact IsSpace_replacement
          · rw [decodeRune_four b0 _ h4 hB]
            exact IsSpace_replacement
    have hw1 : (decodeRune [b0]).2 = 1 := by
      obtain ⟨g1, g2, _⟩ := decodeRune_cases b0 []
      simp only [List.length_nil] at g2
      omega
    intro rb hrb
    have hshape : (b0 :: rest).take 1 ++ [45] ++ (b0 :: rest).drop 1 = [b0] ++ 45 :: rest := by
      simp
    rw [hshape, runes_append [b0] (45 :: rest) hsc, runes_cons b0 [], hw1, runes_cons 45 rest,
      h45] at hrb
    simp only [List.take_succ_cons, List.take_zero, List.drop_succ_cons, List.drop_zero,
      runes_nil, List.singleton_append, List.mem_cons] at hrb
    rcases hrb with rfl | rfl | hrb
    · exact hfirst
    · decide
    · exact htail rb hrb

theorem learnedLine_spaceless (lc : Nat → Nat) (avoid : List Str) (line t : Str)
    (ht : t ∈ learnedLine lc avoid line) : spaceless t := by
  rw [learnedLine_eq_map] at ht
  obtain ⟨s, hs, rfl⟩ := List.mem_map.1 ht
  have h1 := Fields_spaceless line s hs
  split
  · exact spaceless_hyphen s (Fields_token line s hs).1 h1
  · exact h1

theorem countFields_nonspace (f : Nat → Bool) (A rest : List (Nat × Str)) (o : Bool)
    (hA : ∀ rb ∈ A, f rb.1 = false) :
    countFields f (A ++ rest) o = countFields f rest (o || !A.isEmpty) := by
  induction A generalizing o with
  | nil => simp
  | cons rb A ih =>
    have hb := hA rb (List.mem_cons_self _ _)
    rw [List.cons_append, countFields_cons]
    simp only [hb, Bool.false_eq_true, if_false]
    rw [ih true (fun c hc => hA c (List.mem_cons_of_mem _ hc))]
    simp

theorem runes_space (a J : Str) :
    runes (a ++ 32 :: J) = runes a ++ (32, [32]) :: runes J := by
  have hsc : startsClean (32 :: J) := by
    intro c hc
    simp only [List.head?_cons, Option.some.injEq] at hc
    subst hc
    exact Or.inl (by omega)
  have h32 : decodeRune (32 :: J) = (32, 1) := by
    rw [decodeRune_one 32 J (Or.inl (by omega))]
    rfl
  rw [runes_append a _ hsc, runes_cons 32 J, h32]
  rfl

theorem countFields_Join_runes (words : List Str) (h : ∀ w ∈ words, spaceless w) :
    countFields IsSpace (runes (Join words [32])) false ≤ words.length := by
  induction words with
  | nil => simp [Join, runes_nil, countFields]
  | cons a words ih =>
    have ha := h a (List.mem_cons_self _ _)
    cases words with
    | nil =>
      have := countFields_nonspace IsSpace (runes a) [] false ha
      simp only [List.append_nil] at this
      simp only [Join, this, List.length_singleton]
      cases (runes a).isEmpty <;> simp [countFields]
    | cons b rest =>
      have ih2 := ih (fun w hw => h w (List.mem_cons_of_mem _ hw))
      have h32 : IsSpace 32 = true := by decide
      simp only [Join, List.append_assoc, List.singleton_append]
      rw [runes_space, countFields_nonspace IsSpace (runes a) _ false ha, countFields_cons]
      simp only [h32, if_true]
      simp only [List.length_cons] at ih2 ⊢
      split <;> omega

/-- C3 (amended): for maxOrder >= 1 and n >= 0, Build on a new chain followed by Generate(n)
returns a string that has at most n tokens when split at ASCII white space, for every
corpus and avoid source; when no word of the corpus holds the end of line marker as a
substring, it has at most n tokens in the sense of strings.Fields (Unicode white space). -/
theorem C3_generate_token_bound (lc : Nat → Nat) (maxOrder n : Int) (r avoidR : List Str)
    (rnd : Nat → Nat) (hm : 1 ≤ maxOrder) (hn : 0 ≤ n) :
    ∃ out, (Build lc (NewChain maxOrder) r avoidR).bind (fun c => Generate c n rnd) =
        some out ∧
      ((asciiFields out).length : Int) ≤ n ∧
      ((∀ line ∈ r, ∀ w ∈ Fields line, ¬ ENDLINE <:+: w) →
        ((Fields out).length : Int) ≤ n) := by
  have h0 : 0 ≤ (NewChain maxOrder).maxPrefixLen := by simp only [NewChain]; omega
  have hb := Build_eq lc (NewChain maxOrder) r avoidR h0
  obtain ⟨words, hw, hlen, hall⟩ := generateWords_spec
    ⟨applyLog (NewChain maxOrder).chain (corpusEvents (NewChain maxOrder).maxPrefixLen.toNat
      (r.map (learnedLine lc (avoidSet lc avoidR)))), (NewChain maxOrder).maxPrefixLen⟩
    n rnd h0
  have hrun : (Build lc (NewChain maxOrder) r avoidR).bind (fun c => Generate c n rnd) =
      some (Replace (Join words [32]) ENDLINE []) := by
    rw [hb, Option.some_bind, Generate_eq _ n rnd words hw]
  have hsrc : ∀ w ∈ words, w = ENDLINE ∨
      ∃ line ∈ r, w ∈ learnedLine lc (avoidSet lc avoidR) line := by
    intro w hw1
    obtain ⟨K, hK⟩ := hall w hw1
    exact built_observation lc maxOrder r avoidR _ hb K w hK
  have hn2 : (words.length : Int) ≤ n := by omega
  refine ⟨_, hrun, ?_, ?_⟩
  · have hascii : ∀ w ∈ words, ∀ b ∈ w, asciiSpace b = false := by
      intro w hw1
      rcases hsrc w hw1 with h | ⟨line, _, h⟩
      · rw [h]
        exact marker_ascii
      · exact (learnedLine_token lc _ line w h).2
    have h1 := Deleted_countFields _ _
      (Replace_Deleted (fun b => asciiSpace b = false) ENDLINE (Join words [32])
        marker_facts.1 marker_ascii) false
    have h2 := countFields_Join words hascii
    have h3 : (asciiFields (Replace (Join words [32]) ENDLINE [])).length ≤ words.length := by
      unfold asciiFields
      rw [length_fieldsAux]
      exact Nat.le_trans h1 h2
    omega
  · intro hclean
    have hword : ∀ w ∈ words, w = ENDLINE ∨ ¬ ENDLINE <:+: w := by
      intro w hw1
      rcases hsrc w hw1 with h | ⟨line, hl, h⟩
      · exact Or.inl h
      · exact Or.inr (learnedLine_clean lc _ line w (hclean line hl) h)
    rw [Replace_Join ENDLINE 32 marker_facts.1 marker_facts.2.1 words hword]
    have hsp : ∀ w ∈ words.map (fun w => if w = ENDLINE then [] else w), spaceless w := by
      intro w hw1
      obtain ⟨w0, hw0, rfl⟩ := List.mem_map.1 hw1
      by_cases he : w0 = ENDLINE
      · rw [if_pos he]
        exact spaceless_nil
      · rw [if_neg he]
        rcases hsrc w0 hw0 with h | ⟨line, _, h⟩
        · exact absurd h he
        · exact learnedLine_spaceless lc _ line w0 h
    have h2 := countFields_Join_runes _ hsp
    have h3 : (Fields (Join (words.map (fun w => if w = ENDLINE then [] else w)) [32])).length
        ≤ words.length := by
      unfold Fields
      rw [length_fieldsAux]
      simpa using h2
    omega

theorem C3_generate_token_bound_witness :
    (1 : Int) ≤ 2 ∧ (0 : Int) ≤ 3 ∧
    (∃ out, (Build caseRangesLower (NewChain 2) [str "a b c", str "a c"] []).bind
        (fun c => Generate c 3 (fun t => t + 1)) = some out ∧
      ((asciiFields out).length : Int) ≤ 3 ∧
      ((∀ line ∈ [str "a b c", str "a c"], ∀ w ∈ Fields line, ¬ ENDLINE <:+: w) →
        ((Fields out).length : Int) ≤ 3)) ∧
    (Build caseRangesLower (NewChain 2) [str "a b c", str "a c"] []).bind
        (fun c => Generate c 3 (fun t => t + 1)) = some (str "a b c") :=
  ⟨by decide, by decide,
    C3_generate_token_bound caseRangesLower 2 3 [str "a b c", str "a c"] []
      (fun t => t + 1) (by decide) (by decide),
    by decide⟩

/-- C3, as stated, fails for the tokens of strings.Fields: a corpus word that holds the
marker between the two bytes of the encoding of U+00A0 is one token, and removing the marker
from it leaves a string of two tokens, more than n = 1. -/
theorem C3_counterexample :
    Fields ([0x61, 0xC2] ++ ENDLINE ++ [0xA0, 0x62]) =
        [[0x61, 0xC2] ++ ENDLINE ++ [0xA0, 0x62]] ∧
      (Build caseRangesLower (NewChain 1) [[0x61, 0xC2] ++ ENDLINE ++ [0xA0, 0x62]] []).bind
        (fun c => Generate c 1 (fun _ => 0)) = some [0x61, 0xC2, 0xA0, 0x62] ∧
      Fields [0x61, 0xC2, 0xA0, 0x62] = [[0x61], [0x62]] ∧
      ¬ ((Fields [0x61, 0xC2, 0xA0, 0x62]).length ≤ 1) := by
  decide

/-- C9: Shift on a prefix of length k >= 1 succeeds and leaves the old prefix without its
first element followed by the word: the length stays k, the new p[i] is the old p[i+1] for
i < k-1, and the new p[k-1] is the word. -/
theorem C9_shift (p : Prefix) (w : Str) (hk : 1 ≤ p.length) :
    ∃ q, Prefix.Shift p w = some q ∧ q = p.drop 1 ++ [w] ∧ q.length = p.length ∧
      (∀ i, i < p.length - 1 → q[i]? = p[i + 1]?) ∧ q[p.length - 1]? = some w := by
  refine ⟨_, Shift_eq p w hk, rfl, ?_, ?_, ?_⟩
  · simp; omega
  · intro i hi
    rw [List.getElem?_append_left (by simp; omega)]
    simp
  · rw [List.getElem?_append_right (by simp)]
    simp

theorem C9_shift_witness :
    1 ≤ [str "a", str "b", str "c"].length ∧
    ∃ q, Prefix.Shift [str "a", str "b", str "c"] (str "d") = some q ∧
      q = [str "a", str "b", str "c"].drop 1 ++ [str "d"] ∧
      q.length = [str "a", str "b", str "c"].length ∧
      (∀ i, i < [str "a", str "b", str "c"].length - 1 →
        q[i]? = [str "a", str "b", str "c"][i + 1]?) ∧
      q[[str "a", str "b", str "c"].length - 1]? = some (str "d") :=
  ⟨by decide, C9_shift [str "a", str "b", str "c"] (str "d") (by decide)⟩

/-- C12: in a step of Generate with a non-empty candidate pool, the first draw is a member
w1 of the pool; if w1 is not the end of line marker, w1 is the word appended and shifted
into the windows and one value has been drawn; if w1 is the marker, one more value is drawn
from the same pool, and its result w2 is appended as it is, also when it is the marker
again, two values having been drawn. -/
theorem C12_two_try_resampling (chain : Table) (rnd : Nat → Nat) (k : Nat)
    (ps : List Prefix) (words : List Str) (t : Nat) (hps : ∀ p ∈ ps, 1 ≤ p.length)
    (hpool : choicesOf chain ps ≠ []) :
    ∃ w1 w2,
      (Intn rnd t (choicesOf chain ps).length).bind (getAt (choicesOf chain ps)) = some w1 ∧
      (Intn rnd (t + 1) (choicesOf chain ps).length).bind (getAt (choicesOf chain ps)) =
        some w2 ∧
      w1 ∈ choicesOf chain ps ∧ w2 ∈ choicesOf chain ps ∧
      (w1 ≠ ENDLINE →
        pick (choicesOf chain ps) rnd t = some (w1, t + 1) ∧
        genLoop chain rnd (k + 1) ps words t =
          genLoop chain rnd k (ps.map (fun p => p.drop 1 ++ [w1])) (words ++ [w1]) (t + 1)) ∧
      (w1 = ENDLINE →
        pick (choicesOf chain ps) rnd t = some (w2, t + 2) ∧
        genLoop chain rnd (k + 1) ps words t =
          genLoop chain rnd k (ps.map (fun p => p.drop 1 ++ [w2])) (words ++ [w2]) (t + 2)) := by
  obtain ⟨w1, w2, h1, h2, hp⟩ := pick_eq (choicesOf chain ps) rnd t hpool
  have hlen : ¬ (choicesOf chain ps).length = 0 := by
    intro h
    exact hpool (List.length_eq_zero.1 h)
  refine ⟨w1, w2, ?_, ?_, List.getElem?_mem h1, List.getElem?_mem h2, ?_, ?_⟩
  · rw [draw_eq _ rnd t hpool, h1]
  · rw [draw_eq _ rnd (t + 1) hpool, h2]
  · intro hw
    rw [if_neg hw] at hp
    refine ⟨hp, ?_⟩
    simp only [genLoop, if_neg hlen, hp, shiftAll_eq w1 ps hps]
  · intro hw
    rw [if_pos hw] at hp
    refine ⟨hp, ?_⟩
    simp only [genLoop, if_neg hlen, hp, shiftAll_eq w2 ps hps]

theorem C12_two_try_resampling_witness :
    (∀ p ∈ [[str ""]], 1 ≤ p.length) ∧
    choicesOf [(str "", [ENDLINE, str "a"])] [[str ""]] ≠ [] ∧
    (∃ w1 w2,
      (Intn (fun _ => 0) 0 (choicesOf [(str "", [ENDLINE, str "a"])] [[str ""]]).length).bind
        (getAt (choicesOf [(str "", [ENDLINE, str "a"])] [[str ""]])) = some w1 ∧
      (Intn (fun _ => 0) (0 + 1)
        (choicesOf [(str "", [ENDLINE, str "a"])] [[str ""]]).length).bind
        (getAt (choicesOf [(str "", [ENDLINE, str "a"])] [[str ""]])) = some w2 ∧
      w1 ∈ choicesOf [(str "", [ENDLINE, str "a"])] [[str ""]] ∧
      w2 ∈ choicesOf [(str "", [ENDLINE, str "a"])] [[str ""]] ∧
      (w1 ≠ ENDLINE →
        pick (choicesOf [(str "", [ENDLINE, str "a"])] [[str ""]]) (fun _ => 0) 0 =
          some (w1, 0 + 1) ∧
        genLoop [(str "", [ENDLINE, str "a"])] (fun _ => 0) (0 + 1) [[str ""]] [] 0 =
          genLoop [(str "", [ENDLINE, str "a"])] (fun _ => 0) 0
            ([[str ""]].map (fun p => p.drop 1 ++ [w1])) ([] ++ [w1]) (0 + 1)) ∧
      (w1 = ENDLINE →
        pick (choicesOf [(str "", [ENDLINE, str "a"])] [[str ""]]) (fun _ => 0) 0 =
          some (w2, 0 + 2) ∧
        genLoop [(str "", [ENDLINE, str "a"])] (fun _ => 0) (0 + 1) [[str ""]] [] 0 =
          genLoop [(str "", [ENDLINE, str "a"])] (fun _ => 0) 0
            ([[str ""]].map (fun p => p.drop 1 ++ [w2])) ([] ++ [w2]) (0 + 2))) ∧
    pick [ENDLINE, str "a"] (fun _ => 0) 0 = some (ENDLINE, 2) ∧
    pick [ENDLINE, str "a"] (fun t => t) 0 = some (str "a", 2) ∧
    pick [ENDLINE, str "a"] (fun _ => 1) 0 = some (str "a", 1) ∧
    genLoop [(str "", [ENDLINE, str "a"])] (fun _ => 0) 1 [[str ""]] [] 0 = some [ENDLINE] :=
  ⟨by decide, by decide,
    C12_two_try_resampling [(str "", [ENDLINE, str "a"])] (fun _ => 0) 0 [[str ""]] [] 0
      (by decide) (by decide),
    by decide, by decide, by decide, by decide⟩

/-- The loop of `Generate` only appends to the words. -/
theorem genLoop_extends (chain : Table) (rnd : Nat → Nat) (k : Nat) (ps : List Prefix)
    (words : List Str) (t : Nat) (out : List Str)
    (h : genLoop chain rnd k ps words t = some out) : words <+: out := by
  induction k generalizing ps words t with
  | zero =>
    simp only [genLoop, Option.some.injEq] at h
    subst h
    exact List.prefix_refl _
  | succ k ih =>
    simp only [genLoop] at h
    split at h
    · simp only [Option.some.injEq] at h
      subst h
      exact List.prefix_refl _
    · split at h
      · cases h
      · split at h
        · cases h
        · have := ih _ _ _ h
          exact (List.prefix_append _ _).trans this

theorem genTrace_state (chain : Table) (rnd : Nat → Nat) (m k : Nat) (words : List Str)
    (t j : Nat) (st : List Prefix × List Str × List Str)
    (h : (genTrace chain rnd k (windows m words) words t)[j]? = some st) :
    st.2.1.length = words.length + j ∧ st.1 = windows m st.2.1 ∧
      st.2.2 = choicesOf chain (windows m st.2.1) ∧
      ∀ out, genLoop chain rnd k (windows m words) words t = some out →
        st.2.1 = out.take (words.length + j) := by
  induction k generalizing words t j with
  | zero => simp [genTrace] at h
  | succ k ih =>
    cases j with
    | zero =>
      simp only [genTrace, List.getElem?_cons_zero, Option.some.injEq] at h
      subst h
      refine ⟨rfl, rfl, rfl, ?_⟩
      intro out hout
      have := genLoop_extends _ _ _ _ _ _ _ hout
      simp only [Nat.add_zero]
      exact (List.prefix_iff_eq_take.1 this)
    | succ j =>
      simp only [genTrace, List.getElem?_cons_succ] at h
      by_cases hc : (choicesOf chain (windows m words)).length = 0
      · simp [hc] at h
      · have hne : choicesOf chain (windows m words) ≠ [] := by
          intro h0
          exact hc (by rw [h0]; rfl)
        obtain ⟨next, t1, hp, _⟩ := pick_mem _ rnd t hne
        simp only [if_neg hc, hp, shiftAll_eq next _ (windows_length m words),
          windows_shift] at h
        obtain ⟨h1, h2, h3, h4⟩ := ih (words ++ [next]) t1 j h
        refine ⟨?_, h2, h3, ?_⟩
        · rw [h1]
          simp only [List.length_append, List.length_singleton]
          omega
        · intro out hout
          simp only [genLoop, if_neg hc, hp, shiftAll_eq next _ (windows_length m words),
            windows_shift] at hout
          have := h4 out hout
          rw [this]
          simp only [List.length_append, List.length_singleton]
          congr 1
          omega

/-- C13: at step j of a call of Generate, j words have been produced (they are the first j
words of the result, end of line markers included); for every order k in 1..maxPrefixLen
the order-k window is the last k elements of k empty strings followed by these words; and
the candidate pool is the concatenation, for k = 1, 2, ..., maxPrefixLen in that order, of
the observation lists stored under the keys of these windows. -/
theorem C13_generate_state (c : Chain) (n : Int) (rnd : Nat → Nat) (j : Nat)
    (ps : List Prefix) (words choices : List Str)
    (h : (generateTrace c n rnd)[j]? = some (ps, words, choices)) :
    words.length = j ∧
      ps = (List.range c.maxPrefixLen.toNat).map (fun i =>
        (List.replicate (i + 1) [] ++ words).drop words.length) ∧
      choices = (List.range c.maxPrefixLen.toNat).flatMap (fun i =>
        c.chain.get (Prefix.String ((List.replicate (i + 1) [] ++ words).drop words.length))) ∧
      ∀ out, generateWords c n rnd = some out → words = out.take j := by
  unfold generateTrace at h
  by_cases hm : 0 ≤ c.maxPrefixLen
  · rw [newPrefixes_eq _ hm] at h
    obtain ⟨h1, h2, h3, h4⟩ := genTrace_state c.chain rnd c.maxPrefixLen.toNat n.toNat [] 0 j
      (ps, words, choices) h
    simp only [List.length_nil, Nat.zero_add] at h1 h4
    refine ⟨h1, h2, ?_, ?_⟩
    · simp only at h3
      rw [h3, choicesOf_eq]
      simp only [windows, List.flatMap_map]
      rfl
    · intro out hout
      apply h4
      simpa only [generateWords, newPrefixes_eq _ hm] using hout
  · rw [newPrefixes_neg _ (by omega)] at h
    simp at h

theorem C13_generate_state_witness :
    (generateTrace ⟨[(str "", [str "a"]), (str "a", [str "b", ENDLINE])], 1⟩ 3
        (fun _ => 0))[1]? = some ([[str "a"]], [str "a"], [str "b", ENDLINE]) ∧
    ([str "a"].length = 1 ∧
      [[str "a"]] = (List.range
          (Chain.mk [(str "", [str "a"]), (str "a", [str "b", ENDLINE])] 1).maxPrefixLen.toNat).map
        (fun i => (List.replicate (i + 1) [] ++ [str "a"]).drop [str "a"].length) ∧
      [str "b", ENDLINE] = (List.range
          (Chain.mk [(str "", [str "a"]), (str "a", [str "b", ENDLINE])] 1).maxPrefixLen.toNat).flatMap
        (fun i => (Chain.mk [(str "", [str "a"]), (str "a", [str "b", ENDLINE])] 1).chain.get
          (Prefix.String ((List.replicate (i + 1) [] ++ [str "a"]).drop [str "a"].length))) ∧
      ∀ out, generateWords ⟨[(str "", [str "a"]), (str "a", [str "b", ENDLINE])], 1⟩ 3
          (fun _ => 0) = some out → [str "a"] = out.take 1) ∧
    generateTrace ⟨[(str "", [str "a"]), (str "a", [str "b", ENDLINE])], 1⟩ 3 (fun _ => 0) =
      [([[str ""]], [], [str "a"]), ([[str "a"]], [str "a"], [str "b", ENDLINE]),
        ([[str "b"]], [str "a", str "b"], [])] ∧
    generateWords ⟨[(str "", [str "a"]), (str "a", [str "b", ENDLINE])], 1⟩ 3 (fun _ => 0) =
      some [str "a", str "b"] :=
  ⟨by decide,
    C13_generate_state ⟨[(str "", [str "a"]), (str "a", [str "b", ENDLINE])], 1⟩ 3
      (fun _ => 0) 1 [[str "a"]] [str "a"] [str "b", ENDLINE] (by decide),
    by decide, by decide⟩

theorem corpusEvents_append (n : Nat) (A B : List (List Str)) :
    corpusEvents n (A ++ B) = corpusEvents n A ++ corpusEvents n B := by
  induction A with
  | nil => rfl
  | cons a A ih =>
    have h1 : corpusEvents n (a :: (A ++ B)) = lineEvents n a ++ corpusEvents n (A ++ B) := rfl
    have h2 : corpusEvents n (a :: A) = lineEvents n a ++ corpusEvents n A := rfl
    rw [List.cons_append, h1, h2, ih, List.append_assoc]

theorem Build_neg (lc : Nat → Nat) (c : Chain) (r avoidR : List Str)
    (hm : c.maxPrefixLen < 0) :
    Build lc c r avoidR = if r = [] then some c else none := by
  simp only [Build, BuildLog_neg lc c r avoidR hm]
  cases r <;> simp

/-- C14: lines are independent training sequences: for every chain, avoid source and corpora
A and B, Build on A ++ B gives the same result (the same chain, or a panic) as Build on A
followed by Build on B with the same avoid source. -/
theorem C14_build_concat (lc : Nat → Nat) (c : Chain) (A B avoidR : List Str) :
    Build lc c (A ++ B) avoidR =
      (Build lc c A avoidR).bind (fun c1 => Build lc c1 B avoidR) := by
  by_cases hm : 0 ≤ c.maxPrefixLen
  · have hB := Build_eq lc ⟨applyLog c.chain (corpusEvents c.maxPrefixLen.toNat
      (A.map (learnedLine lc (avoidSet lc avoidR)))), c.maxPrefixLen⟩ B avoidR hm
    rw [Build_eq lc c (A ++ B) avoidR hm, Build_eq lc c A avoidR hm, Option.some_bind, hB,
      List.map_append, corpusEvents_append, applyLog_append]
  · have hneg : c.maxPrefixLen < 0 := by omega
    rw [Build_neg lc c (A ++ B) avoidR hneg, Build_neg lc c A avoidR hneg]
    cases A with
    | nil =>
      simp only [List.nil_append, if_true, Option.some_bind]
      rw [Build_neg lc c B avoidR hneg]
    | cons a A => simp

/-- The token at a position of a line is, in a completed run of `Build`, logged and stored
at every order under the key of the window before it, and is the last element of the window
after it. -/
theorem recorded_token (lc : Nat → Nat) (c c1 : Chain) (r avoidR : List Str) (log : Log)
    (line : Str) (j : Nat) (tok : Str) (hl : line ∈ r)
    (htok : (learnedLine lc (avoidSet lc avoidR) line)[j]? = some tok)
    (hb : BuildLog lc c r avoidR = some (c1, log)) (k : Nat) (hk : (k : Int) < c.maxPrefixLen) :
    ((window (k + 1) ((learnedLine lc (avoidSet lc avoidR) line).take j)).String, tok) ∈ log ∧
      tok ∈ c1.chain.get
        (window (k + 1) ((learnedLine lc (avoidSet lc avoidR) line).take j)).String ∧
      (window (k + 1) ((learnedLine lc (avoidSet lc avoidR) line).take (j + 1))).getLast? =
        some tok := by
  have hr : r ≠ [] := List.ne_nil_of_mem hl
  obtain ⟨hm, hlog, hchain⟩ := BuildLog_some lc c c1 r avoidR log hb hr
  have hjlt : j < (learnedLine lc (avoidSet lc avoidR) line).length := by
    by_contra hcon
    rw [List.getElem?_eq_none (by omega)] at htok
    cases htok
  have hin : ((window (k + 1) ((learnedLine lc (avoidSet lc avoidR) line).take j)).String,
      tok) ∈ log := by
    rw [hlog]
    apply corpusEvents_mem _ _ (learnedLine lc (avoidSet lc avoidR) line) _
      (List.mem_map.2 ⟨line, hl, rfl⟩)
    apply lineEvents_mem _ k _ j _ _ (by omega)
    rw [List.getElem?_append_left hjlt]
    exact htok
  refine ⟨hin, ?_, ?_⟩
  · rw [hchain, get_applyLog]
    exact List.mem_append_right _ (obsOf_mem _ _ _ hin)
  · rw [List.take_succ, htok]
    exact window_getLast k _ _

/-- C16: a corpus word such that neither its matching key (the word lower-cased, one leading
`<` and one trailing `>` removed) nor that key without its last byte is in the avoid set is
recorded as the word itself: this is the token of the line at the position of the word, the
observation a completed Build has logged and stored at every order under the key of the
window before the word, and the last element of the window after the word. -/
theorem C16_unmatched_word_unchanged (lc : Nat → Nat) (c : Chain) (r avoidR : List Str)
    (line : Str) (j : Nat) (w : Str) (hl : line ∈ r) (hw : (Fields line)[j]? = some w)
    (h1 : matchKey lc w ∉ avoidSet lc avoidR)
    (h2 : (matchKey lc w).dropLast ∉ avoidSet lc avoidR) :
    learn lc (avoidSet lc avoidR) w = some w ∧
      (learnedLine lc (avoidSet lc avoidR) line)[j]? = some w ∧
      ∀ c1 log, BuildLog lc c r avoidR = some (c1, log) →
        ∀ k : Nat, (k : Int) < c.maxPrefixLen →
          ((window (k + 1) ((learnedLine lc (avoidSet lc avoidR) line).take j)).String, w)
            ∈ log ∧
          w ∈ c1.chain.get
            (window (k + 1) ((learnedLine lc (avoidSet lc avoidR) line).take j)).String ∧
          (window (k + 1) ((learnedLine lc (avoidSet lc avoidR) line).take (j + 1))).getLast? =
            some w := by
  have hmem : w ∈ Fields line := List.getElem?_mem hw
  have hne : w ≠ [] := (Fields_token line w hmem).1
  have hav : ¬ avoided lc (avoidSet lc avoidR) w := by
    rintro (h | ⟨_, h⟩)
    · exact h1 h
    · exact h2 h
  have htok : (learnedLine lc (avoidSet lc avoidR) line)[j]? = some w := by
    rw [learnedLine_eq_map, List.getElem?_map, hw]
    simp [hav]
  refine ⟨by rw [learn_eq lc _ w hne, if_neg hav], htok, ?_⟩
  intro c1 log hb k hk
  exact recorded_token lc c c1 r avoidR log line j w hl htok hb k hk

theorem C16_unmatched_word_unchanged_witness :
    str "x catss" ∈ [str "x catss"] ∧
    (Fields (str "x catss"))[1]? = some (str "catss") ∧
    matchKey caseRangesLower (str "catss") ∉ avoidSet caseRangesLower [str "cat"] ∧
    (matchKey caseRangesLower (str "catss")).dropLast ∉ avoidSet caseRangesLower [str "cat"] ∧
    (learn caseRangesLower (avoidSet caseRangesLower [str "cat"]) (str "catss") =
        some (str "catss") ∧
      (learnedLine caseRangesLower (avoidSet caseRangesLower [str "cat"]) (str "x catss"))[1]? =
        some (str "catss") ∧
      ∀ c1 log, BuildLog caseRangesLower (NewChain 2) [str "x catss"] [str "cat"] =
          some (c1, log) →
        ∀ k : Nat, (k : Int) < (NewChain 2).maxPrefixLen →
          ((window (k + 1) ((learnedLine caseRangesLower (avoidSet caseRangesLower [str "cat"])
              (str "x catss")).take 1)).String, str "catss") ∈ log ∧
          str "catss" ∈ c1.chain.get
            (window (k + 1) ((learnedLine caseRangesLower (avoidSet caseRangesLower [str "cat"])
              (str "x catss")).take 1)).String ∧
          (window (k + 1) ((learnedLine caseRangesLower (avoidSet caseRangesLower [str "cat"])
              (str "x catss")).take (1 + 1))).getLast? = some (str "catss")) ∧
    learn caseRangesLower (avoidSet caseRangesLower [str "cat"]) (str "<<cat>>") =
      some (str "<<cat>>") ∧
    matchKey caseRangesLower (str "<<cat>>") = str "<cat>" ∧
    learn caseRangesLower (avoidSet caseRangesLower [str "cat"]) (str "cats") =
      some (str "c-ats") ∧
    Build caseRangesLower (NewChain 1) [str "catss <<cat>>"] [str "cat"] =
      some ⟨[(str "", [str "catss"]), (str "catss", [str "<<cat>>"]),
        (str "<<cat>>", [ENDLINE])], 1⟩ :=
  ⟨by decide, by decide, by decide, by decide,
    C16_unmatched_word_unchanged caseRangesLower (NewChain 2) [str "x catss"] [str "cat"]
      (str "x catss") 1 (str "catss") (by decide) (by decide) (by decide) (by decide),
    by decide, by decide, by decide, by decide⟩

/-- C17: Build is append-only on the transitions: it completes for maxPrefixLen >= 0, and
after a completed Build the observation list under every key K starts with the list under K
before it; a key present before is present after, its old list a prefix of the new one. -/
theorem C17_build_append_only (lc : Nat → Nat) (c : Chain) (r avoidR : List Str) :
    (0 ≤ c.maxPrefixLen → ∃ c1, Build lc c r avoidR = some c1) ∧
      ∀ c1, Build lc c r avoidR = some c1 → ∀ K : Str,
        c.chain.get K <+: c1.chain.get K ∧
        (∀ v, c.chain.find K = some v → ∃ v1, c1.chain.find K = some v1 ∧ v <+: v1) ∧
        (c1.chain.find K = none → c.chain.find K = none) := by
  by_cases hm : 0 ≤ c.maxPrefixLen
  · refine ⟨fun _ => ⟨_, Build_eq lc c r avoidR hm⟩, ?_⟩
    intro c1 hb K
    rw [Build_eq lc c r avoidR hm] at hb
    injection hb with hb
    subst hb
    refine ⟨?_, ?_, ?_⟩
    · simp only [get_applyLog]
      exact List.prefix_append _ _
    · intro v hv
      simp only [find_applyLog]
      split
      · exact ⟨v, hv, List.prefix_refl _⟩
      · refine ⟨_, rfl, ?_⟩
        have : c.chain.get K = v := by simp [Table.get, hv]
        rw [this]
        exact List.prefix_append _ _
    · intro hnone
      simp only [find_applyLog] at hnone
      split at hnone
      · exact hnone
      · cases hnone
  · refine ⟨fun h => absurd h hm, ?_⟩
    intro c1 hb K
    rw [Build_neg lc c r avoidR (by omega)] at hb
    cases r with
    | nil =>
      simp only [if_true, Option.some.injEq] at hb
      subst hb
      exact ⟨List.prefix_refl _, fun v hv => ⟨v, hv, List.prefix_refl _⟩, fun h => h⟩
    | cons a b => simp at hb

theorem C17_build_append_only_witness :
    ((0 ≤ (Chain.mk [(str "a", [str "x"])] 1).maxPrefixLen →
        ∃ c1, Build caseRangesLower ⟨[(str "a", [str "x"])], 1⟩ [str "a b"] [] = some c1) ∧
      ∀ c1, Build caseRangesLower ⟨[(str "a", [str "x"])], 1⟩ [str "a b"] [] = some c1 →
        ∀ K : Str,
          (Chain.mk [(str "a", [str "x"])] 1).chain.get K <+: c1.chain.get K ∧
          (∀ v, (Chain.mk [(str "a", [str "x"])] 1).chain.find K = some v →
            ∃ v1, c1.chain.find K = some v1 ∧ v <+: v1) ∧
          (c1.chain.find K = none →
            (Chain.mk [(str "a", [str "x"])] 1).chain.find K = none)) ∧
    Build caseRangesLower ⟨[(str "a", [str "x"])], 1⟩ [str "a b"] [] =
      some ⟨[(str "a", [str "x", str "b"]), (str "", [str "a"]), (str "b", [ENDLINE])], 1⟩ :=
  ⟨C17_build_append_only caseRangesLower ⟨[(str "a", [str "x"])], 1⟩ [str "a b"] [],
    by decide⟩

theorem total_put (m : Table) (k s : Str) :
    (m.put k (m.get k ++ [s])).total = m.total + 1 := by
  induction m with
  | nil => simp [Table.put, Table.get, Table.find, Table.total]
  | cons e m ih =>
    obtain ⟨k1, v1⟩ := e
    by_cases h : k1 = k
    · subst h
      simp [Table.put, Table.get, Table.find, Table.total]
      omega
    · have hget : Table.get ((k1, v1) :: m) k = Table.get m k := by
        simp [Table.get, Table.find, h]
      rw [hget]
      simp only [Table.put, if_neg h]
      simp only [Table.total, List.map_cons, List.sum_cons] at ih ⊢
      rw [ih]
      omega

theorem keys_put (m : Table) (k : Str) (v : List Str) :
    (m.put k v).keys = if k ∈ m.keys then m.keys else m.keys ++ [k] := by
  induction m with
  | nil => simp [Table.put, Table.keys]
  | cons e m ih =>
    obtain ⟨k1, v1⟩ := e
    by_cases h : k1 = k
    · subst h
      simp [Table.put, Table.keys]
    · have hne : ¬ k = k1 := fun h1 => h h1.symm
      simp only [Table.put, if_neg h]
      simp only [Table.keys, List.map_cons, List.mem_cons, hne, false_or] at ih ⊢
      rw [ih]
      split <;> simp

theorem nodup_put (m : Table) (k : Str) (v : List Str) (h : m.keys.Nodup) :
    (m.put k v).keys.Nodup := by
  rw [keys_put]
  split
  · exact h
  · rename_i hk
    exact List.Nodup.append h (List.nodup_singleton k) (by simpa using hk)

theorem total_applyLog (log : Log) (m : Table) :
    (applyLog m log).total = m.total + log.length := by
  induction log generalizing m with
  | nil => simp [applyLog_nil]
  | cons e log ih =>
    rw [applyLog_cons, ih, total_put, List.length_cons]
    omega

theorem nodup_applyLog (log : Log) (m : Table) (h : m.keys.Nodup) :
    (applyLog m log).keys.Nodup := by
  induction log generalizing m with
  | nil => exact h
  | cons e log ih =>
    rw [applyLog_cons]
    exact ih _ (nodup_put m _ _ h)

theorem length_stepEvents (n : Nat) (pre : List Str) (t : Str) :
    (stepEvents n pre t).length = n := by
  simp [stepEvents, windows]

theorem length_wordEvents (n : Nat) (toks pre : List Str) :
    (wordEvents n pre toks).length = n * toks.length := by
  induction toks generalizing pre with
  | nil => simp [wordEvents]
  | cons t toks ih =>
    simp only [wordEvents, List.length_append, length_stepEvents, ih, List.length_cons]
    rw [Nat.mul_succ]
    omega

theorem length_corpusEvents (n : Nat) (corpus : List (List Str)) :
    (corpusEvents n corpus).length =
      n * ((corpus.map (fun toks => toks.length)).sum + corpus.length) := by
  induction corpus with
  | nil => simp [corpusEvents]
  | cons toks corpus ih =>
    simp only [corpusEvents, lineEvents, List.length_append, length_wordEvents,
      length_stepEvents, ih, List.map_cons, List.sum_cons, List.length_cons]
    simp only [Nat.mul_add, Nat.mul_one]
    omega

theorem length_learnedLine (lc : Nat → Nat) (avoid : List Str) (line : Str) :
    (learnedLine lc avoid line).length = (Fields line).length := by
  rw [learnedLine_eq_map, List.length_map]

/-- C20: for a chain created empty with maxOrder = m >= 0, after Build on a corpus of L
lines holding W words in all, the keys of the transitions are distinct and the observations,
summed over the keys, number exactly m * (W + L). -/
theorem C20_observation_count (lc : Nat → Nat) (m : Int) (hm : 0 ≤ m) (r avoidR : List Str) :
    ∃ c, Build lc (NewChain m) r avoidR = some c ∧ c.chain.keys.Nodup ∧
      (c.chain.total : Int) =
        m * (((r.map (fun line => (Fields line).length)).sum : Nat) + (r.length : Nat)) := by
  refine ⟨_, Build_eq lc (NewChain m) r avoidR hm, ?_, ?_⟩
  · exact nodup_applyLog _ _ (by simp [NewChain, Table.keys])
  · simp only [NewChain, total_applyLog, length_corpusEvents, List.map_map, List.length_map]
    have hfun : ((fun toks : List Str => toks.length) ∘ learnedLine lc (avoidSet lc avoidR)) =
        (fun line => (Fields line).length) := by
      funext line
      exact length_learnedLine lc _ line
    rw [hfun]
    have h0 : Table.total [] = 0 := rfl
    rw [h0]
    have hmn : ((m.toNat : Nat) : Int) = m := Int.toNat_of_nonneg hm
    push_cast
    rw [hmn]
    ring

theorem C20_observation_count_witness :
    (0 : Int) ≤ 2 ∧
    (∃ c, Build caseRangesLower (NewChain 2) [str "a b c", str "", str "a c"] [] = some c ∧
      c.chain.keys.Nodup ∧
      (c.chain.total : Int) =
        2 * ((([str "a b c", str "", str "a c"].map
          (fun line => (Fields line).length)).sum : Nat) +
          ([str "a b c", str "", str "a c"].length : Nat))) ∧
    ([str "a b c", str "", str "a c"].map (fun line => (Fields line).length)).sum = 5 ∧
    (Build caseRangesLower (NewChain 2) [str "a b c", str "", str "a c"] []).map
      (fun c => c.chain.total) = some 16 :=
  ⟨by decide, C20_observation_count caseRangesLower 2 (by decide)
    [str "a b c", str "", str "a c"] [], by decide, by decide⟩

theorem split_at_sep (c : Nat) (a b X Y : Str) (ha : c ∉ a) (hb : c ∉ b)
    (h : a ++ c :: X = b ++ c :: Y) : a = b ∧ X = Y := by
  induction a generalizing b with
  | nil =>
    cases b with
    | nil => simpa using h
    | cons y b =>
      simp only [List.nil_append, List.cons_append, List.cons.injEq] at h
      exact absurd (by rw [h.1]; exact List.mem_cons_self _ _) hb
  | cons x a ih =>
    cases b with
    | nil =>
      simp only [List.nil_append, List.cons_append, List.cons.injEq] at h
      exact absurd (by rw [← h.1]; exact List.mem_cons_self _ _) ha
    | cons y b =>
      simp only [List.cons_append, List.cons.injEq] at h
      obtain ⟨h1, h2⟩ := ih b (fun hc => ha (List.mem_cons_of_mem _ hc))
        (fun hc => hb (List.mem_cons_of_mem _ hc)) h.2
      exact ⟨by rw [h.1, h1], h2⟩

theorem Join_cons_cons (a b : Str) (rest : List Str) (sep : Str) :
    Join (a :: b :: rest) sep = a ++ sep ++ Join (b :: rest) sep := rfl

/-- The key of a non-empty window of strings without a space determines the window. -/
theorem Join_injective (p q : List Str) (hp : p ≠ []) (hq : q ≠ [])
    (hps : ∀ x ∈ p, spaceFree x) (hqs : ∀ x ∈ q, spaceFree x)
    (h : Join p [32] = Join q [32]) : p = q := by
  induction p generalizing q with
  | nil => exact absurd rfl hp
  | cons a p ih =>
    cases q with
    | nil => exact absurd rfl hq
    | cons b q =>
      have ha := hps a (List.mem_cons_self _ _)
      have hb := hqs b (List.mem_cons_self _ _)
      cases p with
      | nil =>
        cases q with
        | nil =>
          simp only [Join] at h
          rw [h]
        | cons b2 q =>
          rw [Join_cons_cons] at h
          simp only [Join] at h
          exfalso
          apply ha
          rw [h]
          simp
      | cons a2 p =>
        cases q with
        | nil =>
          rw [Join_cons_cons] at h
          simp only [Join] at h
          exfalso
          apply hb
          rw [← h]
          simp
        | cons b2 q =>
          rw [Join_cons_cons, Join_cons_cons, List.append_assoc, List.append_assoc,
            List.singleton_append, List.singleton_append] at h
          obtain ⟨h1, h2⟩ := split_at_sep 32 a b _ _ ha hb h
          have := ih (b2 :: q) (by simp) (by simp)
            (fun x hx => hps x (List.mem_cons_of_mem _ hx))
            (fun x hx => hqs x (List.mem_cons_of_mem _ hx)) h2
          rw [h1, this]

theorem spaceFree_window (k : Nat) (pre : List Str) (h : ∀ x ∈ pre, spaceFree x) :
    ∀ x ∈ window k pre, spaceFree x := by
  intro x hx
  rcases mem_window k pre x hx with rfl | hx
  · simp [spaceFree]
  · exact h x hx

theorem mem_wordEvents_key (n : Nat) (toks pre : List Str) (e : Str × Str)
    (h : e ∈ wordEvents n pre toks) :
    ∃ j k, k < n ∧ toks[j]? = some e.2 ∧
      e.1 = (window (k + 1) (pre ++ toks.take j)).String := by
  induction toks generalizing pre with
  | nil => simp [wordEvents] at h
  | cons t rest ih =>
    simp only [wordEvents, List.mem_append] at h
    rcases h with h | h
    · obtain ⟨h2, p, hp, hk⟩ := mem_stepEvents n pre t e h
      unfold windows at hp
      obtain ⟨k, hk1, rfl⟩ := List.mem_map.1 hp
      exact ⟨0, k, List.mem_range.1 hk1, by simp [h2], by simpa using hk⟩
    · obtain ⟨j, k, hk, hj, hkey⟩ := ih (pre ++ [t]) h
      exact ⟨j + 1, k, hk, by simpa using hj, by simpa using hkey⟩

/-- Every entry of the log of a line: its key is the key of the window of some order before
some position of the line, and its observation is the token at that position, or the end of
line marker after the last token. -/
theorem mem_lineEvents_key (n : Nat) (toks : List Str) (e : Str × Str)
    (h : e ∈ lineEvents n toks) :
    ∃ j k, k < n ∧ (toks ++ [ENDLINE])[j]? = some e.2 ∧
      e.1 = (window (k + 1) (toks.take j)).String := by
  unfold lineEvents at h
  rcases List.mem_append.1 h with h | h
  · obtain ⟨j, k, hk, hj, hkey⟩ := mem_wordEvents_key n toks [] e h
    have hjlt : j < toks.length := by
      by_contra hcon
      rw [List.getElem?_eq_none (by omega)] at hj
      cases hj
    exact ⟨j, k, hk, by rw [List.getElem?_append_left hjlt]; exact hj, by simpa using hkey⟩
  · obtain ⟨h2, p, hp, hk⟩ := mem_stepEvents n toks ENDLINE e h
    unfold windows at hp
    obtain ⟨k, hk1, rfl⟩ := List.mem_map.1 hp
    refine ⟨toks.length, k, List.mem_range.1 hk1, ?_, ?_⟩
    · rw [List.getElem?_append_right (Nat.le_refl _)]
      simp [h2]
    · rw [List.take_length]
      exact hk

theorem mem_corpusEvents_key (n : Nat) (corpus : List (List Str)) (e : Str × Str)
    (h : e ∈ corpusEvents n corpus) :
    ∃ toks ∈ corpus, ∃ j k, k < n ∧ (toks ++ [ENDLINE])[j]? = some e.2 ∧
      e.1 = (window (k + 1) (toks.take j)).String := by
  induction corpus with
  | nil => simp [corpusEvents] at h
  | cons toks rest ih =>
    simp only [corpusEvents, List.mem_append] at h
    rcases h with h | h
    · exact ⟨toks, List.mem_cons_self _ _, mem_lineEvents_key n toks e h⟩
    · obtain ⟨t, ht, hrest⟩ := ih h
      exact ⟨t, List.mem_cons_of_mem _ ht, hrest⟩

/-- The words `Generate` produces on a chain built from the empty chain are non-empty and
hold no space. -/
theorem built_word (lc : Nat → Nat) (m : Int) (r avoidR : List Str) (c : Chain)
    (hb : Build lc (NewChain m) r avoidR = some c) (K w : Str) (hw : w ∈ c.chain.get K) :
    w ≠ [] ∧ spaceFree w := by
  rcases built_observation lc m r avoidR c hb K w hw with h | ⟨line, _, h⟩
  · rw [h]
    exact ⟨marker_facts.1, marker_facts.2.1⟩
  · have := learnedLine_token lc _ line w h
    exact ⟨this.1, spaceFree_of_asciiSpace w this.2⟩

theorem spaceFree_of_cond (p : Prefix) (h : ∀ x ∈ p, x = [] ∨ 32 ∉ x) :
    ∀ x ∈ p, spaceFree x := by
  intro x hx
  rcases h x hx with rfl | h1
  · simp [spaceFree]
  · exact h1

/-- The windows of a call of `Generate` on a chain built from the empty chain: each has at
least one element, and its elements hold no space. -/
theorem generate_windows (lc : Nat → Nat) (m : Int) (r avoidR : List Str) (c : Chain)
    (n : Int) (rnd : Nat → Nat) (j : Nat) (ps : List Prefix) (words choices : List Str)
    (hb : Build lc (NewChain m) r avoidR = some c)
    (h : (generateTrace c n rnd)[j]? = some (ps, words, choices)) :
    ps = windows c.maxPrefixLen.toNat words ∧ (∀ w ∈ words, w ≠ [] ∧ spaceFree w) ∧
      ∀ p ∈ ps, 1 ≤ p.length ∧ ∀ x ∈ p, spaceFree x := by
  unfold generateTrace at h
  by_cases hm : 0 ≤ c.maxPrefixLen
  · rw [newPrefixes_eq _ hm] at h
    obtain ⟨_, h2, _, h4⟩ := genTrace_state c.chain rnd c.maxPrefixLen.toNat n.toNat [] 0 j
      (ps, words, choices) h
    simp only at h2
    obtain ⟨out, hout, _, hall⟩ := generateWords_spec c n rnd hm
    have hout2 : genLoop c.chain rnd n.toNat (windows c.maxPrefixLen.toNat []) [] 0 =
        some out := by
      simpa only [generateWords, newPrefixes_eq _ hm] using hout
    have hwords : ∀ w ∈ words, w ≠ [] ∧ spaceFree w := by
      intro w hw1
      have h5 : words = List.take (([] : List Str).length + j) out := h4 out hout2
      have hw2 : w ∈ List.take (([] : List Str).length + j) out := by
        rw [← h5]
        exact hw1
      obtain ⟨K, hK⟩ := hall w (List.mem_of_mem_take hw2)
      exact built_word lc m r avoidR c hb K w hK
    refine ⟨h2, hwords, ?_⟩
    intro p hp
    rw [h2] at hp
    refine ⟨windows_length _ _ p hp, ?_⟩
    unfold windows at hp
    obtain ⟨i, _, rfl⟩ := List.mem_map.1 hp
    exact spaceFree_window (i + 1) words (fun x hx => (hwords x hx).2)
  · rw [newPrefixes_neg _ (by omega)] at h
    simp at h

/-- C15: serialization is collision-free on windows (a Prefix is a prefix of one or more
words, markov.go:19): two windows of at least one element whose elements are empty strings
or strings without a space and that have the same key are equal, and the key of such a
window of order k holds exactly k-1 spaces, so windows of two orders never share a key.
Every key looked up in a completed Build, and every window of Generate on a chain built from
the empty chain, is such a window. -/
theorem C15_serialization_injective :
    (∀ p q : Prefix, 1 ≤ p.length → 1 ≤ q.length → (∀ x ∈ p, x = [] ∨ 32 ∉ x) →
      (∀ x ∈ q, x = [] ∨ 32 ∉ x) → p.String = q.String →
        p = q ∧ p.String.count 32 + 1 = p.length) ∧
    (∀ (lc : Nat → Nat) (c c1 : Chain) (r avoidR : List Str) (log : Log),
      BuildLog lc c r avoidR = some (c1, log) → ∀ e ∈ log,
        ∃ p : Prefix, e.1 = p.String ∧ 1 ≤ p.length ∧ ∀ x ∈ p, x = [] ∨ 32 ∉ x) ∧
    (∀ (lc : Nat → Nat) (m : Int) (r avoidR : List Str) (c : Chain) (n : Int)
      (rnd : Nat → Nat) (j : Nat) (ps : List Prefix) (words choices : List Str),
      Build lc (NewChain m) r avoidR = some c →
      (generateTrace c n rnd)[j]? = some (ps, words, choices) →
        ∀ p ∈ ps, 1 ≤ p.length ∧ ∀ x ∈ p, x = [] ∨ 32 ∉ x) := by
  refine ⟨?_, ?_, ?_⟩
  · intro p q hp hq hps hqs h
    have hpne : p ≠ [] := by
      intro h0
      rw [h0] at hp
      simp at hp
    have hqne : q ≠ [] := by
      intro h0
      rw [h0] at hq
      simp at hq
    refine ⟨Join_injective p q hpne hqne (spaceFree_of_cond p hps) (spaceFree_of_cond q hqs) h,
      ?_⟩
    unfold Prefix.String
    rw [count_Join p (spaceFree_of_cond p hps)]
    omega
  · intro lc c c1 r avoidR log hb e he
    by_cases hr : r = []
    · subst hr
      simp only [BuildLog, recordLines] at hb
      injection hb with hb
      injection hb with _ h2
      rw [← h2] at he
      simp at he
    · obtain ⟨_, hlog, _⟩ := BuildLog_some lc c c1 r avoidR log hb hr
      rw [hlog] at he
      obtain ⟨toks, ht, j, k, _, _, hkey⟩ := mem_corpusEvents_key _ _ e he
      refine ⟨window (k + 1) (toks.take j), hkey, by rw [window_length]; omega, ?_⟩
      intro x hx
      right
      apply spaceFree_window (k + 1) (toks.take j) _ x hx
      intro y hy
      exact learned_spaceFree lc (avoidSet lc avoidR) r toks ht y (List.mem_of_mem_take hy)
  · intro lc m r avoidR c n rnd j ps words choices hb h p hp
    obtain ⟨_, _, h3⟩ := generate_windows lc m r avoidR c n rnd j ps words choices hb h
    exact ⟨(h3 p hp).1, fun x hx => Or.inr ((h3 p hp).2 x hx)⟩

theorem C15_serialization_injective_witness :
    1 ≤ [str "", str "a"].length ∧ 1 ≤ [str "", str "a"].length ∧
    (∀ x ∈ [str "", str "a"], x = [] ∨ 32 ∉ x) ∧
    Prefix.String [str "", str "a"] = Prefix.String [str "", str "a"] ∧
    ([str "", str "a"] = [str "", str "a"] ∧
      (Prefix.String [str "", str "a"]).count 32 + 1 = [str "", str "a"].length) ∧
    Prefix.String [str "", str "a"] = str " a" ∧
    Prefix.String [str "a"] = str "a" ∧
    Prefix.String [str "a b"] = Prefix.String [str "a", str "b"] ∧
    Prefix.String [] = Prefix.String [str ""] :=
  ⟨by decide, by decide, by decide, rfl,
    C15_serialization_injective.1 [str "", str "a"] [str "", str "a"] (by decide) (by decide)
      (by decide) (by decide) rfl,
    by decide, by decide, by decide, by decide⟩

theorem hyphen_ne_marker (w : Str) : w.take 1 ++ [45] ++ w.drop 1 ≠ ENDLINE := by
  intro h
  have : 45 ∈ ENDLINE := by
    rw [← h]
    simp
  exact marker_facts.2.2 this

/-- A recorded token is the end of line marker exactly when the word is the marker and none
of the avoid checks hits. -/
theorem learned_marker (lc : Nat → Nat) (avoid : List Str) (line : Str) (j : Nat) (w : Str)
    (hw : (Fields line)[j]? = some w) :
    (learnedLine lc avoid line)[j]? = some ENDLINE ↔ w = ENDLINE ∧ ¬ avoided lc avoid w := by
  rw [learnedLine_eq_map, List.getElem?_map, hw]
  simp only [Option.map_some', Option.some.injEq]
  by_cases hav : avoided lc avoid w
  · rw [if_pos hav]
    constructor
    · intro h
      exact absurd h (hyphen_ne_marker w)
    · intro h
      exact absurd hav h.2
  · rw [if_neg hav]
    constructor
    · intro h
      exact ⟨h, hav⟩
    · intro h
      exact h.1

theorem learnedLine_no_marker (lc : Nat → Nat) (avoid : List Str) (line : Str)
    (h : ∀ w ∈ Fields line, w ≠ ENDLINE) : ENDLINE ∉ learnedLine lc avoid line := by
  intro hin
  obtain ⟨j, hj⟩ := List.getElem?_of_mem hin
  have hjlt : j < (Fields line).length := by
    rw [← length_learnedLine lc avoid line]
    by_contra hcon
    rw [List.getElem?_eq_none (by omega)] at hj
    cases hj
  have hw : (Fields line)[j]? = some (Fields line)[j] := List.getElem?_eq_getElem hjlt
  have := (learned_marker lc avoid line j _ hw).1 hj
  exact h _ (List.getElem_mem _) this.1

theorem filter_marker_stepEvents (n : Nat) (pre : List Str) :
    (stepEvents n pre ENDLINE).filter (fun e => decide (e.2 = ENDLINE)) =
      stepEvents n pre ENDLINE := by
  apply List.filter_eq_self.2
  intro e he
  simp [(mem_stepEvents n pre ENDLINE e he).1]

theorem filter_marker_wordEvents (n : Nat) (toks pre : List Str) (h : ENDLINE ∉ toks) :
    (wordEvents n pre toks).filter (fun e => decide (e.2 = ENDLINE)) = [] := by
  apply List.filter_eq_nil_iff.2
  intro e he
  have := mem_wordEvents n toks pre e he
  simp only [decide_eq_true_eq]
  intro h2
  exact h (h2 ▸ this)

theorem count_marker_corpusEvents (n : Nat) (corpus : List (List Str))
    (h : ∀ toks ∈ corpus, ENDLINE ∉ toks) :
    ((corpusEvents n corpus).filter (fun e => decide (e.2 = ENDLINE))).length =
      n * corpus.length := by
  induction corpus with
  | nil => simp [corpusEvents]
  | cons toks corpus ih =>
    simp only [corpusEvents, lineEvents, List.filter_append, List.length_append,
      filter_marker_wordEvents n toks [] (h toks (List.mem_cons_self _ _)),
      filter_marker_stepEvents, length_stepEvents, List.length_nil, List.length_cons,
      ih (fun t ht => h t (List.mem_cons_of_mem _ ht))]
    rw [Nat.mul_succ]
    omega

/-- C11 (amended): the token Build records for a corpus word equals the end of line marker
exactly when the word itself is the marker and is not hyphenated; so when no word of the
corpus is the marker, no recorded token is the marker, and in a completed Build every log
entry whose observation is the marker was logged at the end of a line, under the key of a
window over the whole line, these entries being maxPrefixLen per line. -/
theorem C11_marker_entries (lc : Nat → Nat) (c : Chain) (r avoidR : List Str) :
    (∀ line ∈ r, ∀ (j : Nat) (w : Str), (Fields line)[j]? = some w →
      ((learnedLine lc (avoidSet lc avoidR) line)[j]? = some ENDLINE ↔
        w = ENDLINE ∧ ¬ avoided lc (avoidSet lc avoidR) w)) ∧
    ((∀ line ∈ r, ∀ w ∈ Fields line, w ≠ ENDLINE) →
      (∀ line ∈ r, ENDLINE ∉ learnedLine lc (avoidSet lc avoidR) line) ∧
      ∀ c1 log, BuildLog lc c r avoidR = some (c1, log) →
        (∀ e ∈ log, e.2 = ENDLINE → ∃ line ∈ r, ∃ k : Nat, (k : Int) < c.maxPrefixLen ∧
          e.1 = (window (k + 1) (learnedLine lc (avoidSet lc avoidR) line)).String) ∧
        (log.filter (fun e => decide (e.2 = ENDLINE))).length =
          c.maxPrefixLen.toNat * r.length) := by
  refine ⟨fun line _ j w hw => learned_marker lc _ line j w hw, ?_⟩
  intro hclean
  have hno : ∀ line ∈ r, ENDLINE ∉ learnedLine lc (avoidSet lc avoidR) line :=
    fun line hl => learnedLine_no_marker lc _ line (hclean line hl)
  refine ⟨hno, ?_⟩
  intro c1 log hb
  by_cases hr : r = []
  · subst hr
    simp only [BuildLog, recordLines] at hb
    injection hb with hb
    injection hb with _ h2
    rw [← h2]
    simp
  · obtain ⟨hm, hlog, _⟩ := BuildLog_some lc c c1 r avoidR log hb hr
    constructor
    · intro e he hE
      rw [hlog] at he
      obtain ⟨toks, ht, j, k, hk, hj, hkey⟩ := mem_corpusEvents_key _ _ e he
      obtain ⟨line, hl, rfl⟩ := List.mem_map.1 ht
      refine ⟨line, hl, k, by omega, ?_⟩
      have hjeq : j = (learnedLine lc (avoidSet lc avoidR) line).length := by
        by_contra hne
        have hjlt : j < (learnedLine lc (avoidSet lc avoidR) line).length := by
          have hlt2 : j < (learnedLine lc (avoidSet lc avoidR) line ++ [ENDLINE]).length := by
            by_contra hcon
            rw [List.getElem?_eq_none (by omega)] at hj
            cases hj
          simp only [List.length_append, List.length_singleton] at hlt2
          omega
        rw [List.getElem?_append_left hjlt, hE] at hj
        exact hno line hl (List.getElem?_mem hj)
      rw [hkey, hjeq, List.take_length]
    · rw [hlog, count_marker_corpusEvents, List.length_map]
      intro toks ht
      obtain ⟨line, hl, rfl⟩ := List.mem_map.1 ht
      exact hno line hl

theorem C11_marker_entries_witness :
    ((∀ line ∈ [str "a b", str "c"], ∀ (j : Nat) (w : Str), (Fields line)[j]? = some w →
      ((learnedLine caseRangesLower (avoidSet caseRangesLower []) line)[j]? = some ENDLINE ↔
        w = ENDLINE ∧ ¬ avoided caseRangesLower (avoidSet caseRangesLower []) w)) ∧
    ((∀ line ∈ [str "a b", str "c"], ∀ w ∈ Fields line, w ≠ ENDLINE) →
      (∀ line ∈ [str "a b", str "c"],
        ENDLINE ∉ learnedLine caseRangesLower (avoidSet caseRangesLower []) line) ∧
      ∀ c1 log, BuildLog caseRangesLower (NewChain 2) [str "a b", str "c"] [] =
          some (c1, log) →
        (∀ e ∈ log, e.2 = ENDLINE → ∃ line ∈ [str "a b", str "c"], ∃ k : Nat,
          (k : Int) < (NewChain 2).maxPrefixLen ∧
          e.1 = (window (k + 1)
            (learnedLine caseRangesLower (avoidSet caseRangesLower []) line)).String) ∧
        (log.filter (fun e => decide (e.2 = ENDLINE))).length =
          (NewChain 2).maxPrefixLen.toNat * [str "a b", str "c"].length)) ∧
    ((∀ line ∈ [str "a b", str "c"],
        ENDLINE ∉ learnedLine caseRangesLower (avoidSet caseRangesLower []) line) ∧
      ∀ c1 log, BuildLog caseRangesLower (NewChain 2) [str "a b", str "c"] [] =
          some (c1, log) →
        (∀ e ∈ log, e.2 = ENDLINE → ∃ line ∈ [str "a b", str "c"], ∃ k : Nat,
          (k : Int) < (NewChain 2).maxPrefixLen ∧
          e.1 = (window (k + 1)
            (learnedLine caseRangesLower (avoidSet caseRangesLower []) line)).String) ∧
        (log.filter (fun e => decide (e.2 = ENDLINE))).length =
          (NewChain 2).maxPrefixLen.toNat * [str "a b", str "c"].length) ∧
    learn caseRangesLower (avoidSet caseRangesLower [ENDLINE]) ENDLINE =
      some (str "_-___ENDLINE") :=
  ⟨C11_marker_entries caseRangesLower (NewChain 2) [str "a b", str "c"] [],
    (C11_marker_entries caseRangesLower (NewChain 2) [str "a b", str "c"] []).2 (by decide),
    by decide⟩

/-- C11, as stated, fails: the corpus word `____ENDLINE` is recorded unchanged, so the word
loop itself logs the marker as the observation of a word. -/
theorem C11_counterexample :
    Fields ENDLINE = [ENDLINE] ∧
    learn caseRangesLower (avoidSet caseRangesLower []) ENDLINE = some ENDLINE ∧
    (recordWords caseRangesLower (avoidSet caseRangesLower []) (Fields ENDLINE) [[[]]] [] []).map
      (fun x => x.2.2) = some [([], ENDLINE)] ∧
    (BuildLog caseRangesLower (NewChain 1) [ENDLINE] []).map (fun x => x.2) =
      some [([], ENDLINE), (ENDLINE, ENDLINE)] := by
  decide

theorem window_nil_getLast (k : Nat) : (window (k + 1) []).getLast? = some [] := by
  rw [window_nil, List.replicate_succ']
  simp

/-- A word of the loop of `Generate` beyond the words it started with was drawn from the
pool of the windows over the words before it. -/
theorem genLoop_drawn (chain : Table) (rnd : Nat → Nat) (m k : Nat) (words : List Str)
    (t : Nat) (out : List Str)
    (h : genLoop chain rnd k (windows m words) words t = some out) (i : Nat) (v : Str)
    (hi : words.length ≤ i) (hv : out[i]? = some v) :
    v ∈ choicesOf chain (windows m (out.take i)) := by
  induction k generalizing words t with
  | zero =>
    simp only [genLoop, Option.some.injEq] at h
    subst h
    rw [List.getElem?_eq_none hi] at hv
    cases hv
  | succ k ih =>
    by_cases hc : (choicesOf chain (windows m words)).length = 0
    · simp only [genLoop, if_pos hc, Option.some.injEq] at h
      subst h
      rw [List.getElem?_eq_none hi] at hv
      cases hv
    · have hne : choicesOf chain (windows m words) ≠ [] := by
        intro h0
        exact hc (by rw [h0]; rfl)
      obtain ⟨next, t1, hp, hmem⟩ := pick_mem _ rnd t hne
      simp only [genLoop, if_neg hc, hp, shiftAll_eq next _ (windows_length m words),
        windows_shift] at h
      by_cases hlt : words.length < i
      · exact ih (words ++ [next]) t1 h (by simp; omega)
      · have hieq : i = words.length := by omega
        obtain ⟨rest, hrest⟩ := genLoop_extends _ _ _ _ _ _ _ h
        have hout : out = words ++ (next :: rest) := by
          rw [← hrest]
          simp
        rw [hout, hieq, List.take_left]
        rw [hout, hieq, List.getElem?_append_right (Nat.le_refl _)] at hv
        simp only [Nat.sub_self, List.getElem?_cons_zero, Option.some.injEq] at hv
        rw [← hv]
        exact hmem

/-- Where a candidate of the pool comes from, on a chain built from the empty chain: it is
the token at some position of a line of the corpus, or the end of line marker after its last
token; the position is the first one when no word has been produced, and otherwise the token
before it is the last word produced. -/
theorem pool_source (lc : Nat → Nat) (m : Int) (r avoidR : List Str) (c : Chain)
    (hb : Build lc (NewChain m) r avoidR = some c) (words : List Str)
    (hwords : ∀ w ∈ words, w ≠ [] ∧ spaceFree w) (v : Str)
    (hv : v ∈ choicesOf c.chain (windows c.maxPrefixLen.toNat words)) :
    ∃ line ∈ r, ∃ j,
      (learnedLine lc (avoidSet lc avoidR) line ++ [ENDLINE])[j]? = some v ∧
      (words = [] → j = 0) ∧
      (∀ ws u, words = ws ++ [u] →
        ∃ j1, j = j1 + 1 ∧ (learnedLine lc (avoidSet lc avoidR) line)[j1]? = some u) := by
  rw [choicesOf_eq] at hv
  obtain ⟨p, hp, hvp⟩ := List.mem_flatMap.1 hv
  unfold windows at hp
  obtain ⟨i, _, rfl⟩ := List.mem_map.1 hp
  by_cases hm : 0 ≤ m
  · have hb2 := hb
    rw [Build_eq lc (NewChain m) r avoidR hm] at hb2
    injection hb2 with hb2
    subst hb2
    simp only [NewChain, get_applyLog] at hvp
    have hvp2 : v ∈ obsOf (window (i + 1) words).String (corpusEvents m.toNat
        (r.map (learnedLine lc (avoidSet lc avoidR)))) := by
      simpa [Table.get, Table.find] using hvp
    obtain ⟨toks, ht, j, k, _, hj, hkey⟩ :=
      mem_corpusEvents_key _ _ _ (mem_obsOf _ v _ hvp2)
    obtain ⟨line, hl, rfl⟩ := List.mem_map.1 ht
    simp only at hj hkey
    have htoks : ∀ x ∈ learnedLine lc (avoidSet lc avoidR) line, x ≠ [] ∧ spaceFree x := by
      intro x hx
      have := learnedLine_token lc _ line x hx
      exact ⟨this.1, spaceFree_of_asciiSpace x this.2⟩
    have hwin : window (i + 1) words =
        window (k + 1) ((learnedLine lc (avoidSet lc avoidR) line).take j) := by
      apply Join_injective
      · intro h0
        have := congrArg List.length h0
        rw [window_length] at this
        simp at this
      · intro h0
        have := congrArg List.length h0
        rw [window_length] at this
        simp at this
      · exact spaceFree_window _ _ (fun x hx => (hwords x hx).2)
      · exact spaceFree_window _ _ (fun x hx => (htoks x (List.mem_of_mem_take hx)).2)
      · exact hkey
    have hjle : j ≤ (learnedLine lc (avoidSet lc avoidR) line).length := by
      have hlt2 : j < (learnedLine lc (avoidSet lc avoidR) line ++ [ENDLINE]).length := by
        by_contra hcon
        rw [List.getElem?_eq_none (by omega)] at hj
        cases hj
      simp only [List.length_append, List.length_singleton] at hlt2
      omega
    have hlast : ∀ j1, j = j1 + 1 →
        ∃ u, (learnedLine lc (avoidSet lc avoidR) line)[j1]? = some u ∧
          (window (k + 1) ((learnedLine lc (avoidSet lc avoidR) line).take j)).getLast? =
            some u := by
      intro j1 hj1
      have hlt : j1 < (learnedLine lc (avoidSet lc avoidR) line).length := by omega
      refine ⟨_, List.getElem?_eq_getElem hlt, ?_⟩
      rw [hj1, List.take_succ, List.getElem?_eq_getElem hlt]
      exact window_getLast k _ _
    refine ⟨line, hl, j, hj, ?_, ?_⟩
    · intro hw0
      cases j with
      | zero => rfl
      | succ j1 =>
        obtain ⟨u, hu1, hu2⟩ := hlast j1 rfl
        rw [← hwin, hw0, window_nil_getLast] at hu2
        injection hu2 with hu2
        exact absurd hu2.symm (htoks u (List.getElem?_mem hu1)).1
    · intro ws u hws
      cases j with
      | zero =>
        have h1 : (window (i + 1) words).getLast? = some u := by
          rw [hws]
          exact window_getLast i ws u
        rw [hwin, List.take_zero, window_nil_getLast] at h1
        injection h1 with h1
        have hu : u ∈ words := by
          rw [hws]
          simp
        exact absurd h1.symm (hwords u hu).1
      | succ j1 =>
        obtain ⟨u1, hu1, hu2⟩ := hlast j1 rfl
        have h1 : (window (i + 1) words).getLast? = some u := by
          rw [hws]
          exact window_getLast i ws u
        rw [hwin, hu2] at h1
        injection h1 with h1
        exact ⟨j1, rfl, by rw [← h1]; exact hu1⟩
  · exfalso
    have hneg : (NewChain m).maxPrefixLen < 0 := by simp only [NewChain]; omega
    rw [Build_neg lc (NewChain m) r avoidR hneg] at hb
    cases r with
    | nil =>
      simp only [if_true, Option.some.injEq] at hb
      subst hb
      simp [NewChain, Table.get, Table.find] at hvp
    | cons a b => simp at hb

/-- The words of a call of `Generate` on a chain built from the empty chain: the call
returns, every word is non-empty and holds no space, and every word was drawn from the pool
of the windows over the words before it. -/
theorem generated_words (lc : Nat → Nat) (m : Int) (hm : 0 ≤ m) (r avoidR : List Str)
    (n : Int) (rnd : Nat → Nat) :
    ∃ c words, Build lc (NewChain m) r avoidR = some c ∧ c.maxPrefixLen = m ∧
      generateWords c n rnd = some words ∧
      (∀ w ∈ words, w ≠ [] ∧ spaceFree w) ∧
      ∀ i v, words[i]? = some v →
        v ∈ choicesOf c.chain (windows c.maxPrefixLen.toNat (words.take i)) := by
  have hb := Build_eq lc (NewChain m) r avoidR hm
  obtain ⟨words, hw, _, hall⟩ := generateWords_spec
    ⟨applyLog (NewChain m).chain (corpusEvents (NewChain m).maxPrefixLen.toNat
      (r.map (learnedLine lc (avoidSet lc avoidR)))), (NewChain m).maxPrefixLen⟩ n rnd hm
  refine ⟨_, words, hb, rfl, hw, ?_, ?_⟩
  · intro w hw1
    obtain ⟨K, hK⟩ := hall w hw1
    exact built_word lc m r avoidR _ hb K w hK
  · intro i v hv
    have hw2 := hw
    have hm2 : 0 ≤ (NewChain m).maxPrefixLen := hm
    simp only [generateWords, newPrefixes_eq _ hm2] at hw2
    exact genLoop_drawn _ rnd _ _ [] 0 words hw2 i v (by simp) hv

/-- C18: for a chain built by Build from the empty chain with maxOrder >= 1 on a corpus none
of whose words is the literal end of line marker: Generate returns; at a step whose last
produced word is the marker the candidate pool is empty, so the loop stops there; the marker
occurs among the produced words only as the last one, hence at most once. -/
theorem C18_marker_stops_generation (lc : Nat → Nat) (maxOrder : Int) (hm : 1 ≤ maxOrder)
    (r avoidR : List Str) (n : Int) (rnd : Nat → Nat)
    (hclean : ∀ line ∈ r, ∀ w ∈ Fields line, w ≠ ENDLINE) :
    ∃ c words, Build lc (NewChain maxOrder) r avoidR = some c ∧
      generateWords c n rnd = some words ∧
      (∀ (j : Nat) (ps : List Prefix) (ws choices : List Str),
        (generateTrace c n rnd)[j]? = some (ps, ws, choices) →
        ws.getLast? = some ENDLINE → choices = []) ∧
      (∀ i : Nat, words[i]? = some ENDLINE → i + 1 = words.length) ∧
      (∀ i1 i2 : Nat, words[i1]? = some ENDLINE → words[i2]? = some ENDLINE → i1 = i2) := by
  obtain ⟨c, words, hb, hcm, hw, hwords, hdrawn⟩ :=
    generated_words lc maxOrder (by omega) r avoidR n rnd
  have hno : ∀ line ∈ r, ENDLINE ∉ learnedLine lc (avoidSet lc avoidR) line :=
    fun line hl => learnedLine_no_marker lc _ line (hclean line hl)
  have hpool : ∀ pre : List Str, (∀ w ∈ pre, w ≠ [] ∧ spaceFree w) →
      choicesOf c.chain (windows c.maxPrefixLen.toNat (pre ++ [ENDLINE])) = [] := by
    intro pre hpre
    apply List.eq_nil_iff_forall_not_mem.2
    intro v hv
    have hall : ∀ w ∈ pre ++ [ENDLINE], w ≠ [] ∧ spaceFree w := by
      intro w hw1
      rcases List.mem_append.1 hw1 with h | h
      · exact hpre w h
      · simp only [List.mem_singleton] at h
        rw [h]
        exact ⟨marker_facts.1, marker_facts.2.1⟩
    obtain ⟨line, hl, j, _, _, h3⟩ := pool_source lc maxOrder r avoidR c hb _ hall v hv
    obtain ⟨j1, _, hj1⟩ := h3 pre ENDLINE rfl
    exact hno line hl (List.getElem?_mem hj1)
  have hlast : ∀ i, words[i]? = some ENDLINE → i + 1 = words.length := by
    intro i hi
    have hilt : i < words.length := by
      by_contra hcon
      rw [List.getElem?_eq_none (by omega)] at hi
      cases hi
    by_contra hne
    have hlt : i + 1 < words.length := by omega
    have hv := hdrawn (i + 1) _ (List.getElem?_eq_getElem hlt)
    rw [List.take_succ, hi] at hv
    simp only [Option.toList_some] at hv
    rw [hpool (words.take i) (fun w hw1 => hwords w (List.mem_of_mem_take hw1))] at hv
    simp at hv
  refine ⟨c, words, hb, hw, ?_, hlast, ?_⟩
  · intro j ps ws choices htr hws
    obtain ⟨h1, h2, _⟩ := generate_windows lc maxOrder r avoidR c n rnd j ps ws choices hb htr
    have hch : choices = choicesOf c.chain (windows c.maxPrefixLen.toNat ws) := by
      unfold generateTrace at htr
      rw [newPrefixes_eq _ (by rw [hcm]; omega)] at htr
      exact (genTrace_state c.chain rnd c.maxPrefixLen.toNat n.toNat [] 0 j
        (ps, ws, choices) htr).2.2.1
    obtain ⟨pre, hpre⟩ : ∃ pre, ws = pre ++ [ENDLINE] := by
      rcases List.eq_nil_or_concat ws with h0 | ⟨pre, b, h0⟩
      · rw [h0] at hws
        simp at hws
      · rw [h0, List.concat_eq_append, List.getLast?_concat] at hws
        injection hws with hws
        exact ⟨pre, by rw [h0, List.concat_eq_append, hws]⟩
    rw [hch, hpre]
    apply hpool
    intro w hw1
    exact h2 w (by rw [hpre]; exact List.mem_append_left _ hw1)
  · intro i1 i2 h1 h2
    have := hlast i1 h1
    have := hlast i2 h2
    omega

theorem C18_marker_stops_generation_witness :
    (1 : Int) ≤ 1 ∧
    (∀ line ∈ [str "a b"], ∀ w ∈ Fields line, w ≠ ENDLINE) ∧
    (∃ c words, Build caseRangesLower (NewChain 1) [str "a b"] [] = some c ∧
      generateWords c 5 (fun _ => 0) = some words ∧
      (∀ (j : Nat) (ps : List Prefix) (ws choices : List Str),
        (generateTrace c 5 (fun _ => 0))[j]? = some (ps, ws, choices) →
        ws.getLast? = some ENDLINE → choices = []) ∧
      (∀ i : Nat, words[i]? = some ENDLINE → i + 1 = words.length) ∧
      (∀ i1 i2 : Nat, words[i1]? = some ENDLINE → words[i2]? = some ENDLINE → i1 = i2)) ∧
    (Build caseRangesLower (NewChain 1) [str "a b"] []).bind
      (fun c => generateWords c 5 (fun _ => 0)) = some [str "a", str "b", ENDLINE] ∧
    (Build caseRangesLower (NewChain 1) [str "a b"] []).map
      (fun c => (generateTrace c 5 (fun _ => 0)).map (fun st => st.2)) =
      some [([], [str "a"]), ([str "a"], [str "b"]), ([str "a", str "b"], [ENDLINE]),
        ([str "a", str "b", ENDLINE], [])] :=
  ⟨by decide, by decide,
    C18_marker_stops_generation caseRangesLower 1 (by decide) [str "a b"] [] 5 (fun _ => 0)
      (by decide),
    by decide, by decide⟩

/-- C19: for a chain built by Build from the empty chain with maxOrder >= 1, Generate
returns; the first word it produces is the first learned token of some corpus line, or the
end of line marker of a line without words; and of every two consecutive produced words u,
v, v is the learned token that follows u in some line, or the end of line marker of a line
whose last learned token is u. -/
theorem C19_generated_adjacent (lc : Nat → Nat) (maxOrder : Int) (hm : 1 ≤ maxOrder)
    (r avoidR : List Str) (n : Int) (rnd : Nat → Nat) :
    ∃ c words, Build lc (NewChain maxOrder) r avoidR = some c ∧
      generateWords c n rnd = some words ∧
      (∀ w, words[0]? = some w → ∃ line ∈ r,
        (learnedLine lc (avoidSet lc avoidR) line ++ [ENDLINE])[0]? = some w) ∧
      (∀ (i : Nat) (u v : Str), words[i]? = some u → words[i + 1]? = some v → ∃ line ∈ r, ∃ j,
        (learnedLine lc (avoidSet lc avoidR) line)[j]? = some u ∧
        (learnedLine lc (avoidSet lc avoidR) line ++ [ENDLINE])[j + 1]? = some v) := by
  obtain ⟨c, words, hb, _, hw, hwords, hdrawn⟩ :=
    generated_words lc maxOrder (by omega) r avoidR n rnd
  refine ⟨c, words, hb, hw, ?_, ?_⟩
  · intro w h0
    have hv := hdrawn 0 w h0
    rw [List.take_zero] at hv
    obtain ⟨line, hl, j, hj, hj0, _⟩ := pool_source lc maxOrder r avoidR c hb [] (by simp) w hv
    rw [hj0 rfl] at hj
    exact ⟨line, hl, hj⟩
  · intro i u v hu hv
    have hd := hdrawn (i + 1) v hv
    rw [List.take_succ, hu] at hd
    simp only [Option.toList_some] at hd
    have hall : ∀ w ∈ words.take i ++ [u], w ≠ [] ∧ spaceFree w := by
      intro w hw1
      rcases List.mem_append.1 hw1 with h | h
      · exact hwords w (List.mem_of_mem_take h)
      · simp only [List.mem_singleton] at h
        rw [h]
        exact hwords u (List.getElem?_mem hu)
    obtain ⟨line, hl, j, hj, _, h3⟩ := pool_source lc maxOrder r avoidR c hb _ hall v hd
    obtain ⟨j1, hj1, hu1⟩ := h3 (words.take i) u rfl
    rw [hj1] at hj
    exact ⟨line, hl, j1, hu1, hj⟩

theorem C19_generated_adjacent_witness :
    (1 : Int) ≤ 2 ∧
    (∃ c words, Build caseRangesLower (NewChain 2) [str "a b c", str "b d"] [] = some c ∧
      generateWords c 6 (fun t => t + 1) = some words ∧
      (∀ w, words[0]? = some w → ∃ line ∈ [str "a b c", str "b d"],
        (learnedLine caseRangesLower (avoidSet caseRangesLower []) line ++ [ENDLINE])[0]? =
          some w) ∧
      (∀ (i : Nat) (u v : Str), words[i]? = some u → words[i + 1]? = some v →
        ∃ line ∈ [str "a b c", str "b d"], ∃ j,
          (learnedLine caseRangesLower (avoidSet caseRangesLower []) line)[j]? = some u ∧
          (learnedLine caseRangesLower (avoidSet caseRangesLower []) line ++ [ENDLINE])[j + 1]? =
            some v)) ∧
    (Build caseRangesLower (NewChain 2) [str "a b c", str "b d"] []).bind
      (fun c => generateWords c 6 (fun t => t + 1)) = some [str "b", str "d", ENDLINE] :=
  ⟨by decide,
    C19_generated_adjacent caseRangesLower 2 (by decide) [str "a b c", str "b d"] []
      6 (fun t => t + 1),
    by decide⟩

/-- On a word whose first byte is ASCII the first character is the first byte, so the hyphen
after the first byte is the hyphen after the first character. -/
theorem hyphenAfterChar_ascii (b : Nat) (rest : Str) (h : b < 0x80) :
    hyphenAfterChar (b :: rest) = (b :: rest).take 1 ++ [45] ++ (b :: rest).drop 1 := by
  unfold hyphenAfterChar
  rw [decodeRune_one b rest (Or.inl (by omega))]

end MarkovChain
